import Mathlib

/-!
# Verification of the pywikicli wiki crawler

Shallow embedding of the crawl engine of `pywikicli` (class
`WikiCrawlerService` in `pywikicli/commands/crawl_command.py`), of the
inline crawl loop of `wikibot/commands/crawl_command.py`, and of the
response handling of `MediaWikiPageService.get_page` in `pywikicli/api.py`,
together with proofs of the behavioural properties stated in the design
specification.

The wiki and the output sink are external collaborators; they are modelled
as function records (`Client`, `Processor`) whose calls may fail
(`Except`), return not-found (`Option`), or succeed.  The crawl loop is a
fuel-indexed recursion over the explicit loop state
(visited list, frontier queue, processed counter); it also returns the
ghost trace of collaborator interactions (`Event` list) so that ordering
properties can be stated.
-/

namespace PyWikiCli

/-- Traversal strategies of `crawl_command.py`: `BreadthFirstStrategy`
(FIFO `get_next`) and `DepthFirstStrategy` (LIFO `get_next`); both share
the same `add_page` (append at the end). -/
inductive Strategy where
  | bfs
  | dfs
deriving DecidableEq, Repr

/-- The wiki collaborator (`self.wiki_client`): `get_page` returns the
content, `none` for a page that does not exist, or raises; `get_links`
returns the outbound link titles or raises. -/
structure Client where
  get_page : String → Except String (Option String)
  get_links : String → Except String (List String)

/-- The output sink (`self.processor`): `process(title, content)` may
raise. -/
structure Processor where
  process : String → String → Except String Unit

/-- Ghost trace of the collaborator interactions of one crawl:
`dequeue` is a `strategy.get_next` return, `fetchPage` a
`wiki_client.get_page` call, `emit` a `processor.process` call,
`getLinks` a `wiki_client.get_links` call, and `enqueue` a
`strategy.add_page` call (the `parent` field records the page whose link
expansion discovered the title). -/
inductive Event where
  | dequeue (page : String) (depth : Nat)
  | fetchPage (page : String)
  | emit (page : String)
  | getLinks (page : String)
  | enqueue (page : String) (depth : Nat) (parent : String)
deriving DecidableEq, Repr

/-- How one invocation of `crawl` ended: the `while` loop exited normally
(`ok`), the fuel bound was hit (`fuelOut`, impossible for enough fuel, see
the termination theorem), or an uncaught exception propagated out
(`err`). -/
inductive Outcome where
  | ok
  | fuelOut
  | err (msg : String)
deriving DecidableEq, Repr

/-- Result of a crawl: the interaction trace, the final `self.visited`
(as a duplicate-free list, so its length is the Python `len(set)`), the
final `self.pages_processed`, and how the run ended.  The returned
statistics dict of `crawl` is `{pages_processed := processed,
pages_discovered := visited.length}`. -/
structure CrawlResult where
  events : List Event
  visited : List String
  processed : Nat
  outcome : Outcome
deriving Repr

/-- `strategy.get_next(queue)` on a non-empty queue `x :: xs` together
with the remaining queue: `BreadthFirstStrategy` pops from the left
(`queue.popleft()`), `DepthFirstStrategy` pops from the right
(`queue.pop()`). -/
def popNext (strat : Strategy) (x : String × Nat) (xs : List (String × Nat)) :
    (String × Nat) × List (String × Nat) :=
  match strat with
  | .bfs => (x, xs)
  | .dfs => ((x :: xs).getLast (List.cons_ne_nil x xs), (x :: xs).dropLast)

/-- The titles of `links` that pass the `if link not in self.visited`
guard, keeping the first occurrence of each (the guard sees the already
updated `self.visited`, so duplicates inside one link list are filtered
too). -/
def newLinks (visited : List String) : List String → List String
  | [] => []
  | l :: ls => if l ∈ visited then newLinks visited ls
               else l :: newLinks (l :: visited) ls

/-- Prepend trace events to the result of the rest of the run. -/
def withEvents (es : List Event) (r : CrawlResult) : CrawlResult :=
  ⟨es ++ r.events, r.visited, r.processed, r.outcome⟩

/-- The `while queue and self.pages_processed < limit` loop of
`WikiCrawlerService.crawl`, with explicit state and fuel.  Python
integers are unbounded and `max_depth`/`limit` come from the CLI as
possibly negative ints, hence `md lim : Int`; the queue depths start at
`0` and only ever grow by `1`, hence `Nat`.  A `get_links` failure is
caught (`except Exception`) and only abandons that page's expansion; a
`get_page` or `process` failure propagates (`Outcome.err`). -/
def crawlLoop (c : Client) (pr : Processor) (strat : Strategy) (md lim : Int) :
    Nat → List String → List (String × Nat) → Nat → CrawlResult
  | fuel, v, q, n =>
    match q with
    | [] => ⟨[], v, n, .ok⟩
    | x :: xs =>
      if (n : Int) < lim then
        match fuel with
        | 0 => ⟨[], v, n, .fuelOut⟩
        | fuel + 1 =>
          match popNext strat x xs with
          | ((p, d), rest) =>
            match c.get_page p with
            | .error e => ⟨[.dequeue p d, .fetchPage p], v, n, .err e⟩
            | .ok none =>
                withEvents [.dequeue p d, .fetchPage p]
                  (crawlLoop c pr strat md lim fuel v rest n)
            | .ok (some content) =>
              match pr.process p content with
              | .error e => ⟨[.dequeue p d, .fetchPage p, .emit p], v, n + 1, .err e⟩
              | .ok _ =>
                if (d : Int) < md then
                  match c.get_links p with
                  | .error _ =>
                      withEvents [.dequeue p d, .fetchPage p, .emit p, .getLinks p]
                        (crawlLoop c pr strat md lim fuel v rest (n + 1))
                  | .ok links =>
                      withEvents ([.dequeue p d, .fetchPage p, .emit p, .getLinks p] ++
                          (newLinks v links).map (fun l => Event.enqueue l (d + 1) p))
                        (crawlLoop c pr strat md lim fuel (v ++ newLinks v links)
                          (rest ++ (newLinks v links).map (fun l => (l, d + 1))) (n + 1))
                else
                  withEvents [.dequeue p d, .fetchPage p, .emit p]
                    (crawlLoop c pr strat md lim fuel v rest (n + 1))
      else ⟨[], v, n, .ok⟩

/-- `WikiCrawlerService.crawl(start_page, max_depth, limit)`: seeds
`self.visited = {start_page}`, `queue = deque([(start_page, 0)])`,
`self.pages_processed = 0` and runs the loop. -/
def crawl (c : Client) (pr : Processor) (strat : Strategy) (start : String)
    (md lim : Int) (fuel : Nat) : CrawlResult :=
  crawlLoop c pr strat md lim fuel [start] [(start, 0)] 0

/-- The inline crawl loop of `wikibot/commands/crawl_command.py`
(`crawl_command`): identical state machine with the strategy branch and
the output code written inline; the sink (file write / console echo) is
not a fallible collaborator there. -/
def wikibotLoop (c : Client) (strat : Strategy) (md lim : Int) :
    Nat → List String → List (String × Nat) → Nat → CrawlResult
  | fuel, v, q, n =>
    match q with
    | [] => ⟨[], v, n, .ok⟩
    | x :: xs =>
      if (n : Int) < lim then
        match fuel with
        | 0 => ⟨[], v, n, .fuelOut⟩
        | fuel + 1 =>
          match popNext strat x xs with
          | ((p, d), rest) =>
            match c.get_page p with
            | .error e => ⟨[.dequeue p d, .fetchPage p], v, n, .err e⟩
            | .ok none =>
                withEvents [.dequeue p d, .fetchPage p]
                  (wikibotLoop c strat md lim fuel v rest n)
            | .ok (some _) =>
                if (d : Int) < md then
                  match c.get_links p with
                  | .error _ =>
                      withEvents [.dequeue p d, .fetchPage p, .emit p, .getLinks p]
                        (wikibotLoop c strat md lim fuel v rest (n + 1))
                  | .ok links =>
                      withEvents ([.dequeue p d, .fetchPage p, .emit p, .getLinks p] ++
                          (newLinks v links).map (fun l => Event.enqueue l (d + 1) p))
                        (wikibotLoop c strat md lim fuel (v ++ newLinks v links)
                          (rest ++ (newLinks v links).map (fun l => (l, d + 1))) (n + 1))
                else
                  withEvents [.dequeue p d, .fetchPage p, .emit p]
                    (wikibotLoop c strat md lim fuel v rest (n + 1))
      else ⟨[], v, n, .ok⟩

/-- The wikibot command's crawl: same seeding as `crawl`. -/
def wikibotCrawl (c : Client) (strat : Strategy) (start : String)
    (md lim : Int) (fuel : Nat) : CrawlResult :=
  wikibotLoop c strat md lim fuel [start] [(start, 0)] 0

/-- A non-failing sink. -/
def okProcessor : Processor := ⟨fun _ _ => .ok ()⟩

/-- A wiki without transport failures, built from a page table and a link
table: `get_page` is `none` exactly for absent titles, `get_links`
returns the table entry (absent titles have no links). -/
def tableClient (pages : List (String × String)) (links : List (String × List String)) :
    Client where
  get_page t := .ok (pages.lookup t)
  get_links t := .ok ((links.lookup t).getD [])

/-! ## Event classification predicates -/

/-- Is this event a `get_next` return of title `t`? -/
def isDeq (t : String) : Event → Bool
  | .dequeue t' _ => t' == t
  | _ => false

/-- Is this event an `add_page` call for title `t`? -/
def isEnq (t : String) : Event → Bool
  | .enqueue t' _ _ => t' == t
  | _ => false

/-- Is this event an `add_page` call made during the expansion of `t`? -/
def isEnqPar (t : String) : Event → Bool
  | .enqueue _ _ par => par == t
  | _ => false

/-- Is this event a `processor.process` call for title `t`? -/
def isEmit (t : String) : Event → Bool
  | .emit t' => t' == t
  | _ => false

/-- Is this event a `get_links` call for title `t`? -/
def isGL (t : String) : Event → Bool
  | .getLinks t' => t' == t
  | _ => false

/-- Is this event any `get_next` return? -/
def isDeqAny : Event → Bool
  | .dequeue _ _ => true
  | _ => false

/-- Is this event any `processor.process` call? -/
def isEmitAny : Event → Bool
  | .emit _ => true
  | _ => false

@[simp] theorem withEvents_events (es : List Event) (r : CrawlResult) :
    (withEvents es r).events = es ++ r.events := rfl

@[simp] theorem withEvents_visited (es : List Event) (r : CrawlResult) :
    (withEvents es r).visited = r.visited := rfl

@[simp] theorem withEvents_processed (es : List Event) (r : CrawlResult) :
    (withEvents es r).processed = r.processed := rfl

@[simp] theorem withEvents_outcome (es : List Event) (r : CrawlResult) :
    (withEvents es r).outcome = r.outcome := rfl

/-! ## Facts about `popNext` and `newLinks` -/

@[simp] theorem popNext_bfs (x : String × Nat) (xs : List (String × Nat)) :
    popNext .bfs x xs = (x, xs) := rfl

/-- A dequeue removes one entry: the queue is a permutation of the popped
entry put in front of the remaining queue. -/
theorem popNext_perm (strat : Strategy) (x : String × Nat) (xs : List (String × Nat)) :
    (x :: xs).Perm ((popNext strat x xs).1 :: (popNext strat x xs).2) := by
  cases strat with
  | bfs => simp
  | dfs =>
      simp only [popNext]
      conv_lhs => rw [← List.dropLast_append_getLast (List.cons_ne_nil x xs)]
      exact List.perm_append_singleton _ _

/-- For the depth-first strategy the queue is the remaining queue with the
popped entry on top (at the appended end). -/
theorem popNext_dfs_eq (x : String × Nat) (xs : List (String × Nat)) :
    x :: xs = (popNext .dfs x xs).2 ++ [(popNext .dfs x xs).1] := by
  simp only [popNext]
  exact (List.dropLast_append_getLast (List.cons_ne_nil x xs)).symm

/-- For the breadth-first strategy the queue is the popped entry followed
by the remaining queue. -/
theorem popNext_bfs_eq (x : String × Nat) (xs : List (String × Nat)) :
    x :: xs = (popNext .bfs x xs).1 :: (popNext .bfs x xs).2 := rfl

theorem newLinks_subset {v : List String} : ∀ {ls : List String} {l : String},
    l ∈ newLinks v ls → l ∈ ls := by
  intro ls
  induction ls generalizing v with
  | nil => intro l h; simp [newLinks] at h
  | cons a as ih =>
      intro l h
      simp only [newLinks] at h
      by_cases ha : a ∈ v
      · simp only [if_pos ha] at h
        exact List.mem_cons_of_mem _ (ih h)
      · simp only [if_neg ha, List.mem_cons] at h
        rcases h with rfl | h
        · exact List.mem_cons_self _ _
        · exact List.mem_cons_of_mem _ (ih h)

theorem newLinks_not_visited : ∀ {ls v : List String} {l : String},
    l ∈ newLinks v ls → l ∉ v := by
  intro ls
  induction ls with
  | nil => intro v l h; simp [newLinks] at h
  | cons a as ih =>
      intro v l h
      simp only [newLinks] at h
      by_cases ha : a ∈ v
      · simp only [if_pos ha] at h
        exact ih h
      · simp only [if_neg ha, List.mem_cons] at h
        rcases h with rfl | h
        · exact ha
        · intro hv
          exact (ih h) (List.mem_cons_of_mem _ hv)

theorem newLinks_nodup : ∀ {ls v : List String}, (newLinks v ls).Nodup := by
  intro ls
  induction ls with
  | nil => intro v; simp [newLinks]
  | cons a as ih =>
      intro v
      simp only [newLinks]
      by_cases ha : a ∈ v
      · simp only [if_pos ha]; exact ih
      · simp only [if_neg ha]
        refine List.nodup_cons.mpr ⟨fun hmem => ?_, ih⟩
        exact (newLinks_not_visited hmem) (List.mem_cons_self _ _)

/-! ## Step equations for the crawl loop

One equation per control-flow branch of the loop body; every invariant
proof below is an induction on the fuel that dispatches on these. -/

section StepEquations

variable {c : Client} {pr : Processor} {strat : Strategy} {md lim : Int}
variable {fuel : Nat} {v : List String} {n : Nat}
variable {x : String × Nat} {xs rest : List (String × Nat)} {p : String} {d : Nat}

theorem crawlLoop_nil : crawlLoop c pr strat md lim fuel v [] n = ⟨[], v, n, .ok⟩ := by
  cases fuel <;> rfl

theorem crawlLoop_limit (h : ¬ (n : Int) < lim) :
    crawlLoop c pr strat md lim fuel v (x :: xs) n = ⟨[], v, n, .ok⟩ := by
  cases fuel <;> simp [crawlLoop, h]

theorem crawlLoop_fuelOut (h : (n : Int) < lim) :
    crawlLoop c pr strat md lim 0 v (x :: xs) n = ⟨[], v, n, .fuelOut⟩ := by
  simp [crawlLoop, h]

theorem crawlLoop_fetchErr (h : (n : Int) < lim)
    (hpq : popNext strat x xs = ((p, d), rest)) {e : String}
    (hgp : c.get_page p = .error e) :
    crawlLoop c pr strat md lim (fuel + 1) v (x :: xs) n =
      ⟨[.dequeue p d, .fetchPage p], v, n, .err e⟩ := by
  simp [crawlLoop, h, hpq, hgp]

theorem crawlLoop_notFound (h : (n : Int) < lim)
    (hpq : popNext strat x xs = ((p, d), rest))
    (hgp : c.get_page p = .ok none) :
    crawlLoop c pr strat md lim (fuel + 1) v (x :: xs) n =
      withEvents [.dequeue p d, .fetchPage p]
        (crawlLoop c pr strat md lim fuel v rest n) := by
  simp [crawlLoop, h, hpq, hgp]

theorem crawlLoop_procErr (h : (n : Int) < lim)
    (hpq : popNext strat x xs = ((p, d), rest)) {content e : String}
    (hgp : c.get_page p = .ok (some content))
    (hproc : pr.process p content = .error e) :
    crawlLoop c pr strat md lim (fuel + 1) v (x :: xs) n =
      ⟨[.dequeue p d, .fetchPage p, .emit p], v, n + 1, .err e⟩ := by
  simp [crawlLoop, h, hpq, hgp, hproc]

theorem crawlLoop_noExpand (h : (n : Int) < lim)
    (hpq : popNext strat x xs = ((p, d), rest)) {content : String}
    (hgp : c.get_page p = .ok (some content))
    (hproc : pr.process p content = .ok ())
    (hd : ¬ (d : Int) < md) :
    crawlLoop c pr strat md lim (fuel + 1) v (x :: xs) n =
      withEvents [.dequeue p d, .fetchPage p, .emit p]
        (crawlLoop c pr strat md lim fuel v rest (n + 1)) := by
  simp [crawlLoop, h, hpq, hgp, hproc, hd]

theorem crawlLoop_linksErr (h : (n : Int) < lim)
    (hpq : popNext strat x xs = ((p, d), rest)) {content e : String}
    (hgp : c.get_page p = .ok (some content))
    (hproc : pr.process p content = .ok ())
    (hd : (d : Int) < md)
    (hgl : c.get_links p = .error e) :
    crawlLoop c pr strat md lim (fuel + 1) v (x :: xs) n =
      withEvents [.dequeue p d, .fetchPage p, .emit p, .getLinks p]
        (crawlLoop c pr strat md lim fuel v rest (n + 1)) := by
  simp [crawlLoop, h, hpq, hgp, hproc, hd, hgl]

theorem crawlLoop_expand (h : (n : Int) < lim)
    (hpq : popNext strat x xs = ((p, d), rest)) {content : String}
    (hgp : c.get_page p = .ok (some content))
    (hproc : pr.process p content = .ok ())
    (hd : (d : Int) < md) {links : List String}
    (hgl : c.get_links p = .ok links) :
    crawlLoop c pr strat md lim (fuel + 1) v (x :: xs) n =
      withEvents ([.dequeue p d, .fetchPage p, .emit p, .getLinks p] ++
          (newLinks v links).map (fun l => Event.enqueue l (d + 1) p))
        (crawlLoop c pr strat md lim fuel (v ++ newLinks v links)
          (rest ++ (newLinks v links).map (fun l => (l, d + 1))) (n + 1)) := by
  simp [crawlLoop, h, hpq, hgp, hproc, hd, hgl]

end StepEquations

/-! ## List helpers -/

/-- Splitting a concatenation at a distinguished element: the element lies
in the left or in the right part. -/
theorem append_cons_cases {α : Type} {l₁ l₂ f₁ f₂ : List α} {a : α}
    (h : l₁ ++ l₂ = f₁ ++ a :: f₂) :
    (∃ g, l₁ = f₁ ++ a :: g ∧ f₂ = g ++ l₂) ∨
    (∃ g, f₁ = l₁ ++ g ∧ l₂ = g ++ a :: f₂) := by
  rcases List.append_eq_append_iff.mp h with ⟨a', ha1, ha2⟩ | ⟨c', hc1, hc2⟩
  · exact Or.inr ⟨a', ha1, ha2⟩
  · cases c' with
    | nil =>
        simp only [List.append_nil] at hc1
        simp only [List.nil_append] at hc2
        exact Or.inr ⟨[], by simp [hc1], by simp [← hc2]⟩
    | cons y ys =>
        rcases List.cons.injEq .. ▸ hc2 with ⟨rfl, hys⟩
        exact Or.inl ⟨ys, hc1, hys⟩

/-- Two distinct members both satisfying a predicate force the count of
that predicate to be at least two. -/
theorem two_le_countP_of_mem {α : Type} {l : List α} {a b : α} {pred : α → Bool}
    (ha : a ∈ l) (hb : b ∈ l) (hab : a ≠ b) (hpa : pred a) (hpb : pred b) :
    2 ≤ l.countP pred := by
  obtain ⟨s, t, rfl⟩ := List.append_of_mem ha
  rcases List.mem_append.mp hb with hbs | hbt
  · obtain ⟨s₁, s₂, rfl⟩ := List.append_of_mem hbs
    simp only [List.countP_append, List.countP_cons, hpa, hpb, if_pos]
    omega
  · rcases List.mem_cons.mp hbt with rfl | hbt
    · exact absurd rfl hab
    · obtain ⟨t₁, t₂, rfl⟩ := List.append_of_mem hbt
      simp only [List.countP_append, List.countP_cons, hpa, hpb, if_pos]
      omega

/-- With a count of at most one, two members satisfying the predicate are
equal. -/
theorem eq_of_countP_le_one {α : Type} {l : List α} {a b : α} {pred : α → Bool}
    (hcount : l.countP pred ≤ 1) (ha : a ∈ l) (hb : b ∈ l)
    (hpa : pred a) (hpb : pred b) : a = b := by
  by_contra hab
  exact absurd hcount (by simpa using two_le_countP_of_mem ha hb hab hpa hpb)

/-! ## The queue/visited well-formedness invariant

`self.visited` always contains every queued title (the start page is
seeded into both, and a link is added to `self.visited` at the same
moment it is enqueued), and the queue never holds the same title twice. -/

/-- Well-formedness of one loop state. -/
def goodState (v : List String) (q : List (String × Nat)) : Prop :=
  (q.map Prod.fst).Nodup ∧ ∀ e ∈ q, e.1 ∈ v

theorem goodState_init (start : String) : goodState [start] [(start, 0)] := by
  constructor
  · simp
  · intro e he
    simp only [List.mem_singleton] at he
    simp [he]

theorem goodState_rest (hgs : goodState v (x :: xs))
    (hpq : popNext strat x xs = ((p, d), rest)) : goodState v rest := by
  obtain ⟨hnd, hmem⟩ := hgs
  have hperm := popNext_perm strat x xs
  rw [hpq] at hperm
  constructor
  · have := (hperm.map Prod.fst).nodup_iff.mp hnd
    exact (List.nodup_cons.mp this).2
  · intro e he
    exact hmem e (hperm.symm.subset (List.mem_cons_of_mem _ he))

/-- The popped title is a queued title. -/
theorem popNext_mem (hpq : popNext strat x xs = ((p, d), rest)) :
    (p, d) ∈ x :: xs := by
  have hperm := popNext_perm strat x xs
  rw [hpq] at hperm
  exact hperm.symm.subset (List.mem_cons_self _ _)

/-- The popped title does not remain in the rest of the queue. -/
theorem popNext_not_mem_rest (hgs : goodState v (x :: xs))
    (hpq : popNext strat x xs = ((p, d), rest)) : p ∉ rest.map Prod.fst := by
  obtain ⟨hnd, _⟩ := hgs
  have hperm := (popNext_perm strat x xs).map Prod.fst
  rw [hpq] at hperm
  have : (p :: rest.map Prod.fst).Nodup := hperm.nodup_iff.mp hnd
  exact (List.nodup_cons.mp this).1

theorem goodState_expand (hgs : goodState v (x :: xs))
    (hpq : popNext strat x xs = ((p, d), rest)) (links : List String) :
    goodState (v ++ newLinks v links)
      (rest ++ (newLinks v links).map (fun l => (l, d + 1))) := by
  obtain ⟨hnd, hmem⟩ := goodState_rest hgs hpq
  constructor
  · rw [List.map_append]
    have hmap : ((newLinks v links).map (fun l => (l, d + 1))).map Prod.fst
        = newLinks v links := by
      simp [List.map_map, Function.comp_def]
    rw [hmap]
    refine List.Nodup.append hnd newLinks_nodup ?_
    intro t ht ht'
    obtain ⟨e, he, rfl⟩ := List.mem_map.mp ht
    exact newLinks_not_visited ht' (hmem e he)
  · intro e he
    rcases List.mem_append.mp he with h | h
    · exact List.mem_append_left _ (hmem e h)
    · obtain ⟨l, hl, rfl⟩ := List.mem_map.mp h
      exact List.mem_append_right _ hl

/-! ## Visited set growth and the processed counter -/

/-- `self.visited` only grows during the loop. -/
theorem visited_extend (c : Client) (pr : Processor) (strat : Strategy) (md lim : Int) :
    ∀ (fuel : Nat) (v : List String) (q : List (String × Nat)) (n : Nat),
      ∃ w, (crawlLoop c pr strat md lim fuel v q n).visited = v ++ w := by
  intro fuel
  induction fuel with
  | zero =>
      intro v q n
      refine ⟨[], ?_⟩
      cases q with
      | nil => rw [crawlLoop_nil]; simp
      | cons x xs =>
          by_cases h : (n : Int) < lim
          · rw [crawlLoop_fuelOut h]; simp
          · rw [crawlLoop_limit h]; simp
  | succ fuel ih =>
      intro v q n
      cases q with
      | nil => exact ⟨[], by rw [crawlLoop_nil]; simp⟩
      | cons x xs =>
          by_cases h : (n : Int) < lim
          · rcases hpq : popNext strat x xs with ⟨⟨p, d⟩, rest⟩
            rcases hgp : c.get_page p with e | co
            · exact ⟨[], by rw [crawlLoop_fetchErr h hpq hgp]; simp⟩
            · rcases co with _ | content
              · obtain ⟨w, hw⟩ := ih v rest n
                exact ⟨w, by rw [crawlLoop_notFound h hpq hgp]; simpa using hw⟩
              · rcases hproc : pr.process p content with e | u
                · exact ⟨[], by rw [crawlLoop_procErr h hpq hgp hproc]; simp⟩
                · cases u
                  by_cases hd : (d : Int) < md
                  · rcases hgl : c.get_links p with e | links
                    · obtain ⟨w, hw⟩ := ih v rest (n + 1)
                      exact ⟨w, by rw [crawlLoop_linksErr h hpq hgp hproc hd hgl]; simpa using hw⟩
                    · obtain ⟨w, hw⟩ := ih (v ++ newLinks v links)
                        (rest ++ (newLinks v links).map (fun l => (l, d + 1))) (n + 1)
                      refine ⟨newLinks v links ++ w, ?_⟩
                      rw [crawlLoop_expand h hpq hgp hproc hd hgl]
                      simpa [List.append_assoc] using hw
                  · obtain ⟨w, hw⟩ := ih v rest (n + 1)
                    exact ⟨w, by rw [crawlLoop_noExpand h hpq hgp hproc hd]; simpa using hw⟩
          · exact ⟨[], by rw [crawlLoop_limit h]; simp⟩

/-! ## An induction principle following the loop's control flow -/

/-- Induction principle for `crawlLoop`: to establish a property of the
result from any state, it suffices to establish it for the two loop-exit
shapes, for fuel exhaustion, and for each of the six bodies of one
iteration (fetch error, not-found skip, sink error, no expansion at the
depth ceiling, absorbed link failure, and link expansion), assuming it
for the result of the rest of the run. -/
theorem crawlLoop_rec (c : Client) (pr : Processor) (strat : Strategy) (md lim : Int)
    (P : List String → List (String × Nat) → Nat → CrawlResult → Prop)
    (hnil : ∀ v n, P v [] n ⟨[], v, n, .ok⟩)
    (hlimit : ∀ (v : List String) (x : String × Nat) (xs : List (String × Nat)) (n : Nat),
        ¬ (n : Int) < lim → P v (x :: xs) n ⟨[], v, n, .ok⟩)
    (hfuel : ∀ (v : List String) (x : String × Nat) (xs : List (String × Nat)) (n : Nat),
        (n : Int) < lim → P v (x :: xs) n ⟨[], v, n, .fuelOut⟩)
    (hferr : ∀ (v : List String) (x : String × Nat) (xs : List (String × Nat)) (n : Nat)
        (p : String) (d : Nat) rest e, (n : Int) < lim →
        popNext strat x xs = ((p, d), rest) → c.get_page p = .error e →
        P v (x :: xs) n ⟨[.dequeue p d, .fetchPage p], v, n, .err e⟩)
    (hnf : ∀ (v : List String) (x : String × Nat) (xs : List (String × Nat)) (n : Nat)
        (p : String) (d : Nat) rest r, (n : Int) < lim →
        popNext strat x xs = ((p, d), rest) → c.get_page p = .ok none →
        P v rest n r →
        P v (x :: xs) n (withEvents [.dequeue p d, .fetchPage p] r))
    (hperr : ∀ (v : List String) (x : String × Nat) (xs : List (String × Nat)) (n : Nat)
        (p : String) (d : Nat) rest content e, (n : Int) < lim →
        popNext strat x xs = ((p, d), rest) → c.get_page p = .ok (some content) →
        pr.process p content = .error e →
        P v (x :: xs) n ⟨[.dequeue p d, .fetchPage p, .emit p], v, n + 1, .err e⟩)
    (hnoexp : ∀ (v : List String) (x : String × Nat) (xs : List (String × Nat)) (n : Nat)
        (p : String) (d : Nat) rest content r, (n : Int) < lim →
        popNext strat x xs = ((p, d), rest) → c.get_page p = .ok (some content) →
        pr.process p content = .ok () → ¬ (d : Int) < md →
        P v rest (n + 1) r →
        P v (x :: xs) n (withEvents [.dequeue p d, .fetchPage p, .emit p] r))
    (hlerr : ∀ (v : List String) (x : String × Nat) (xs : List (String × Nat)) (n : Nat)
        (p : String) (d : Nat) rest content e r, (n : Int) < lim →
        popNext strat x xs = ((p, d), rest) → c.get_page p = .ok (some content) →
        pr.process p content = .ok () → (d : Int) < md → c.get_links p = .error e →
        P v rest (n + 1) r →
        P v (x :: xs) n
          (withEvents [.dequeue p d, .fetchPage p, .emit p, .getLinks p] r))
    (hexp : ∀ (v : List String) (x : String × Nat) (xs : List (String × Nat)) (n : Nat)
        (p : String) (d : Nat) rest content links r, (n : Int) < lim →
        popNext strat x xs = ((p, d), rest) → c.get_page p = .ok (some content) →
        pr.process p content = .ok () → (d : Int) < md → c.get_links p = .ok links →
        P (v ++ newLinks v links)
          (rest ++ (newLinks v links).map (fun l => (l, d + 1))) (n + 1) r →
        P v (x :: xs) n
          (withEvents ([.dequeue p d, .fetchPage p, .emit p, .getLinks p] ++
            (newLinks v links).map (fun l => Event.enqueue l (d + 1) p)) r)) :
    ∀ (fuel : Nat) (v : List String) (q : List (String × Nat)) (n : Nat),
      P v q n (crawlLoop c pr strat md lim fuel v q n) := by
  intro fuel
  induction fuel with
  | zero =>
      intro v q n
      cases q with
      | nil => rw [crawlLoop_nil]; exact hnil v n
      | cons x xs =>
          by_cases h : (n : Int) < lim
          · rw [crawlLoop_fuelOut h]; exact hfuel v x xs n h
          · rw [crawlLoop_limit h]; exact hlimit v x xs n h
  | succ fuel ih =>
      intro v q n
      cases q with
      | nil => rw [crawlLoop_nil]; exact hnil v n
      | cons x xs =>
          by_cases h : (n : Int) < lim
          · rcases hpq : popNext strat x xs with ⟨⟨p, d⟩, rest⟩
            rcases hgp : c.get_page p with e | co
            · rw [crawlLoop_fetchErr h hpq hgp]
              exact hferr v x xs n p d rest e h hpq hgp
            · rcases co with _ | content
              · rw [crawlLoop_notFound h hpq hgp]
                exact hnf v x xs n p d rest _ h hpq hgp (ih v rest n)
              · rcases hproc : pr.process p content with e | u
                · rw [crawlLoop_procErr h hpq hgp hproc]
                  exact hperr v x xs n p d rest content e h hpq hgp hproc
                · cases u
                  by_cases hd : (d : Int) < md
                  · rcases hgl : c.get_links p with e | links
                    · rw [crawlLoop_linksErr h hpq hgp hproc hd hgl]
                      exact hlerr v x xs n p d rest content e _ h hpq hgp hproc hd hgl
                        (ih v rest (n + 1))
                    · rw [crawlLoop_expand h hpq hgp hproc hd hgl]
                      exact hexp v x xs n p d rest content links _ h hpq hgp hproc hd hgl
                        (ih (v ++ newLinks v links)
                          (rest ++ (newLinks v links).map (fun l => (l, d + 1))) (n + 1))
                  · rw [crawlLoop_noExpand h hpq hgp hproc hd]
                    exact hnoexp v x xs n p d rest content _ h hpq hgp hproc hd
                      (ih v rest (n + 1))
          · rw [crawlLoop_limit h]; exact hlimit v x xs n h

/-! ## Counting events -/

/-- The enqueue events of one expansion satisfy no predicate that is false
on enqueue events. -/
theorem countP_enqMap_eq_zero {pred : Event → Bool}
    (hpred : ∀ l dq par, pred (.enqueue l dq par) = false)
    (fresh : List String) (dq : Nat) (par : String) :
    (fresh.map (fun l => Event.enqueue l dq par)).countP pred = 0 := by
  rw [List.countP_eq_zero]
  intro a ha
  obtain ⟨l, _, rfl⟩ := List.mem_map.mp ha
  simp [hpred]

/-- Counting the enqueue events of title `t` in one expansion counts `t`
in the fresh-link list. -/
theorem countP_enqMap_isEnq (t : String) (fresh : List String) (dq : Nat) (par : String) :
    (fresh.map (fun l => Event.enqueue l dq par)).countP (isEnq t) = fresh.count t := by
  simp [List.countP_map, Function.comp_def, isEnq, List.count]

/-- `self.pages_processed` grows by exactly the number of
`processor.process` calls. -/
theorem processed_count (c : Client) (pr : Processor) (strat : Strategy) (md lim : Int) :
    ∀ (fuel : Nat) (v : List String) (q : List (String × Nat)) (n : Nat),
      (crawlLoop c pr strat md lim fuel v q n).processed =
        n + (crawlLoop c pr strat md lim fuel v q n).events.countP isEmitAny := by
  refine crawlLoop_rec c pr strat md lim
    (fun _ _ n r => r.processed = n + r.events.countP isEmitAny)
    ?_ ?_ ?_ ?_ ?_ ?_ ?_ ?_ ?_
  · intro v n; simp
  · intro v x xs n _; simp
  · intro v x xs n _; simp
  · intro v x xs n p d rest e _ _ _; simp [List.countP_cons, isEmitAny]
  · intro v x xs n p d rest r _ _ _ ih
    simp only [withEvents_events, withEvents_processed, List.countP_append]
    simp [List.countP_cons, isEmitAny, ih]
  · intro v x xs n p d rest content e _ _ _ _; simp [List.countP_cons, isEmitAny]
  · intro v x xs n p d rest content r _ _ _ _ _ ih
    simp only [withEvents_events, withEvents_processed, List.countP_append]
    simp only [ih]
    simp [List.countP_cons, isEmitAny]
    omega
  · intro v x xs n p d rest content e r _ _ _ _ _ _ ih
    simp only [withEvents_events, withEvents_processed, List.countP_append]
    simp only [ih]
    simp [List.countP_cons, isEmitAny]
    omega
  · intro v x xs n p d rest content links r _ _ _ _ _ _ ih
    simp only [withEvents_events, withEvents_processed, List.countP_append]
    simp only [ih]
    rw [countP_enqMap_eq_zero (fun _ _ _ => rfl)]
    simp [List.countP_cons, isEmitAny]
    omega

/-- The processed counter never exceeds the limit (when it starts below
it). -/
theorem processed_le (c : Client) (pr : Processor) (strat : Strategy) (md lim : Int) :
    ∀ (fuel : Nat) (v : List String) (q : List (String × Nat)) (n : Nat),
      (n : Int) ≤ lim → ((crawlLoop c pr strat md lim fuel v q n).processed : Int) ≤ lim := by
  refine crawlLoop_rec c pr strat md lim
    (fun _ _ n r => (n : Int) ≤ lim → (r.processed : Int) ≤ lim)
    ?_ ?_ ?_ ?_ ?_ ?_ ?_ ?_ ?_
  · intro v n h; simpa using h
  · intro v x xs n _ h; simpa using h
  · intro v x xs n _ h; simpa using h
  · intro v x xs n p d rest e _ _ _ h; simpa using h
  · intro v x xs n p d rest r _ _ _ ih h
    simpa using ih h
  · intro v x xs n p d rest content e hlt _ _ _ _
    simp only [CrawlResult.processed]
    push_cast
    omega
  · intro v x xs n p d rest content r hlt _ _ _ _ ih _
    simp only [withEvents_processed]
    refine ih ?_
    push_cast
    omega
  · intro v x xs n p d rest content e r hlt _ _ _ _ _ ih _
    simp only [withEvents_processed]
    refine ih ?_
    push_cast
    omega
  · intro v x xs n p d rest content links r hlt _ _ _ _ _ ih _
    simp only [withEvents_processed]
    refine ih ?_
    push_cast
    omega

/-- Core of the visited-once invariant: from a well-formed state, every
title is passed to `add_page` at most once, and a title already in
`self.visited` is never passed to `add_page` at all. -/
theorem enq_count (c : Client) (pr : Processor) (strat : Strategy) (md lim : Int) :
    ∀ (fuel : Nat) (v : List String) (q : List (String × Nat)) (n : Nat),
      goodState v q → ∀ t : String,
        ((crawlLoop c pr strat md lim fuel v q n).events.countP (isEnq t) ≤ 1) ∧
        (t ∈ v → (crawlLoop c pr strat md lim fuel v q n).events.countP (isEnq t) = 0) := by
  refine crawlLoop_rec c pr strat md lim
    (fun v q _ r => goodState v q → ∀ t,
      (r.events.countP (isEnq t) ≤ 1) ∧ (t ∈ v → r.events.countP (isEnq t) = 0))
    ?_ ?_ ?_ ?_ ?_ ?_ ?_ ?_ ?_
  · intro v n _ t; simp
  · intro v x xs n _ _ t; simp
  · intro v x xs n _ _ t; simp
  · intro v x xs n p d rest e _ _ _ _ t; simp [List.countP_cons, isEnq]
  · intro v x xs n p d rest r _ hpq _ ih hgs t
    have := ih (goodState_rest hgs hpq) t
    simpa [List.countP_cons, isEnq] using this
  · intro v x xs n p d rest content e _ _ _ _ _ t; simp [List.countP_cons, isEnq]
  · intro v x xs n p d rest content r _ hpq _ _ _ ih hgs t
    have := ih (goodState_rest hgs hpq) t
    simpa [List.countP_cons, isEnq] using this
  · intro v x xs n p d rest content e r _ hpq _ _ _ _ ih hgs t
    have := ih (goodState_rest hgs hpq) t
    simpa [List.countP_cons, isEnq] using this
  · intro v x xs n p d rest content links r _ hpq _ _ _ _ ih hgs t
    have hih := ih (goodState_expand hgs hpq links) t
    simp only [withEvents_events, List.countP_append, countP_enqMap_isEnq,
      List.countP_cons, isEnq, List.countP_nil]
    simp only [List.append_assoc] at hih ⊢
    by_cases ht : t ∈ newLinks v links
    · have hcnt : (newLinks v links).count t = 1 :=
        List.count_eq_one_of_mem newLinks_nodup ht
      have hzero : r.events.countP (isEnq t) = 0 :=
        hih.2 (List.mem_append_right v ht)
      constructor
      · simp [isEnq, hcnt, hzero]
      · intro htv
        exact absurd htv (newLinks_not_visited ht)
    · have hcnt : (newLinks v links).count t = 0 :=
        List.count_eq_zero_of_not_mem ht
      constructor
      · simpa [isEnq, hcnt] using hih.1
      · intro htv
        have := hih.2 (List.mem_append_left _ htv)
        simpa [isEnq, hcnt] using this

/-- Every title passed to `add_page` is in `self.visited` from that
moment on, and `self.visited` only ever grows. -/
theorem enq_mem_visited (c : Client) (pr : Processor) (strat : Strategy) (md lim : Int) :
    ∀ (fuel : Nat) (v : List String) (q : List (String × Nat)) (n : Nat),
      (∃ w, (crawlLoop c pr strat md lim fuel v q n).visited = v ++ w) ∧
      (∀ t dq par, Event.enqueue t dq par ∈ (crawlLoop c pr strat md lim fuel v q n).events →
        t ∈ (crawlLoop c pr strat md lim fuel v q n).visited) := by
  refine crawlLoop_rec c pr strat md lim
    (fun v _ _ r => (∃ w, r.visited = v ++ w) ∧
      (∀ t dq par, Event.enqueue t dq par ∈ r.events → t ∈ r.visited))
    ?_ ?_ ?_ ?_ ?_ ?_ ?_ ?_ ?_
  · intro v n; exact ⟨⟨[], by simp⟩, by simp⟩
  · intro v x xs n _; exact ⟨⟨[], by simp⟩, by simp⟩
  · intro v x xs n _; exact ⟨⟨[], by simp⟩, by simp⟩
  · intro v x xs n p d rest e _ _ _
    exact ⟨⟨[], by simp⟩, by intro t dq par h; simp at h⟩
  · intro v x xs n p d rest r _ _ _ ih
    refine ⟨by simpa using ih.1, ?_⟩
    intro t dq par h
    rw [withEvents_events, List.mem_append] at h
    rcases h with h | h
    · simp at h
    · simpa using ih.2 t dq par h
  · intro v x xs n p d rest content e _ _ _ _
    exact ⟨⟨[], by simp⟩, by intro t dq par h; simp at h⟩
  · intro v x xs n p d rest content r _ _ _ _ _ ih
    refine ⟨by simpa using ih.1, ?_⟩
    intro t dq par h
    rw [withEvents_events, List.mem_append] at h
    rcases h with h | h
    · simp at h
    · simpa using ih.2 t dq par h
  · intro v x xs n p d rest content e r _ _ _ _ _ _ ih
    refine ⟨by simpa using ih.1, ?_⟩
    intro t dq par h
    rw [withEvents_events, List.mem_append] at h
    rcases h with h | h
    · simp at h
    · simpa using ih.2 t dq par h
  · intro v x xs n p d rest content links r _ _ _ _ _ _ ih
    obtain ⟨⟨w, hw⟩, ihm⟩ := ih
    refine ⟨⟨newLinks v links ++ w, by simp [hw]⟩, ?_⟩
    intro t dq par h
    rw [withEvents_events, List.mem_append] at h
    rcases h with h | h
    · rw [List.mem_append] at h
      rcases h with h | h
      · simp at h
      · obtain ⟨l, hl, he⟩ := List.mem_map.mp h
        cases he
        simp only [withEvents_visited, hw]
        exact List.mem_append_left _ (List.mem_append_right _ hl)
    · simpa using ihm t dq par h

/-! ## What each event kind tells about the collaborators -/

/-- A `process` call for `t` happens only when `get_page t` returned
content. -/
theorem hasEmit_found (c : Client) (pr : Processor) (strat : Strategy) (md lim : Int) :
    ∀ (fuel : Nat) (v : List String) (q : List (String × Nat)) (n : Nat) (t : String),
      .emit t ∈ (crawlLoop c pr strat md lim fuel v q n).events →
      ∃ s, c.get_page t = .ok (some s) := by
  refine crawlLoop_rec c pr strat md lim
    (fun _ _ _ r => ∀ t, .emit t ∈ r.events → ∃ s, c.get_page t = .ok (some s))
    ?_ ?_ ?_ ?_ ?_ ?_ ?_ ?_ ?_
  · intro v n t h; simp at h
  · intro v x xs n _ t h; simp at h
  · intro v x xs n _ t h; simp at h
  · intro v x xs n p d rest e _ _ _ t h; simp at h
  · intro v x xs n p d rest r _ _ _ ih t h
    rw [withEvents_events, List.mem_append] at h
    rcases h with h | h
    · simp at h
    · exact ih t h
  · intro v x xs n p d rest content e _ _ hgp _ t h
    simp only [List.mem_cons] at h
    rcases h with h | h | h | h
    · simp at h
    · simp at h
    · cases h; exact ⟨content, hgp⟩
    · simp at h
  · intro v x xs n p d rest content r _ _ hgp _ _ ih t h
    rw [withEvents_events, List.mem_append] at h
    rcases h with h | h
    · simp only [List.mem_cons] at h
      rcases h with h | h | h | h
      · simp at h
      · simp at h
      · cases h; exact ⟨content, hgp⟩
      · simp at h
    · exact ih t h
  · intro v x xs n p d rest content e r _ _ hgp _ _ _ ih t h
    rw [withEvents_events, List.mem_append] at h
    rcases h with h | h
    · simp only [List.mem_cons] at h
      rcases h with h | h | h | h | h
      · simp at h
      · simp at h
      · cases h; exact ⟨content, hgp⟩
      · simp at h
      · simp at h
    · exact ih t h
  · intro v x xs n p d rest content links r _ _ hgp _ _ _ ih t h
    rw [withEvents_events, List.mem_append] at h
    rcases h with h | h
    · rw [List.mem_append] at h
      rcases h with h | h
      · simp only [List.mem_cons] at h
        rcases h with h | h | h | h | h
        · simp at h
        · simp at h
        · cases h; exact ⟨content, hgp⟩
        · simp at h
        · simp at h
      · obtain ⟨l, _, he⟩ := List.mem_map.mp h
        simp at he
    · exact ih t h

/-- A `get_links` call for `t` happens only after a dequeue of `t` whose
content was fetched, whose `process` call succeeded, and whose depth is
below the ceiling. -/
theorem hasGL_cond (c : Client) (pr : Processor) (strat : Strategy) (md lim : Int) :
    ∀ (fuel : Nat) (v : List String) (q : List (String × Nat)) (n : Nat) (t : String),
      .getLinks t ∈ (crawlLoop c pr strat md lim fuel v q n).events →
      ∃ (s : String) (d' : Nat), c.get_page t = .ok (some s) ∧ pr.process t s = .ok () ∧
        .dequeue t d' ∈ (crawlLoop c pr strat md lim fuel v q n).events ∧
        (d' : Int) < md := by
  refine crawlLoop_rec c pr strat md lim
    (fun _ _ _ r => ∀ t, .getLinks t ∈ r.events →
      ∃ (s : String) (d' : Nat), c.get_page t = .ok (some s) ∧ pr.process t s = .ok () ∧
        .dequeue t d' ∈ r.events ∧ (d' : Int) < md)
    ?_ ?_ ?_ ?_ ?_ ?_ ?_ ?_ ?_
  · intro v n t h; simp at h
  · intro v x xs n _ t h; simp at h
  · intro v x xs n _ t h; simp at h
  · intro v x xs n p d rest e _ _ _ t h; simp at h
  · intro v x xs n p d rest r _ _ _ ih t h
    rw [withEvents_events, List.mem_append] at h
    rcases h with h | h
    · simp at h
    · obtain ⟨s, d', h1, h2, h3, h4⟩ := ih t h
      exact ⟨s, d', h1, h2, by
        rw [withEvents_events, List.mem_append]; exact Or.inr h3, h4⟩
  · intro v x xs n p d rest content e _ _ _ _ t h; simp at h
  · intro v x xs n p d rest content r _ _ _ _ _ ih t h
    rw [withEvents_events, List.mem_append] at h
    rcases h with h | h
    · simp at h
    · obtain ⟨s, d', h1, h2, h3, h4⟩ := ih t h
      exact ⟨s, d', h1, h2, by
        rw [withEvents_events, List.mem_append]; exact Or.inr h3, h4⟩
  · intro v x xs n p d rest content e r _ _ hgp hproc hd _ ih t h
    rw [withEvents_events, List.mem_append] at h
    rcases h with h | h
    · simp only [List.mem_cons] at h
      rcases h with h | h | h | h | h
      · simp at h
      · simp at h
      · simp at h
      · cases h
        exact ⟨content, d, hgp, hproc, by simp, hd⟩
      · simp at h
    · obtain ⟨s, d', h1, h2, h3, h4⟩ := ih t h
      exact ⟨s, d', h1, h2, by
        rw [withEvents_events, List.mem_append]; exact Or.inr h3, h4⟩
  · intro v x xs n p d rest content links r _ _ hgp hproc hd _ ih t h
    rw [withEvents_events, List.mem_append] at h
    rcases h with h | h
    · rw [List.mem_append] at h
      rcases h with h | h
      · simp only [List.mem_cons] at h
        rcases h with h | h | h | h | h
        · simp at h
        · simp at h
        · simp at h
        · cases h
          exact ⟨content, d, hgp, hproc, by simp, hd⟩
        · simp at h
      · obtain ⟨l, _, he⟩ := List.mem_map.mp h
        simp at he
    · obtain ⟨s, d', h1, h2, h3, h4⟩ := ih t h
      exact ⟨s, d', h1, h2, by
        rw [withEvents_events, List.mem_append]; exact Or.inr h3, h4⟩

/-- An `add_page` call made during the expansion of `t` happens only
after a dequeue of `t` at a depth below the ceiling whose fetch and
`process` call succeeded; the enqueued depth is that depth plus one. -/
theorem hasEnqPar_cond (c : Client) (pr : Processor) (strat : Strategy) (md lim : Int) :
    ∀ (fuel : Nat) (v : List String) (q : List (String × Nat)) (n : Nat)
      (t u : String) (dq : Nat),
      .enqueue u dq t ∈ (crawlLoop c pr strat md lim fuel v q n).events →
      ∃ (s : String) (d' : Nat), c.get_page t = .ok (some s) ∧ pr.process t s = .ok () ∧
        .dequeue t d' ∈ (crawlLoop c pr strat md lim fuel v q n).events ∧
        (d' : Int) < md ∧ dq = d' + 1 := by
  refine crawlLoop_rec c pr strat md lim
    (fun _ _ _ r => ∀ t u dq, .enqueue u dq t ∈ r.events →
      ∃ (s : String) (d' : Nat), c.get_page t = .ok (some s) ∧ pr.process t s = .ok () ∧
        .dequeue t d' ∈ r.events ∧ (d' : Int) < md ∧ dq = d' + 1)
    ?_ ?_ ?_ ?_ ?_ ?_ ?_ ?_ ?_
  · intro v n t u dq h; simp at h
  · intro v x xs n _ t u dq h; simp at h
  · intro v x xs n _ t u dq h; simp at h
  · intro v x xs n p d rest e _ _ _ t u dq h; simp at h
  · intro v x xs n p d rest r _ _ _ ih t u dq h
    rw [withEvents_events, List.mem_append] at h
    rcases h with h | h
    · simp at h
    · obtain ⟨s, d', h1, h2, h3, h4, h5⟩ := ih t u dq h
      exact ⟨s, d', h1, h2, by
        rw [withEvents_events, List.mem_append]; exact Or.inr h3, h4, h5⟩
  · intro v x xs n p d rest content e _ _ _ _ t u dq h; simp at h
  · intro v x xs n p d rest content r _ _ _ _ _ ih t u dq h
    rw [withEvents_events, List.mem_append] at h
    rcases h with h | h
    · simp at h
    · obtain ⟨s, d', h1, h2, h3, h4, h5⟩ := ih t u dq h
      exact ⟨s, d', h1, h2, by
        rw [withEvents_events, List.mem_append]; exact Or.inr h3, h4, h5⟩
  · intro v x xs n p d rest content e r _ _ _ _ _ _ ih t u dq h
    rw [withEvents_events, List.mem_append] at h
    rcases h with h | h
    · simp at h
    · obtain ⟨s, d', h1, h2, h3, h4, h5⟩ := ih t u dq h
      exact ⟨s, d', h1, h2, by
        rw [withEvents_events, List.mem_append]; exact Or.inr h3, h4, h5⟩
  · intro v x xs n p d rest content links r _ _ hgp hproc hd _ ih t u dq h
    rw [withEvents_events, List.mem_append] at h
    rcases h with h | h
    · rw [List.mem_append] at h
      rcases h with h | h
      · simp at h
      · obtain ⟨l, _, he⟩ := List.mem_map.mp h
        rcases Event.enqueue.injEq .. ▸ he with ⟨rfl, rfl, rfl⟩
        exact ⟨content, d, hgp, hproc, by simp, hd, rfl⟩
    · obtain ⟨s, d', h1, h2, h3, h4, h5⟩ := ih t u dq h
      exact ⟨s, d', h1, h2, by
        rw [withEvents_events, List.mem_append]; exact Or.inr h3, h4, h5⟩

/-- The titles of the remaining queue are titles of the queue. -/
theorem rest_titles_subset {strat : Strategy} {x : String × Nat}
    {xs rest : List (String × Nat)} {p : String} {d : Nat}
    (hpq : popNext strat x xs = ((p, d), rest)) :
    ∀ t ∈ rest.map Prod.fst, t ∈ (x :: xs).map Prod.fst := by
  intro t ht
  have hperm := (popNext_perm strat x xs).map Prod.fst
  rw [hpq] at hperm
  exact hperm.symm.subset (List.mem_cons_of_mem _ ht)

/-- A dequeued title is in the final `self.visited` (it was a member of
the queue, hence of `self.visited`, which only grows). -/
theorem deq_mem_visited (c : Client) (pr : Processor) (strat : Strategy) (md lim : Int) :
    ∀ (fuel : Nat) (v : List String) (q : List (String × Nat)) (n : Nat),
      goodState v q →
      ∀ t dt, .dequeue t dt ∈ (crawlLoop c pr strat md lim fuel v q n).events →
        t ∈ (crawlLoop c pr strat md lim fuel v q n).visited := by
  have main : ∀ (fuel : Nat) (v : List String) (q : List (String × Nat)) (n : Nat),
      goodState v q →
      (∃ w, (crawlLoop c pr strat md lim fuel v q n).visited = v ++ w) ∧
      (∀ t dt, .dequeue t dt ∈ (crawlLoop c pr strat md lim fuel v q n).events →
        t ∈ (crawlLoop c pr strat md lim fuel v q n).visited) := by
    refine crawlLoop_rec c pr strat md lim
      (fun v q _ r => goodState v q → (∃ w, r.visited = v ++ w) ∧
        (∀ t dt, .dequeue t dt ∈ r.events → t ∈ r.visited))
      ?_ ?_ ?_ ?_ ?_ ?_ ?_ ?_ ?_
    · intro v n _; exact ⟨⟨[], by simp⟩, by intro t dt h; simp at h⟩
    · intro v x xs n _ _; exact ⟨⟨[], by simp⟩, by intro t dt h; simp at h⟩
    · intro v x xs n _ _; exact ⟨⟨[], by simp⟩, by intro t dt h; simp at h⟩
    · intro v x xs n p d rest e _ hpq _ hgs
      refine ⟨⟨[], by simp⟩, ?_⟩
      intro t dt h
      simp only [List.mem_cons] at h
      rcases h with h | h | h
      · rcases Event.dequeue.injEq .. ▸ h with ⟨rfl, rfl⟩
        exact hgs.2 _ (popNext_mem hpq)
      · simp at h
      · simp at h
    · intro v x xs n p d rest r _ hpq _ ih hgs
      obtain ⟨⟨w, hw⟩, ihm⟩ := ih (goodState_rest hgs hpq)
      refine ⟨⟨w, by simpa using hw⟩, ?_⟩
      intro t dt h
      rw [withEvents_events, List.mem_append] at h
      simp only [withEvents_visited]
      rcases h with h | h
      · simp only [List.mem_cons] at h
        rcases h with h | h | h
        · rcases Event.dequeue.injEq .. ▸ h with ⟨rfl, rfl⟩
          rw [hw]
          exact List.mem_append_left _ (hgs.2 _ (popNext_mem hpq))
        · simp at h
        · simp at h
      · exact ihm t dt h
    · intro v x xs n p d rest content e _ hpq _ _ hgs
      refine ⟨⟨[], by simp⟩, ?_⟩
      intro t dt h
      simp only [List.mem_cons] at h
      rcases h with h | h | h | h
      · rcases Event.dequeue.injEq .. ▸ h with ⟨rfl, rfl⟩
        exact hgs.2 _ (popNext_mem hpq)
      · simp at h
      · simp at h
      · simp at h
    · intro v x xs n p d rest content r _ hpq _ _ _ ih hgs
      obtain ⟨⟨w, hw⟩, ihm⟩ := ih (goodState_rest hgs hpq)
      refine ⟨⟨w, by simpa using hw⟩, ?_⟩
      intro t dt h
      rw [withEvents_events, List.mem_append] at h
      simp only [withEvents_visited]
      rcases h with h | h
      · simp only [List.mem_cons] at h
        rcases h with h | h | h | h
        · rcases Event.dequeue.injEq .. ▸ h with ⟨rfl, rfl⟩
          rw [hw]
          exact List.mem_append_left _ (hgs.2 _ (popNext_mem hpq))
        · simp at h
        · simp at h
        · simp at h
      · exact ihm t dt h
    · intro v x xs n p d rest content e r _ hpq _ _ _ _ ih hgs
      obtain ⟨⟨w, hw⟩, ihm⟩ := ih (goodState_rest hgs hpq)
      refine ⟨⟨w, by simpa using hw⟩, ?_⟩
      intro t dt h
      rw [withEvents_events, List.mem_append] at h
      simp only [withEvents_visited]
      rcases h with h | h
      · simp only [List.mem_cons] at h
        rcases h with h | h | h | h | h
        · rcases Event.dequeue.injEq .. ▸ h with ⟨rfl, rfl⟩
          rw [hw]
          exact List.mem_append_left _ (hgs.2 _ (popNext_mem hpq))
        · simp at h
        · simp at h
        · simp at h
        · simp at h
      · exact ihm t dt h
    · intro v x xs n p d rest content links r _ hpq _ _ _ _ ih hgs
      obtain ⟨⟨w, hw⟩, ihm⟩ := ih (goodState_expand hgs hpq links)
      refine ⟨⟨newLinks v links ++ w, by simp [hw]⟩, ?_⟩
      intro t dt h
      rw [withEvents_events, List.mem_append] at h
      simp only [withEvents_visited]
      rcases h with h | h
      · rw [List.mem_append] at h
        rcases h with h | h
        · simp only [List.mem_cons] at h
          rcases h with h | h | h | h | h
          · rcases Event.dequeue.injEq .. ▸ h with ⟨rfl, rfl⟩
            rw [hw]
            exact List.mem_append_left _
              (List.mem_append_left _ (hgs.2 _ (popNext_mem hpq)))
          · simp at h
          · simp at h
          · simp at h
          · simp at h
        · obtain ⟨l, _, he⟩ := List.mem_map.mp h
          simp at he
      · exact ihm t dt h
  intro fuel v q n hgs
  exact (main fuel v q n hgs).2

/-- From a well-formed state no title is dequeued twice: once popped, a
title is in `self.visited` and out of the queue, so it can never be
re-enqueued nor re-dequeued. -/
theorem deq_count (c : Client) (pr : Processor) (strat : Strategy) (md lim : Int) :
    ∀ (fuel : Nat) (v : List String) (q : List (String × Nat)) (n : Nat),
      goodState v q → ∀ t : String,
        ((crawlLoop c pr strat md lim fuel v q n).events.countP (isDeq t) ≤ 1) ∧
        (t ∈ v → t ∉ q.map Prod.fst →
          (crawlLoop c pr strat md lim fuel v q n).events.countP (isDeq t) = 0) := by
  refine crawlLoop_rec c pr strat md lim
    (fun v q _ r => goodState v q → ∀ t,
      (r.events.countP (isDeq t) ≤ 1) ∧
      (t ∈ v → t ∉ q.map Prod.fst → r.events.countP (isDeq t) = 0))
    ?_ ?_ ?_ ?_ ?_ ?_ ?_ ?_ ?_
  · intro v n _ t; simp
  · intro v x xs n _ _ t; simp
  · intro v x xs n _ _ t; simp
  · intro v x xs n p d rest e _ hpq _ hgs t
    constructor
    · simp [List.countP_cons, isDeq]
      split <;> simp
    · intro htv htq
      have hp : p ∈ (x :: xs).map Prod.fst :=
        List.mem_map.mpr ⟨(p, d), popNext_mem hpq, rfl⟩
      have hpt : ¬ p == t := by
        intro hb
        exact htq (by rwa [(beq_iff_eq ..).mp hb] at hp)
      simp [List.countP_cons, isDeq, hpt]
  · intro v x xs n p d rest r _ hpq _ ih hgs t
    have hrec := ih (goodState_rest hgs hpq)
    simp only [withEvents_events, List.countP_append, List.countP_cons, List.countP_nil,
      isDeq]
    by_cases hpt : p = t
    · subst hpt
      have hzero : r.events.countP (isDeq p) = 0 := by
        refine (hrec p).2 (hgs.2 _ (popNext_mem hpq)) ?_
        exact popNext_not_mem_rest hgs hpq
      constructor
      · simp [isDeq, hzero]
      · intro _ htq
        exact absurd (List.mem_map.mpr ⟨(p, d), popNext_mem hpq, rfl⟩) htq
    · have hne : ¬ (p == t) := by simpa using hpt
      constructor
      · simpa [isDeq, hne] using (hrec t).1
      · intro htv htq
        have : t ∉ rest.map Prod.fst := fun hm => htq (rest_titles_subset hpq t hm)
        simpa [isDeq, hne] using (hrec t).2 htv this
  · intro v x xs n p d rest content e _ hpq _ _ hgs t
    constructor
    · simp [List.countP_cons, isDeq]
      split <;> simp
    · intro htv htq
      have hp : p ∈ (x :: xs).map Prod.fst :=
        List.mem_map.mpr ⟨(p, d), popNext_mem hpq, rfl⟩
      have hpt : ¬ p == t := by
        intro hb
        exact htq (by rwa [(beq_iff_eq ..).mp hb] at hp)
      simp [List.countP_cons, isDeq, hpt]
  · intro v x xs n p d rest content r _ hpq _ _ _ ih hgs t
    have hrec := ih (goodState_rest hgs hpq)
    simp only [withEvents_events, List.countP_append, List.countP_cons, List.countP_nil,
      isDeq]
    by_cases hpt : p = t
    · subst hpt
      have hzero : r.events.countP (isDeq p) = 0 := by
        refine (hrec p).2 (hgs.2 _ (popNext_mem hpq)) ?_
        exact popNext_not_mem_rest hgs hpq
      constructor
      · simp [isDeq, hzero]
      · intro _ htq
        exact absurd (List.mem_map.mpr ⟨(p, d), popNext_mem hpq, rfl⟩) htq
    · have hne : ¬ (p == t) := by simpa using hpt
      constructor
      · simpa [isDeq, hne] using (hrec t).1
      · intro htv htq
        have : t ∉ rest.map Prod.fst := fun hm => htq (rest_titles_subset hpq t hm)
        simpa [isDeq, hne] using (hrec t).2 htv this
  · intro v x xs n p d rest content e r _ hpq _ _ _ _ ih hgs t
    have hrec := ih (goodState_rest hgs hpq)
    simp only [withEvents_events, List.countP_append, List.countP_cons, List.countP_nil,
      isDeq]
    by_cases hpt : p = t
    · subst hpt
      have hzero : r.events.countP (isDeq p) = 0 := by
        refine (hrec p).2 (hgs.2 _ (popNext_mem hpq)) ?_
        exact popNext_not_mem_rest hgs hpq
      constructor
      · simp [isDeq, hzero]
      · intro _ htq
        exact absurd (List.mem_map.mpr ⟨(p, d), popNext_mem hpq, rfl⟩) htq
    · have hne : ¬ (p == t) := by simpa using hpt
      constructor
      · simpa [isDeq, hne] using (hrec t).1
      · intro htv htq
        have : t ∉ rest.map Prod.fst := fun hm => htq (rest_titles_subset hpq t hm)
        simpa [isDeq, hne] using (hrec t).2 htv this
  · intro v x xs n p d rest content links r _ hpq _ _ _ _ ih hgs t
    have hrec := ih (goodState_expand hgs hpq links)
    simp only [withEvents_events, List.countP_append, List.countP_cons, List.countP_nil,
      isDeq]
    rw [countP_enqMap_eq_zero (fun _ _ _ => rfl)]
    have hmapfst : ∀ u : String,
        u ∈ (rest ++ (newLinks v links).map (fun l => (l, d + 1))).map Prod.fst ↔
        (u ∈ rest.map Prod.fst ∨ u ∈ newLinks v links) := by
      intro u
      rw [List.map_append, List.mem_append]
      constructor
      · rintro (h | h)
        · exact Or.inl h
        · obtain ⟨e', he', rfl⟩ := List.mem_map.mp h
          obtain ⟨l, hl, rfl⟩ := List.mem_map.mp he'
          exact Or.inr hl
      · rintro (h | h)
        · exact Or.inl h
        · exact Or.inr (List.mem_map.mpr ⟨(u, d + 1),
            List.mem_map.mpr ⟨u, h, rfl⟩, rfl⟩)
    by_cases hpt : p = t
    · subst hpt
      have hzero : r.events.countP (isDeq p) = 0 := by
        refine (hrec p).2 (List.mem_append_left _ (hgs.2 _ (popNext_mem hpq))) ?_
        rw [hmapfst]
        push_neg
        refine ⟨popNext_not_mem_rest hgs hpq, ?_⟩
        intro hfresh
        exact newLinks_not_visited hfresh (hgs.2 _ (popNext_mem hpq))
      constructor
      · simp [isDeq, hzero]
      · intro _ htq
        exact absurd (List.mem_map.mpr ⟨(p, d), popNext_mem hpq, rfl⟩) htq
    · have hne : ¬ (p == t) := by simpa using hpt
      constructor
      · simpa [isDeq, hne] using (hrec t).1
      · intro htv htq
        have hnm : t ∉ (rest ++ (newLinks v links).map (fun l => (l, d + 1))).map Prod.fst := by
          rw [hmapfst]
          push_neg
          refine ⟨fun hm => htq (rest_titles_subset hpq t hm), ?_⟩
          intro hfresh
          exact newLinks_not_visited hfresh htv
        simpa [isDeq, hne] using (hrec t).2 (List.mem_append_left _ htv) hnm

/-- A dequeued page whose fetch returned content and whose `process` call
succeeds is emitted, and its links are fetched exactly when its depth is
below the ceiling. -/
theorem deq_found_events (c : Client) (pr : Processor) (strat : Strategy) (md lim : Int) :
    ∀ (fuel : Nat) (v : List String) (q : List (String × Nat)) (n : Nat)
      (t : String) (dt : Nat) (s : String),
      .dequeue t dt ∈ (crawlLoop c pr strat md lim fuel v q n).events →
      c.get_page t = .ok (some s) → pr.process t s = .ok () →
      .emit t ∈ (crawlLoop c pr strat md lim fuel v q n).events ∧
      ((dt : Int) < md → .getLinks t ∈ (crawlLoop c pr strat md lim fuel v q n).events) := by
  refine crawlLoop_rec c pr strat md lim
    (fun _ _ _ r => ∀ (t : String) (dt : Nat) (s : String), .dequeue t dt ∈ r.events →
      c.get_page t = .ok (some s) → pr.process t s = .ok () →
      .emit t ∈ r.events ∧ ((dt : Int) < md → .getLinks t ∈ r.events))
    ?_ ?_ ?_ ?_ ?_ ?_ ?_ ?_ ?_
  · intro v n t dt s h _ _; simp at h
  · intro v x xs n _ t dt s h _ _; simp at h
  · intro v x xs n _ t dt s h _ _; simp at h
  · intro v x xs n p d rest e _ _ hgp t dt s h hgp' _
    simp only [List.mem_cons] at h
    rcases h with h | h | h
    · rcases Event.dequeue.injEq .. ▸ h with ⟨rfl, rfl⟩
      rw [hgp] at hgp'
      exact absurd hgp' (by simp)
    · simp at h
    · simp at h
  · intro v x xs n p d rest r _ _ hgp ih t dt s h hgp' hproc'
    rw [withEvents_events, List.mem_append] at h
    rcases h with h | h
    · simp only [List.mem_cons] at h
      rcases h with h | h | h
      · rcases Event.dequeue.injEq .. ▸ h with ⟨rfl, rfl⟩
        rw [hgp] at hgp'
        exact absurd hgp' (by simp)
      · simp at h
      · simp at h
    · obtain ⟨h1, h2⟩ := ih t dt s h hgp' hproc'
      refine ⟨by rw [withEvents_events, List.mem_append]; exact Or.inr h1, ?_⟩
      intro hdt
      rw [withEvents_events, List.mem_append]
      exact Or.inr (h2 hdt)
  · intro v x xs n p d rest content e _ _ hgp hproc t dt s h hgp' hproc'
    simp only [List.mem_cons] at h
    rcases h with h | h | h | h
    · rcases Event.dequeue.injEq .. ▸ h with ⟨rfl, rfl⟩
      rw [hgp] at hgp'
      have : content = s := by simpa using hgp'
      subst this
      rw [hproc] at hproc'
      exact absurd hproc' (by simp)
    · simp at h
    · simp at h
    · simp at h
  · intro v x xs n p d rest content r _ _ hgp hproc hd ih t dt s h hgp' hproc'
    rw [withEvents_events, List.mem_append] at h
    rcases h with h | h
    · simp only [List.mem_cons] at h
      rcases h with h | h | h | h
      · rcases Event.dequeue.injEq .. ▸ h with ⟨rfl, rfl⟩
        refine ⟨by simp, fun hdt => absurd hdt hd⟩
      · simp at h
      · simp at h
      · simp at h
    · obtain ⟨h1, h2⟩ := ih t dt s h hgp' hproc'
      refine ⟨by rw [withEvents_events, List.mem_append]; exact Or.inr h1, ?_⟩
      intro hdt
      rw [withEvents_events, List.mem_append]
      exact Or.inr (h2 hdt)
  · intro v x xs n p d rest content e r _ _ hgp hproc hd _ ih t dt s h hgp' hproc'
    rw [withEvents_events, List.mem_append] at h
    rcases h with h | h
    · simp only [List.mem_cons] at h
      rcases h with h | h | h | h | h
      · rcases Event.dequeue.injEq .. ▸ h with ⟨rfl, rfl⟩
        exact ⟨by simp, fun _ => by simp⟩
      · simp at h
      · simp at h
      · simp at h
      · simp at h
    · obtain ⟨h1, h2⟩ := ih t dt s h hgp' hproc'
      refine ⟨by rw [withEvents_events, List.mem_append]; exact Or.inr h1, ?_⟩
      intro hdt
      rw [withEvents_events, List.mem_append]
      exact Or.inr (h2 hdt)
  · intro v x xs n p d rest content links r _ _ hgp hproc hd _ ih t dt s h hgp' hproc'
    rw [withEvents_events, List.mem_append] at h
    rcases h with h | h
    · rw [List.mem_append] at h
      rcases h with h | h
      · simp only [List.mem_cons] at h
        rcases h with h | h | h | h | h
        · rcases Event.dequeue.injEq .. ▸ h with ⟨rfl, rfl⟩
          exact ⟨by simp, fun _ => by simp⟩
        · simp at h
        · simp at h
        · simp at h
        · simp at h
      · obtain ⟨l, _, he⟩ := List.mem_map.mp h
        simp at he
    · obtain ⟨h1, h2⟩ := ih t dt s h hgp' hproc'
      refine ⟨by rw [withEvents_events, List.mem_append]; exact Or.inr h1, ?_⟩
      intro hdt
      rw [withEvents_events, List.mem_append]
      exact Or.inr (h2 hdt)

/-- Every dequeue is immediately followed in the trace by the fetch of
the dequeued page: the loop fetches every page it pops, before any
depth consideration. -/
theorem deq_fetch_adjacent (c : Client) (pr : Processor) (strat : Strategy) (md lim : Int) :
    ∀ (fuel : Nat) (v : List String) (q : List (String × Nat)) (n : Nat)
      (l₁ : List Event) (t : String) (dt : Nat) (l₂ : List Event),
      (crawlLoop c pr strat md lim fuel v q n).events = l₁ ++ .dequeue t dt :: l₂ →
      ∃ l₂', l₂ = .fetchPage t :: l₂' := by
  refine crawlLoop_rec c pr strat md lim
    (fun _ _ _ r => ∀ l₁ t dt l₂, r.events = l₁ ++ .dequeue t dt :: l₂ →
      ∃ l₂', l₂ = .fetchPage t :: l₂')
    ?_ ?_ ?_ ?_ ?_ ?_ ?_ ?_ ?_
  · intro v n l₁ t dt l₂ h
    exact absurd h (by cases l₁ <;> simp)
  · intro v x xs n _ l₁ t dt l₂ h
    exact absurd h (by cases l₁ <;> simp)
  · intro v x xs n _ l₁ t dt l₂ h
    exact absurd h (by cases l₁ <;> simp)
  · intro v x xs n p d rest e _ _ _ l₁ t dt l₂ h
    rcases l₁ with _ | ⟨e₁, _ | ⟨e₂, l₁⟩⟩
    · simp only [List.nil_append, List.cons.injEq] at h
      rcases h with ⟨h1, h2⟩
      rcases Event.dequeue.injEq .. ▸ h1 with ⟨rfl, rfl⟩
      exact ⟨[], h2.symm⟩
    · simp only [List.cons_append, List.nil_append, List.cons.injEq] at h
      exact absurd h.2.1 (by simp)
    · simp only [List.cons_append, List.nil_append, List.cons.injEq] at h
      exact absurd h.2.2 (by cases l₁ <;> simp)
  · intro v x xs n p d rest r _ _ _ ih l₁ t dt l₂ h
    rw [withEvents_events] at h
    rcases append_cons_cases h with ⟨g, hg1, hg2⟩ | ⟨g, _, hg2⟩
    · rcases l₁ with _ | ⟨e₁, _ | ⟨e₂, l₁⟩⟩
      · simp only [List.nil_append, List.cons.injEq] at hg1
        rcases hg1 with ⟨h1, h2⟩
        rcases Event.dequeue.injEq .. ▸ h1 with ⟨rfl, rfl⟩
        rcases g with _ | ⟨g₀, g⟩
        · simp at h2
        · simp only [List.cons.injEq] at h2
          exact ⟨g ++ r.events, by rw [hg2, h2.1.symm, List.cons_append]⟩
      · simp only [List.cons_append, List.nil_append, List.cons.injEq] at hg1
        exact absurd hg1.2.1 (by simp)
      · simp only [List.cons_append, List.nil_append, List.cons.injEq] at hg1
        exact absurd hg1.2.2 (by cases l₁ <;> simp)
    · exact ih g t dt l₂ hg2
  · intro v x xs n p d rest content e _ _ _ _ l₁ t dt l₂ h
    rcases l₁ with _ | ⟨e₁, _ | ⟨e₂, _ | ⟨e₃, l₁⟩⟩⟩
    · simp only [List.nil_append, List.cons.injEq] at h
      rcases h with ⟨h1, h2⟩
      rcases Event.dequeue.injEq .. ▸ h1 with ⟨rfl, rfl⟩
      exact ⟨[.emit p], h2.symm⟩
    · simp only [List.cons_append, List.nil_append, List.cons.injEq] at h
      exact absurd h.2.1 (by simp)
    · simp only [List.cons_append, List.nil_append, List.cons.injEq] at h
      exact absurd h.2.2.1 (by simp)
    · simp only [List.cons_append, List.nil_append, List.cons.injEq] at h
      exact absurd h.2.2.2 (by cases l₁ <;> simp)
  · intro v x xs n p d rest content r _ _ _ _ _ ih l₁ t dt l₂ h
    rw [withEvents_events] at h
    rcases append_cons_cases h with ⟨g, hg1, hg2⟩ | ⟨g, _, hg2⟩
    · rcases l₁ with _ | ⟨e₁, _ | ⟨e₂, _ | ⟨e₃, l₁⟩⟩⟩
      · simp only [List.nil_append, List.cons.injEq] at hg1
        rcases hg1 with ⟨h1, h2⟩
        rcases Event.dequeue.injEq .. ▸ h1 with ⟨rfl, rfl⟩
        rcases g with _ | ⟨g₀, g⟩
        · simp at h2
        · simp only [List.cons.injEq] at h2
          exact ⟨g ++ r.events, by rw [hg2, h2.1.symm, List.cons_append]⟩
      · simp only [List.cons_append, List.nil_append, List.cons.injEq] at hg1
        exact absurd hg1.2.1 (by simp)
      · simp only [List.cons_append, List.nil_append, List.cons.injEq] at hg1
        exact absurd hg1.2.2.1 (by simp)
      · simp only [List.cons_append, List.nil_append, List.cons.injEq] at hg1
        exact absurd hg1.2.2.2 (by cases l₁ <;> simp)
    · exact ih g t dt l₂ hg2
  · intro v x xs n p d rest content e r _ _ _ _ _ _ ih l₁ t dt l₂ h
    rw [withEvents_events] at h
    rcases append_cons_cases h with ⟨g, hg1, hg2⟩ | ⟨g, _, hg2⟩
    · rcases l₁ with _ | ⟨e₁, _ | ⟨e₂, _ | ⟨e₃, _ | ⟨e₄, l₁⟩⟩⟩⟩
      · simp only [List.nil_append, List.cons.injEq] at hg1
        rcases hg1 with ⟨h1, h2⟩
        rcases Event.dequeue.injEq .. ▸ h1 with ⟨rfl, rfl⟩
        rcases g with _ | ⟨g₀, g⟩
        · simp at h2
        · simp only [List.cons.injEq] at h2
          exact ⟨g ++ r.events, by rw [hg2, h2.1.symm, List.cons_append]⟩
      · simp only [List.cons_append, List.nil_append, List.cons.injEq] at hg1
        exact absurd hg1.2.1 (by simp)
      · simp only [List.cons_append, List.nil_append, List.cons.injEq] at hg1
        exact absurd hg1.2.2.1 (by simp)
      · simp only [List.cons_append, List.nil_append, List.cons.injEq] at hg1
        exact absurd hg1.2.2.2.1 (by simp)
      · simp only [List.cons_append, List.nil_append, List.cons.injEq] at hg1
        exact absurd hg1.2.2.2.2 (by cases l₁ <;> simp)
    · exact ih g t dt l₂ hg2
  · intro v x xs n p d rest content links r _ _ _ _ _ _ ih l₁ t dt l₂ h
    rw [withEvents_events, List.append_assoc] at h
    rcases append_cons_cases h with ⟨g, hg1, hg2⟩ | ⟨g, _, hg2⟩
    · rcases l₁ with _ | ⟨e₁, _ | ⟨e₂, _ | ⟨e₃, _ | ⟨e₄, l₁⟩⟩⟩⟩
      · simp only [List.nil_append, List.cons.injEq] at hg1
        rcases hg1 with ⟨h1, h2⟩
        rcases Event.dequeue.injEq .. ▸ h1 with ⟨rfl, rfl⟩
        rcases g with _ | ⟨g₀, g⟩
        · simp at h2
        · simp only [List.cons.injEq] at h2
          exact ⟨g ++ ((newLinks v links).map (fun l => Event.enqueue l (d + 1) p) ++
            r.events), by rw [hg2, h2.1.symm, List.cons_append]⟩
      · simp only [List.cons_append, List.nil_append, List.cons.injEq] at hg1
        exact absurd hg1.2.1 (by simp)
      · simp only [List.cons_append, List.nil_append, List.cons.injEq] at hg1
        exact absurd hg1.2.2.1 (by simp)
      · simp only [List.cons_append, List.nil_append, List.cons.injEq] at hg1
        exact absurd hg1.2.2.2.1 (by simp)
      · simp only [List.cons_append, List.nil_append, List.cons.injEq] at hg1
        exact absurd hg1.2.2.2.2 (by cases l₁ <;> simp)
    · rcases append_cons_cases hg2 with ⟨g', hg1', hg2'⟩ | ⟨g', _, hg2'⟩
      · exfalso
        have : Event.dequeue t dt ∈ (newLinks v links).map
            (fun l => Event.enqueue l (d + 1) p) := by
          rw [hg1']
          exact List.mem_append_right _ (List.mem_cons_self _ _)
        obtain ⟨l, _, he⟩ := List.mem_map.mp this
        simp at he
      · exact ih g' t dt l₂ hg2'

/-- At the moment of every `get_page` call the number of `process` calls
already made (the value of `self.pages_processed` at that point) is still
below the limit: the loop guard is re-checked before every fetch. -/
theorem fetch_gating (c : Client) (pr : Processor) (strat : Strategy) (md lim : Int) :
    ∀ (fuel : Nat) (v : List String) (q : List (String × Nat)) (n : Nat)
      (f₁ : List Event) (t : String) (f₂ : List Event),
      (crawlLoop c pr strat md lim fuel v q n).events = f₁ ++ .fetchPage t :: f₂ →
      (n : Int) + f₁.countP isEmitAny < lim := by
  refine crawlLoop_rec c pr strat md lim
    (fun _ _ n r => ∀ f₁ t f₂, r.events = f₁ ++ .fetchPage t :: f₂ →
      (n : Int) + f₁.countP isEmitAny < lim)
    ?_ ?_ ?_ ?_ ?_ ?_ ?_ ?_ ?_
  · intro v n f₁ t f₂ h
    exact absurd h (by cases f₁ <;> simp)
  · intro v x xs n _ f₁ t f₂ h
    exact absurd h (by cases f₁ <;> simp)
  · intro v x xs n _ f₁ t f₂ h
    exact absurd h (by cases f₁ <;> simp)
  · intro v x xs n p d rest e hlim _ _ f₁ t f₂ h
    rcases f₁ with _ | ⟨e₁, _ | ⟨e₂, f₁⟩⟩
    · simp at h
    · simp only [List.cons_append, List.nil_append, List.cons.injEq] at h
      obtain ⟨h1, _, _⟩ := h
      subst h1
      simpa [List.countP_cons, isEmitAny] using hlim
    · simp only [List.cons_append, List.nil_append, List.cons.injEq] at h
      exact absurd h.2.2 (by cases f₁ <;> simp)
  · intro v x xs n p d rest r hlim _ _ ih f₁ t f₂ h
    rw [withEvents_events] at h
    rcases append_cons_cases h with ⟨g, hg1, _⟩ | ⟨g, hg1, hg2⟩
    · rcases f₁ with _ | ⟨e₁, _ | ⟨e₂, f₁⟩⟩
      · simp at hg1
      · simp only [List.cons_append, List.nil_append, List.cons.injEq] at hg1
        obtain ⟨h1, _, _⟩ := hg1
        subst h1
        simpa [List.countP_cons, isEmitAny] using hlim
      · simp only [List.cons_append, List.nil_append, List.cons.injEq] at hg1
        exact absurd hg1.2.2 (by cases f₁ <;> simp)
    · have := ih g t f₂ hg2
      rw [hg1]
      simp only [List.countP_append, List.countP_cons, List.countP_nil, isEmitAny]
      simp only [Nat.cast_add]
      norm_num
      omega
  · intro v x xs n p d rest content e hlim _ _ _ f₁ t f₂ h
    rcases f₁ with _ | ⟨e₁, _ | ⟨e₂, f₁⟩⟩
    · simp at h
    · simp only [List.cons_append, List.nil_append, List.cons.injEq] at h
      obtain ⟨h1, _, _⟩ := h
      subst h1
      simpa [List.countP_cons, isEmitAny] using hlim
    · simp only [List.cons_append, List.nil_append, List.cons.injEq] at h
      exfalso
      have hmem : Event.fetchPage t ∈ [Event.emit p] := by
        rw [h.2.2]; exact List.mem_append_right _ (List.mem_cons_self _ _)
      simp at hmem
  · intro v x xs n p d rest content r hlim _ _ _ _ ih f₁ t f₂ h
    rw [withEvents_events] at h
    rcases append_cons_cases h with ⟨g, hg1, _⟩ | ⟨g, hg1, hg2⟩
    · rcases f₁ with _ | ⟨e₁, _ | ⟨e₂, f₁⟩⟩
      · simp at hg1
      · simp only [List.cons_append, List.nil_append, List.cons.injEq] at hg1
        obtain ⟨h1, _, _⟩ := hg1
        subst h1
        simpa [List.countP_cons, isEmitAny] using hlim
      · simp only [List.cons_append, List.nil_append, List.cons.injEq] at hg1
        exfalso
        have hmem : Event.fetchPage t ∈ [Event.emit p] := by
          rw [hg1.2.2]; exact List.mem_append_right _ (List.mem_cons_self _ _)
        simp at hmem
    · have := ih g t f₂ hg2
      rw [hg1]
      simp only [List.countP_append, List.countP_cons, List.countP_nil, isEmitAny]
      simp only [Nat.cast_add]
      norm_num
      omega
  · intro v x xs n p d rest content e r hlim _ _ _ _ _ ih f₁ t f₂ h
    rw [withEvents_events] at h
    rcases append_cons_cases h with ⟨g, hg1, _⟩ | ⟨g, hg1, hg2⟩
    · rcases f₁ with _ | ⟨e₁, _ | ⟨e₂, f₁⟩⟩
      · simp at hg1
      · simp only [List.cons_append, List.nil_append, List.cons.injEq] at hg1
        obtain ⟨h1, _, _⟩ := hg1
        subst h1
        simpa [List.countP_cons, isEmitAny] using hlim
      · simp only [List.cons_append, List.nil_append, List.cons.injEq] at hg1
        exfalso
        have hmem : Event.fetchPage t ∈ [Event.emit p, Event.getLinks p] := by
          rw [hg1.2.2]; exact List.mem_append_right _ (List.mem_cons_self _ _)
        simp at hmem
    · have := ih g t f₂ hg2
      rw [hg1]
      simp only [List.countP_append, List.countP_cons, List.countP_nil, isEmitAny]
      simp only [Nat.cast_add]
      norm_num
      omega
  · intro v x xs n p d rest content links r hlim _ _ _ _ _ ih f₁ t f₂ h
    rw [withEvents_events, List.append_assoc] at h
    rcases append_cons_cases h with ⟨g, hg1, _⟩ | ⟨g, hg1, hg2⟩
    · rcases f₁ with _ | ⟨e₁, _ | ⟨e₂, f₁⟩⟩
      · simp at hg1
      · simp only [List.cons_append, List.nil_append, List.cons.injEq] at hg1
        obtain ⟨h1, _, _⟩ := hg1
        subst h1
        simpa [List.countP_cons, isEmitAny] using hlim
      · simp only [List.cons_append, List.nil_append, List.cons.injEq] at hg1
        exfalso
        have hmem : Event.fetchPage t ∈ [Event.emit p, Event.getLinks p] := by
          rw [hg1.2.2]; exact List.mem_append_right _ (List.mem_cons_self _ _)
        simp at hmem
    · rcases append_cons_cases hg2 with ⟨g', hg1', _⟩ | ⟨g', hg1', hg2'⟩
      · exfalso
        have : Event.fetchPage t ∈ (newLinks v links).map
            (fun l => Event.enqueue l (d + 1) p) := by
          rw [hg1']
          exact List.mem_append_right _ (List.mem_cons_self _ _)
        obtain ⟨l, _, he⟩ := List.mem_map.mp this
        simp at he
      · have := ih g' t f₂ hg2'
        rw [hg1, hg1']
        simp only [List.countP_append, List.countP_cons, List.countP_nil, isEmitAny]
        rw [countP_enqMap_eq_zero (fun _ _ _ => rfl)]
        norm_num
        omega

/-- Within one crawl a title is dequeued at one depth only. -/
theorem deq_depth_unique (c : Client) (pr : Processor) (strat : Strategy)
    (start : String) (md lim : Int) (fuel : Nat) {t : String} {dt dt' : Nat}
    (h1 : .dequeue t dt ∈ (crawl c pr strat start md lim fuel).events)
    (h2 : .dequeue t dt' ∈ (crawl c pr strat start md lim fuel).events) :
    dt = dt' := by
  have hcnt := (deq_count c pr strat md lim fuel [start] [(start, 0)] 0
    (goodState_init start) t).1
  have := eq_of_countP_le_one hcnt h1 h2 (by simp [isDeq]) (by simp [isDeq])
  exact (Event.dequeue.injEq .. ▸ this).2

/-! ## Concrete wikis used by the scenario theorems -/

/-- The spec's Scenario A/B/C wiki: `A` links to `[B, C]`; `B` and `C`
link to nothing; all three pages exist. -/
def scenarioClient : Client :=
  tableClient [("A", "a"), ("B", "b"), ("C", "c")] [("A", ["B", "C"])]

/-- The spec's Scenario D wiki: a two-page cycle, `A` links to `B` and
`B` links back to `A`. -/
def cycleClient : Client :=
  tableClient [("A", "a"), ("B", "b")] [("A", ["B"]), ("B", ["A"])]

/-- A wiki in which `A` exists and links to the missing page `B`. -/
def notFoundClient : Client :=
  tableClient [("A", "a")] [("A", ["B"])]

/-! ## The claims -/

/-- Claim C1: for every crawl and every wiki graph, no title is ever
passed to the strategy's `add_page` more than once during one `crawl()`
invocation; a title is in `self.visited` from the moment it is enqueued
(the start page from before the loop, every other title from its
discoverer's link expansion), and the start page itself is never passed
to `add_page`. -/
theorem C1_visited_once (c : Client) (pr : Processor) (strat : Strategy)
    (start : String) (md lim : Int) (fuel : Nat) :
    (∀ t : String,
      (crawl c pr strat start md lim fuel).events.countP (isEnq t) ≤ 1) ∧
    (∀ t dq par, Event.enqueue t dq par ∈ (crawl c pr strat start md lim fuel).events →
      t ∈ (crawl c pr strat start md lim fuel).visited) ∧
    (∀ dq par, Event.enqueue start dq par ∉ (crawl c pr strat start md lim fuel).events) := by
  refine ⟨?_, ?_, ?_⟩
  · intro t
    exact (enq_count c pr strat md lim fuel [start] [(start, 0)] 0
      (goodState_init start) t).1
  · intro t dq par h
    exact (enq_mem_visited c pr strat md lim fuel [start] [(start, 0)] 0).2 t dq par h
  · intro dq par hmem
    have hzero := (enq_count c pr strat md lim fuel [start] [(start, 0)] 0
      (goodState_init start) start).2 (List.mem_singleton.mpr rfl)
    have := List.countP_eq_zero.mp hzero _ hmem
    simp [isEnq] at this

/-- Claim C2: for every crawl with `limit ≥ 1`, the returned
`pages_processed` is at most `limit`, and no `get_page` call is made once
`limit` pages have been successfully processed: at every fetch the number
of `process` calls already made is still strictly below the limit. -/
theorem C2_limit_enforced (c : Client) (pr : Processor) (strat : Strategy)
    (start : String) (md lim : Int) (fuel : Nat) (hlim : 1 ≤ lim) :
    ((crawl c pr strat start md lim fuel).processed : Int) ≤ lim ∧
    (∀ f₁ t f₂, (crawl c pr strat start md lim fuel).events = f₁ ++ .fetchPage t :: f₂ →
      (f₁.countP isEmitAny : Int) < lim) := by
  constructor
  · exact processed_le c pr strat md lim fuel [start] [(start, 0)] 0 (by omega)
  · intro f₁ t f₂ h
    have := fetch_gating c pr strat md lim fuel [start] [(start, 0)] 0 f₁ t f₂ h
    simpa using this

/-- Witness for C2 at a concrete input. -/
theorem C2_limit_enforced_witness :
    ((crawl scenarioClient okProcessor .bfs "A" 1 2 10).processed : Int) ≤ 2 :=
  (C2_limit_enforced scenarioClient okProcessor .bfs "A" 1 2 10 (by norm_num)).1

/-- Claim C3: a page dequeued at depth `max_depth` is still fetched (the
fetch immediately follows every dequeue) and, when found and emitted
without sink failure, emitted; `get_links` is called for a found page if
and only if its dequeue depth is strictly below `max_depth`, and at the
ceiling none of its links are enqueued. -/
theorem C3_depth_gates_expansion (c : Client) (pr : Processor) (strat : Strategy)
    (start : String) (md lim : Int) (fuel : Nat) :
    ∀ (l₁ : List Event) (t : String) (dt : Nat) (l₂ : List Event),
      (crawl c pr strat start md lim fuel).events = l₁ ++ .dequeue t dt :: l₂ →
      (∃ l₂', l₂ = .fetchPage t :: l₂') ∧
      (∀ s, c.get_page t = .ok (some s) → pr.process t s = .ok () →
        .emit t ∈ (crawl c pr strat start md lim fuel).events ∧
        (.getLinks t ∈ (crawl c pr strat start md lim fuel).events ↔ (dt : Int) < md) ∧
        (¬ (dt : Int) < md →
          ∀ u dq, Event.enqueue u dq t ∉ (crawl c pr strat start md lim fuel).events)) := by
  intro l₁ t dt l₂ hsplit
  have hmem : .dequeue t dt ∈ (crawl c pr strat start md lim fuel).events := by
    rw [hsplit]
    exact List.mem_append_right _ (List.mem_cons_self _ _)
  refine ⟨deq_fetch_adjacent c pr strat md lim fuel [start] [(start, 0)] 0
      l₁ t dt l₂ hsplit, ?_⟩
  intro s hgp hproc
  obtain ⟨hemit, hgl⟩ := deq_found_events c pr strat md lim fuel [start] [(start, 0)] 0
    t dt s hmem hgp hproc
  refine ⟨hemit, ⟨?_, hgl⟩, ?_⟩
  · intro hglmem
    obtain ⟨s', d', _, _, hdeq', hd'⟩ := hasGL_cond c pr strat md lim fuel
      [start] [(start, 0)] 0 t hglmem
    rwa [deq_depth_unique c pr strat start md lim fuel hmem hdeq']
  · intro hnd u dq hemem
    obtain ⟨s', d', _, _, hdeq', hd', _⟩ := hasEnqPar_cond c pr strat md lim fuel
      [start] [(start, 0)] 0 t u dq hemem
    exact hnd (deq_depth_unique c pr strat start md lim fuel hmem hdeq' ▸ hd')

/-- Witness for C3 at a concrete input: in Scenario A with depth 1, page
`B` is dequeued at the depth ceiling, fetched and emitted, but its links
are not fetched. -/
theorem C3_depth_gates_expansion_witness :
    Event.emit "B" ∈ (crawl scenarioClient okProcessor .bfs "A" 1 10 10).events ∧
    ¬ Event.getLinks "B" ∈ (crawl scenarioClient okProcessor .bfs "A" 1 10 10).events := by
  have h := C3_depth_gates_expansion scenarioClient okProcessor .bfs "A" 1 10 10
    [.dequeue "A" 0, .fetchPage "A", .emit "A", .getLinks "A",
     .enqueue "B" 1 "A", .enqueue "C" 1 "A"] "B" 1
    [.fetchPage "B", .emit "B", .dequeue "C" 1, .fetchPage "C", .emit "C"] rfl
  obtain ⟨hemit, hiff, _⟩ := h.2 "b" rfl rfl
  exact ⟨hemit, fun hglmem => by
    have := hiff.1 hglmem
    norm_num at this⟩

/-- Claim C6: discovery happens at enqueue time and is not rolled back by
the limit: for the wiki where `A` links to `[B, C]`, `crawl(A, depth 1,
limit 2)` under BreadthFirst processes 2 pages but reports 3 discovered;
`C` is counted although it is never fetched. -/
theorem C6_discovery_at_enqueue :
    (crawl scenarioClient okProcessor .bfs "A" 1 2 10).processed = 2 ∧
    (crawl scenarioClient okProcessor .bfs "A" 1 2 10).visited.length = 3 ∧
    Event.enqueue "C" 1 "A" ∈ (crawl scenarioClient okProcessor .bfs "A" 1 2 10).events ∧
    Event.fetchPage "C" ∉ (crawl scenarioClient okProcessor .bfs "A" 1 2 10).events ∧
    (crawl scenarioClient okProcessor .bfs "A" 1 2 10).outcome = .ok := by
  refine ⟨rfl, rfl, by decide, by decide, rfl⟩

/-- Claim C7: a page whose fetch reports not-found contributes to
`pages_discovered` (it is in the final visited set) but is never emitted
and its links are never fetched; the loop instead continues with the
remaining frontier, leaving the processed counter unchanged. -/
theorem C7_not_found_skip (c : Client) (pr : Processor) (strat : Strategy)
    (start : String) (md lim : Int) (fuel : Nat) :
    (∀ t dt, .dequeue t dt ∈ (crawl c pr strat start md lim fuel).events →
      c.get_page t = .ok none →
      t ∈ (crawl c pr strat start md lim fuel).visited ∧
      .emit t ∉ (crawl c pr strat start md lim fuel).events ∧
      .getLinks t ∉ (crawl c pr strat start md lim fuel).events) ∧
    (∀ (fuel' : Nat) (v : List String) (x : String × Nat) (xs rest : List (String × Nat))
       (n : Nat) (p : String) (d : Nat),
      popNext strat x xs = ((p, d), rest) → c.get_page p = .ok none → (n : Int) < lim →
      crawlLoop c pr strat md lim (fuel' + 1) v (x :: xs) n =
        withEvents [.dequeue p d, .fetchPage p]
          (crawlLoop c pr strat md lim fuel' v rest n)) := by
  constructor
  · intro t dt hdeq hgp
    refine ⟨deq_mem_visited c pr strat md lim fuel [start] [(start, 0)] 0
        (goodState_init start) t dt hdeq, ?_, ?_⟩
    · intro hemit
      obtain ⟨s, hs⟩ := hasEmit_found c pr strat md lim fuel [start] [(start, 0)] 0 t hemit
      rw [hgp] at hs
      simp at hs
    · intro hgl
      obtain ⟨s, d', hs, _, _, _⟩ := hasGL_cond c pr strat md lim fuel
        [start] [(start, 0)] 0 t hgl
      rw [hgp] at hs
      simp at hs
  · intro fuel' v x xs rest n p d hpq hgp hlim
    exact crawlLoop_notFound hlim hpq hgp

/-- Witness for C7 at a concrete input: the missing page `B`, linked from
`A`, is discovered but neither emitted nor expanded. -/
theorem C7_not_found_skip_witness :
    "B" ∈ (crawl notFoundClient okProcessor .bfs "A" 1 10 10).visited ∧
    .emit "B" ∉ (crawl notFoundClient okProcessor .bfs "A" 1 10 10).events ∧
    .getLinks "B" ∉ (crawl notFoundClient okProcessor .bfs "A" 1 10 10).events :=
  (C7_not_found_skip notFoundClient okProcessor .bfs "A" 1 10 10).1
    "B" 1 (by decide) rfl

/-! ## Termination: the frontier/visited measure -/

/-- Number of titles of the universe `U` not yet in `self.visited`. -/
def unseen (U : Finset String) (v : List String) : Nat :=
  (U \ v.toFinset).card

theorem unseen_le_card (U : Finset String) (v : List String) : unseen U v ≤ U.card :=
  Finset.card_le_card (Finset.sdiff_subset)

theorem unseen_mono {v v' : List String} (hvv : ∀ t, t ∈ v → t ∈ v')
    (U : Finset String) : unseen U v' ≤ unseen U v := by
  refine Finset.card_le_card (Finset.sdiff_subset_sdiff (Finset.Subset.refl U) ?_)
  intro t ht
  rw [List.mem_toFinset] at ht ⊢
  exact hvv t ht

theorem unseen_strict_drop {U : Finset String} {v : List String} {l : String}
    (hU : l ∈ U) (hv : l ∉ v) : unseen U (v ++ [l]) + 1 ≤ unseen U v := by
  have hsplit : U \ (v ++ [l]).toFinset = (U \ v.toFinset).erase l := by
    ext a
    simp only [Finset.mem_sdiff, List.mem_toFinset, List.mem_append,
      List.mem_singleton, Finset.mem_erase]
    tauto
  have hmem : l ∈ U \ v.toFinset := by
    rw [Finset.mem_sdiff, List.mem_toFinset]
    exact ⟨hU, hv⟩
  have hcard : (U \ v.toFinset).card ≠ 0 := Finset.card_ne_zero_of_mem hmem
  simp only [unseen, hsplit, Finset.card_erase_of_mem hmem]
  omega

theorem unseen_batch_drop {U : Finset String} :
    ∀ (fs v : List String), fs.Nodup → (∀ l ∈ fs, l ∈ U ∧ l ∉ v) →
      unseen U (v ++ fs) + fs.length ≤ unseen U v := by
  intro fs
  induction fs with
  | nil => intro v _ _; simp
  | cons l fr ih =>
      intro v hnd hmem
      have h1 : unseen U ((v ++ [l]) ++ fr) + fr.length ≤ unseen U (v ++ [l]) := by
        refine ih (v ++ [l]) (List.nodup_cons.mp hnd).2 ?_
        intro l' hl'
        obtain ⟨hU', hv'⟩ := hmem l' (List.mem_cons_of_mem _ hl')
        refine ⟨hU', ?_⟩
        rw [List.mem_append, List.mem_singleton]
        rintro (h | rfl)
        · exact hv' h
        · exact (List.nodup_cons.mp hnd).1 hl'
      have h2 : unseen U (v ++ [l]) + 1 ≤ unseen U v :=
        unseen_strict_drop (hmem l (List.mem_cons_self _ _)).1
          (hmem l (List.mem_cons_self _ _)).2
      have heq : v ++ l :: fr = (v ++ [l]) ++ fr := by simp
      rw [heq]
      simp only [List.length_cons]
      omega

/-- The length of the remaining queue after a dequeue. -/
theorem popNext_rest_length {strat : Strategy} {x : String × Nat}
    {xs rest : List (String × Nat)} {p : String} {d : Nat}
    (hpq : popNext strat x xs = ((p, d), rest)) : rest.length = xs.length := by
  have hperm := popNext_perm strat x xs
  rw [hpq] at hperm
  have := hperm.length_eq
  simpa using this.symm

/-- For a wiki whose link lists stay inside a finite universe `U`, the
loop halts before exhausting `queue.length + |U \ visited|` units of
fuel: each iteration removes one frontier entry and every enqueue
consumes a fresh element of `U`. -/
theorem crawlLoop_halts (c : Client) (pr : Processor) (strat : Strategy) (md lim : Int)
    (U : Finset String)
    (hlinks : ∀ p links, c.get_links p = .ok links → ∀ t ∈ links, t ∈ U) :
    ∀ (fuel : Nat) (v : List String) (q : List (String × Nat)) (n : Nat),
      q.length + unseen U v ≤ fuel →
      (crawlLoop c pr strat md lim fuel v q n).outcome ≠ .fuelOut := by
  intro fuel
  induction fuel with
  | zero =>
      intro v q n hmeas
      cases q with
      | nil => rw [crawlLoop_nil]; simp
      | cons x xs => simp at hmeas
  | succ fuel ih =>
      intro v q n hmeas
      cases q with
      | nil => rw [crawlLoop_nil]; simp
      | cons x xs =>
          by_cases h : (n : Int) < lim
          · rcases hpq : popNext strat x xs with ⟨⟨p, d⟩, rest⟩
            have hrest : rest.length = xs.length := popNext_rest_length hpq
            rcases hgp : c.get_page p with e | co
            · rw [crawlLoop_fetchErr h hpq hgp]; simp
            · rcases co with _ | content
              · rw [crawlLoop_notFound h hpq hgp]
                simp only [withEvents_outcome]
                refine ih v rest n ?_
                simp only [List.length_cons] at hmeas
                omega
              · rcases hproc : pr.process p content with e | u
                · rw [crawlLoop_procErr h hpq hgp hproc]; simp
                · cases u
                  by_cases hd : (d : Int) < md
                  · rcases hgl : c.get_links p with e | links
                    · rw [crawlLoop_linksErr h hpq hgp hproc hd hgl]
                      simp only [withEvents_outcome]
                      refine ih v rest (n + 1) ?_
                      simp only [List.length_cons] at hmeas
                      omega
                    · rw [crawlLoop_expand h hpq hgp hproc hd hgl]
                      simp only [withEvents_outcome]
                      refine ih (v ++ newLinks v links)
                        (rest ++ (newLinks v links).map (fun l => (l, d + 1))) (n + 1) ?_
                      have hdrop : unseen U (v ++ newLinks v links) +
                          (newLinks v links).length ≤ unseen U v := by
                        refine unseen_batch_drop (newLinks v links) v newLinks_nodup ?_
                        intro l hl
                        exact ⟨hlinks p links hgl l (newLinks_subset hl),
                          newLinks_not_visited hl⟩
                      simp only [List.length_append, List.length_map, List.length_cons]
                        at hmeas ⊢
                      omega
                  · rw [crawlLoop_noExpand h hpq hgp hproc hd]
                    simp only [withEvents_outcome]
                    refine ih v rest (n + 1) ?_
                    simp only [List.length_cons] at hmeas
                    omega
          · rw [crawlLoop_limit h]; simp

/-- Claim C5: for every wiki whose outbound links stay inside a finite
title universe, `crawl()` terminates (enough fuel makes fuel exhaustion
impossible), even on cyclic graphs; and on the concrete two-page cycle
`A ↔ B` with depth 5 and any `limit ≥ 2`, the crawl returns
`pages_processed = 2` and `pages_discovered = 2`. -/
theorem C5_termination :
    (∀ (c : Client) (pr : Processor) (strat : Strategy) (start : String) (md lim : Int)
       (U : Finset String) (fuel : Nat),
      (∀ p links, c.get_links p = .ok links → ∀ t ∈ links, t ∈ U) →
      1 + U.card ≤ fuel →
      (crawl c pr strat start md lim fuel).outcome ≠ .fuelOut) ∧
    (∀ (lim : Int) (f : Nat), 2 ≤ lim →
      (crawl cycleClient okProcessor .bfs "A" 5 lim (f + 2)).processed = 2 ∧
      (crawl cycleClient okProcessor .bfs "A" 5 lim (f + 2)).visited.length = 2 ∧
      (crawl cycleClient okProcessor .bfs "A" 5 lim (f + 2)).outcome = .ok) := by
  constructor
  · intro c pr strat start md lim U fuel hlinks hfuel
    refine crawlLoop_halts c pr strat md lim U hlinks fuel [start] [(start, 0)] 0 ?_
    have := unseen_le_card U [start]
    simp only [List.length_singleton]
    omega
  · intro lim f hlim
    rw [crawl]
    rw [crawlLoop_expand (by omega) rfl rfl rfl (by norm_num) rfl]
    show (withEvents _ (crawlLoop cycleClient okProcessor .bfs 5 lim (f + 1)
      ["A", "B"] [("B", 1)] 1)).processed = 2 ∧
      (withEvents _ (crawlLoop cycleClient okProcessor .bfs 5 lim (f + 1)
        ["A", "B"] [("B", 1)] 1)).visited.length = 2 ∧
      (withEvents _ (crawlLoop cycleClient okProcessor .bfs 5 lim (f + 1)
        ["A", "B"] [("B", 1)] 1)).outcome = .ok
    rw [crawlLoop_expand (by omega) rfl rfl rfl (by norm_num) rfl]
    show (withEvents _ (withEvents _ (crawlLoop cycleClient okProcessor .bfs 5 lim f
      ["A", "B"] [] 2))).processed = 2 ∧
      (withEvents _ (withEvents _ (crawlLoop cycleClient okProcessor .bfs 5 lim f
        ["A", "B"] [] 2))).visited.length = 2 ∧
      (withEvents _ (withEvents _ (crawlLoop cycleClient okProcessor .bfs 5 lim f
        ["A", "B"] [] 2))).outcome = .ok
    rw [crawlLoop_nil]
    exact ⟨rfl, rfl, rfl⟩

/-- Witness for C5 at concrete inputs: the cycle wiki with universe
`["A", "B"]`, fuel 3, limit 10. -/
theorem C5_termination_witness :
    (crawl cycleClient okProcessor .bfs "A" 5 10 3).outcome ≠ .fuelOut ∧
    (crawl cycleClient okProcessor .bfs "A" 5 10 (1 + 2)).processed = 2 := by
  constructor
  · refine C5_termination.1 cycleClient okProcessor .bfs "A" 5 10 {"A", "B"} 3 ?_ ?_
    · intro p links h t ht
      simp only [cycleClient, tableClient, Except.ok.injEq] at h
      subst h
      by_cases hA : p = "A"
      · subst hA; simp [List.lookup] at ht; subst ht; decide
      · by_cases hB : p = "B"
        · subst hB; simp [List.lookup] at ht; subst ht; decide
        · exfalso
          have hbeqA : (p == "A") = false := by
            rw [beq_eq_false_iff_ne]; exact hA
          have hbeqB : (p == "B") = false := by
            rw [beq_eq_false_iff_ne]; exact hB
          simp [List.lookup, hbeqA, hbeqB] at ht
    · decide
  · exact (C5_termination.2 10 1 (by norm_num)).1

/-! ## The wikibot inline loop: step equations and equivalence -/

section WikibotStepEquations

variable {c : Client} {strat : Strategy} {md lim : Int}
variable {fuel : Nat} {v : List String} {n : Nat}
variable {x : String × Nat} {xs rest : List (String × Nat)} {p : String} {d : Nat}

theorem wikibotLoop_nil : wikibotLoop c strat md lim fuel v [] n = ⟨[], v, n, .ok⟩ := by
  cases fuel <;> rfl

theorem wikibotLoop_limit (h : ¬ (n : Int) < lim) :
    wikibotLoop c strat md lim fuel v (x :: xs) n = ⟨[], v, n, .ok⟩ := by
  cases fuel <;> simp [wikibotLoop, h]

theorem wikibotLoop_fuelOut (h : (n : Int) < lim) :
    wikibotLoop c strat md lim 0 v (x :: xs) n = ⟨[], v, n, .fuelOut⟩ := by
  simp [wikibotLoop, h]

theorem wikibotLoop_fetchErr (h : (n : Int) < lim)
    (hpq : popNext strat x xs = ((p, d), rest)) {e : String}
    (hgp : c.get_page p = .error e) :
    wikibotLoop c strat md lim (fuel + 1) v (x :: xs) n =
      ⟨[.dequeue p d, .fetchPage p], v, n, .err e⟩ := by
  simp [wikibotLoop, h, hpq, hgp]

theorem wikibotLoop_notFound (h : (n : Int) < lim)
    (hpq : popNext strat x xs = ((p, d), rest))
    (hgp : c.get_page p = .ok none) :
    wikibotLoop c strat md lim (fuel + 1) v (x :: xs) n =
      withEvents [.dequeue p d, .fetchPage p]
        (wikibotLoop c strat md lim fuel v rest n) := by
  simp [wikibotLoop, h, hpq, hgp]

theorem wikibotLoop_noExpand (h : (n : Int) < lim)
    (hpq : popNext strat x xs = ((p, d), rest)) {content : String}
    (hgp : c.get_page p = .ok (some content))
    (hd : ¬ (d : Int) < md) :
    wikibotLoop c strat md lim (fuel + 1) v (x :: xs) n =
      withEvents [.dequeue p d, .fetchPage p, .emit p]
        (wikibotLoop c strat md lim fuel v rest (n + 1)) := by
  simp [wikibotLoop, h, hpq, hgp, hd]

theorem wikibotLoop_linksErr (h : (n : Int) < lim)
    (hpq : popNext strat x xs = ((p, d), rest)) {content e : String}
    (hgp : c.get_page p = .ok (some content))
    (hd : (d : Int) < md)
    (hgl : c.get_links p = .error e) :
    wikibotLoop c strat md lim (fuel + 1) v (x :: xs) n =
      withEvents [.dequeue p d, .fetchPage p, .emit p, .getLinks p]
        (wikibotLoop c strat md lim fuel v rest (n + 1)) := by
  simp [wikibotLoop, h, hpq, hgp, hd, hgl]

theorem wikibotLoop_expand (h : (n : Int) < lim)
    (hpq : popNext strat x xs = ((p, d), rest)) {content : String}
    (hgp : c.get_page p = .ok (some content))
    (hd : (d : Int) < md) {links : List String}
    (hgl : c.get_links p = .ok links) :
    wikibotLoop c strat md lim (fuel + 1) v (x :: xs) n =
      withEvents ([.dequeue p d, .fetchPage p, .emit p, .getLinks p] ++
          (newLinks v links).map (fun l => Event.enqueue l (d + 1) p))
        (wikibotLoop c strat md lim fuel (v ++ newLinks v links)
          (rest ++ (newLinks v links).map (fun l => (l, d + 1))) (n + 1)) := by
  simp [wikibotLoop, h, hpq, hgp, hd, hgl]

end WikibotStepEquations

/-- Claim C10: for every wiki (same `get_page`/`get_links` results), same
start page, depth, limit and strategy, and any sink whose `process` never
raises (as with the inline file/console output of wikibot), the pywikicli
`WikiCrawlerService.crawl` loop and the wikibot inline crawl loop produce
the identical result: same interaction trace (hence same dequeue and
process order), same `pages_processed` and same `pages_discovered`. -/
theorem C10_wikibot_equivalence (c : Client) (pr : Processor)
    (hpr : ∀ p s, pr.process p s = .ok ()) (strat : Strategy) (start : String)
    (md lim : Int) (fuel : Nat) :
    crawl c pr strat start md lim fuel = wikibotCrawl c strat start md lim fuel := by
  rw [crawl, wikibotCrawl]
  generalize [start] = v
  generalize [(start, (0 : Nat))] = q
  generalize (0 : Nat) = n
  clear start
  induction fuel generalizing v q n with
  | zero =>
      cases q with
      | nil => rw [crawlLoop_nil, wikibotLoop_nil]
      | cons x xs =>
          by_cases h : (n : Int) < lim
          · rw [crawlLoop_fuelOut h, wikibotLoop_fuelOut h]
          · rw [crawlLoop_limit h, wikibotLoop_limit h]
  | succ fuel ih =>
      cases q with
      | nil => rw [crawlLoop_nil, wikibotLoop_nil]
      | cons x xs =>
          by_cases h : (n : Int) < lim
          · rcases hpq : popNext strat x xs with ⟨⟨p, d⟩, rest⟩
            rcases hgp : c.get_page p with e | co
            · rw [crawlLoop_fetchErr h hpq hgp, wikibotLoop_fetchErr h hpq hgp]
            · rcases co with _ | content
              · rw [crawlLoop_notFound h hpq hgp, wikibotLoop_notFound h hpq hgp, ih]
              · by_cases hd : (d : Int) < md
                · rcases hgl : c.get_links p with e | links
                  · rw [crawlLoop_linksErr h hpq hgp (hpr p content) hd hgl,
                      wikibotLoop_linksErr h hpq hgp hd hgl, ih]
                  · rw [crawlLoop_expand h hpq hgp (hpr p content) hd hgl,
                      wikibotLoop_expand h hpq hgp hd hgl, ih]
                · rw [crawlLoop_noExpand h hpq hgp (hpr p content) hd,
                    wikibotLoop_noExpand h hpq hgp hd, ih]
          · rw [crawlLoop_limit h, wikibotLoop_limit h]

/-- Witness for C10 at a concrete input: the scenario wiki with the
non-failing sink. -/
theorem C10_wikibot_equivalence_witness :
    crawl scenarioClient okProcessor .bfs "A" 1 10 10 =
      wikibotCrawl scenarioClient .bfs "A" 1 10 10 :=
  C10_wikibot_equivalence scenarioClient okProcessor (fun _ _ => rfl) .bfs "A" 1 10 10

/-! ## Preconditions are not validated (claim C9) -/

/-- A wiki on which even the empty title has a page. -/
def emptyTitleClient : Client := tableClient [("", "x")] []

/-- Counterexample to claim C9 as stated: `crawl("", -1, 5)` violates
every precondition (empty start page, negative depth), yet nothing is
rejected before traversal — the empty title is fetched and emitted and
counts as processed. -/
theorem C9_counterexample :
    Event.fetchPage "" ∈ (crawl emptyTitleClient okProcessor .bfs "" (-1) 5 3).events ∧
    Event.emit "" ∈ (crawl emptyTitleClient okProcessor .bfs "" (-1) 5 3).events ∧
    (crawl emptyTitleClient okProcessor .bfs "" (-1) 5 3).processed = 1 := by
  decide

/-- Claim C9 (amended): `crawl()` performs no precondition validation at
all.  `limit < 1` silently yields an immediate normal return with no
fetch and no emit; `max_depth < 0` is silently equivalent to
`max_depth = 0` (the start page is still crawled, nothing is expanded);
and any start page — the empty string included — is dequeued and fetched
as the first two interactions whenever `limit ≥ 1`. -/
theorem C9_no_validation (c : Client) (pr : Processor) (strat : Strategy)
    (start : String) (md lim : Int) (fuel : Nat) :
    (lim < 1 → crawl c pr strat start md lim fuel = ⟨[], [start], 0, .ok⟩) ∧
    (md ≤ 0 → ∀ (v : List String) (q : List (String × Nat)) (n : Nat),
      crawlLoop c pr strat md lim fuel v q n = crawlLoop c pr strat 0 lim fuel v q n) ∧
    (1 ≤ lim → ∀ fuel', ∃ tail,
      (crawl c pr strat start md lim (fuel' + 1)).events =
        .dequeue start 0 :: .fetchPage start :: tail) := by
  refine ⟨?_, ?_, ?_⟩
  · intro hlim
    rw [crawl, crawlLoop_limit (by push_cast; omega)]
  · intro hmd
    induction fuel with
    | zero =>
        intro v q n
        cases q with
        | nil => rw [crawlLoop_nil, crawlLoop_nil]
        | cons x xs =>
            by_cases h : (n : Int) < lim
            · rw [crawlLoop_fuelOut h, crawlLoop_fuelOut h]
            · rw [crawlLoop_limit h, crawlLoop_limit h]
    | succ fuel ih =>
        intro v q n
        cases q with
        | nil => rw [crawlLoop_nil, crawlLoop_nil]
        | cons x xs =>
            by_cases h : (n : Int) < lim
            · rcases hpq : popNext strat x xs with ⟨⟨p, d⟩, rest⟩
              have hd : ¬ (d : Int) < md := by
                intro hlt
                have : (0 : Int) ≤ (d : Int) := Int.ofNat_nonneg d
                omega
              have hd0 : ¬ (d : Int) < 0 := by
                intro hlt
                have : (0 : Int) ≤ (d : Int) := Int.ofNat_nonneg d
                omega
              rcases hgp : c.get_page p with e | co
              · rw [crawlLoop_fetchErr h hpq hgp, crawlLoop_fetchErr h hpq hgp]
              · rcases co with _ | content
                · rw [crawlLoop_notFound h hpq hgp, crawlLoop_notFound h hpq hgp, ih]
                · rcases hproc : pr.process p content with e | u
                  · rw [crawlLoop_procErr h hpq hgp hproc, crawlLoop_procErr h hpq hgp hproc]
                  · cases u
                    rw [crawlLoop_noExpand h hpq hgp hproc hd,
                      crawlLoop_noExpand h hpq hgp hproc hd0, ih]
            · rw [crawlLoop_limit h, crawlLoop_limit h]
  · intro hlim fuel'
    rw [crawl]
    have hpq : popNext strat (start, 0) [] = ((start, 0), []) := by
      cases strat <;> rfl
    have h0 : ((0 : Nat) : Int) < lim := by push_cast; omega
    rcases hgp : c.get_page start with e | co
    · rw [crawlLoop_fetchErr h0 hpq hgp]
      exact ⟨[], rfl⟩
    · rcases co with _ | content
      · rw [crawlLoop_notFound h0 hpq hgp]
        exact ⟨_, rfl⟩
      · rcases hproc : pr.process start content with e | u
        · rw [crawlLoop_procErr h0 hpq hgp hproc]
          exact ⟨[.emit start], rfl⟩
        · cases u
          by_cases hd : ((0 : Nat) : Int) < md
          · rcases hgl : c.get_links start with e | links
            · rw [crawlLoop_linksErr h0 hpq hgp hproc hd hgl]
              exact ⟨_, rfl⟩
            · rw [crawlLoop_expand h0 hpq hgp hproc hd hgl]
              exact ⟨_, rfl⟩
          · rw [crawlLoop_noExpand h0 hpq hgp hproc hd]
            exact ⟨_, rfl⟩

/-- Witness for the amended C9 at concrete inputs. -/
theorem C9_no_validation_witness :
    crawl emptyTitleClient okProcessor .bfs "" 5 0 3 = ⟨[], [""], 0, .ok⟩ ∧
    crawlLoop emptyTitleClient okProcessor .bfs (-1) 5 3 [""] [("", 0)] 0 =
      crawlLoop emptyTitleClient okProcessor .bfs 0 5 3 [""] [("", 0)] 0 :=
  ⟨(C9_no_validation emptyTitleClient okProcessor .bfs "" 5 0 3).1 (by norm_num),
   (C9_no_validation emptyTitleClient okProcessor .bfs "" (-1) 5 3).2.1
     (by norm_num) [""] [("", 0)] 0⟩

/-! ## Error propagation (claim C8)

The response handling of `MediaWikiPageService.get_page` (pywikicli
`api.py`) distinguishes these response shapes. -/

/-- Shapes of a page-query response as far as `get_page` distinguishes
them: a transport/HTTP failure raises; a response without the top-level
`query` key is logged and reported as `None`; a page carrying `missing`
is reported as `None`; a response whose structure breaks below `query`
(e.g. no `revisions` entry) raises from the extraction code; otherwise
the revision text is returned. -/
inductive PageResponse where
  | transportErr (e : String)
  | noQuery
  | missingPage
  | malformedBelow (e : String)
  | contents (s : String)
deriving DecidableEq, Repr

/-- The result of `MediaWikiPageService.get_page` on each response shape
(api.py: the `try` block re-raises transport and extraction errors,
returns `None` both for a missing page and for a response without the
top-level `query` key, and otherwise returns the content). -/
def get_page_of_response : PageResponse → Except String (Option String)
  | .transportErr e => .error e
  | .noQuery => .ok none
  | .missingPage => .ok none
  | .malformedBelow e => .error e
  | .contents s => .ok (some s)

/-- A wiki client whose page fetches go through the `get_page` response
handling. -/
def responseClient (resp : String → PageResponse)
    (ls : String → Except String (List String)) : Client where
  get_page t := get_page_of_response (resp t)
  get_links := ls

/-- Every page query answers with a response missing the top-level
`query` key. -/
def malformedTopClient : Client :=
  responseClient (fun _ => .noQuery) (fun _ => .ok [])

/-- Counterexample to claim C8 as stated: a malformed top-level
`get_page` response (missing `query` key) does NOT propagate out of
`crawl()`; `get_page` converts it to `None`, so the page is skipped like
a not-found page and the crawl ends normally. -/
theorem C8_counterexample :
    (crawl malformedTopClient okProcessor .bfs "A" 1 10 3).outcome = .ok ∧
    (crawl malformedTopClient okProcessor .bfs "A" 1 10 3).processed = 0 ∧
    (crawl malformedTopClient okProcessor .bfs "A" 1 10 3).events =
      [.dequeue "A" 0, .fetchPage "A"] := by
  decide

/-- A sink failure surfaces: if some emitted page's `process` call
errors, the crawl's outcome is that error. -/
theorem emit_err_propagates (c : Client) (pr : Processor) (strat : Strategy) (md lim : Int) :
    ∀ (fuel : Nat) (v : List String) (q : List (String × Nat)) (n : Nat)
      (t s e : String),
      .emit t ∈ (crawlLoop c pr strat md lim fuel v q n).events →
      c.get_page t = .ok (some s) → pr.process t s = .error e →
      (crawlLoop c pr strat md lim fuel v q n).outcome = .err e := by
  refine crawlLoop_rec c pr strat md lim
    (fun _ _ _ r => ∀ t s e, .emit t ∈ r.events →
      c.get_page t = .ok (some s) → pr.process t s = .error e → r.outcome = .err e)
    ?_ ?_ ?_ ?_ ?_ ?_ ?_ ?_ ?_
  · intro v n t s e h _ _; simp at h
  · intro v x xs n _ t s e h _ _; simp at h
  · intro v x xs n _ t s e h _ _; simp at h
  · intro v x xs n p d rest e' _ _ _ t s e h _ _; simp at h
  · intro v x xs n p d rest r _ _ _ ih t s e h hgp hproc
    rw [withEvents_events, List.mem_append] at h
    rcases h with h | h
    · simp at h
    · exact ih t s e h hgp hproc
  · intro v x xs n p d rest content e' _ _ hgp hproc t s e h hgp' hproc'
    simp only [List.mem_cons] at h
    rcases h with h | h | h | h
    · simp at h
    · simp at h
    · cases h
      rw [hgp] at hgp'
      have : content = s := by simpa using hgp'
      subst this
      rw [hproc] at hproc'
      have : e' = e := by simpa using hproc'
      subst this
      rfl
    · simp at h
  · intro v x xs n p d rest content r _ _ hgp hproc hd ih t s e h hgp' hproc'
    rw [withEvents_events, List.mem_append] at h
    rcases h with h | h
    · simp only [List.mem_cons] at h
      rcases h with h | h | h | h
      · simp at h
      · simp at h
      · cases h
        rw [hgp] at hgp'
        have : content = s := by simpa using hgp'
        subst this
        rw [hproc] at hproc'
        exact absurd hproc' (by simp)
      · simp at h
    · exact ih t s e h hgp' hproc'
  · intro v x xs n p d rest content e' r _ _ hgp hproc hd _ ih t s e h hgp' hproc'
    rw [withEvents_events, List.mem_append] at h
    rcases h with h | h
    · simp only [List.mem_cons] at h
      rcases h with h | h | h | h | h
      · simp at h
      · simp at h
      · cases h
        rw [hgp] at hgp'
        have : content = s := by simpa using hgp'
        subst this
        rw [hproc] at hproc'
        exact absurd hproc' (by simp)
      · simp at h
      · simp at h
    · exact ih t s e h hgp' hproc'
  · intro v x xs n p d rest content links r _ _ hgp hproc hd _ ih t s e h hgp' hproc'
    rw [withEvents_events, List.mem_append] at h
    rcases h with h | h
    · rw [List.mem_append] at h
      rcases h with h | h
      · simp only [List.mem_cons] at h
        rcases h with h | h | h | h | h
        · simp at h
        · simp at h
        · cases h
          rw [hgp] at hgp'
          have : content = s := by simpa using hgp'
          subst this
          rw [hproc] at hproc'
          exact absurd hproc' (by simp)
        · simp at h
        · simp at h
      · obtain ⟨l, _, he⟩ := List.mem_map.mp h
        simp at he
    · exact ih t s e h hgp' hproc'

/-- A fetch failure surfaces: if some fetched page's `get_page` call
errors, the crawl's outcome is that error. -/
theorem fetch_err_propagates (c : Client) (pr : Processor) (strat : Strategy) (md lim : Int) :
    ∀ (fuel : Nat) (v : List String) (q : List (String × Nat)) (n : Nat)
      (t e : String),
      .fetchPage t ∈ (crawlLoop c pr strat md lim fuel v q n).events →
      c.get_page t = .error e →
      (crawlLoop c pr strat md lim fuel v q n).outcome = .err e := by
  refine crawlLoop_rec c pr strat md lim
    (fun _ _ _ r => ∀ t e, .fetchPage t ∈ r.events →
      c.get_page t = .error e → r.outcome = .err e)
    ?_ ?_ ?_ ?_ ?_ ?_ ?_ ?_ ?_
  · intro v n t e h _; simp at h
  · intro v x xs n _ t e h _; simp at h
  · intro v x xs n _ t e h _; simp at h
  · intro v x xs n p d rest e' _ _ hgp t e h hgp'
    simp only [List.mem_cons] at h
    rcases h with h | h | h
    · simp at h
    · cases h
      rw [hgp] at hgp'
      have : e' = e := by simpa using hgp'
      subst this
      rfl
    · simp at h
  · intro v x xs n p d rest r _ _ hgp ih t e h hgp'
    rw [withEvents_events, List.mem_append] at h
    rcases h with h | h
    · simp only [List.mem_cons] at h
      rcases h with h | h | h
      · simp at h
      · cases h
        rw [hgp] at hgp'
        exact absurd hgp' (by simp)
      · simp at h
    · exact ih t e h hgp'
  · intro v x xs n p d rest content e' _ _ hgp _ t e h hgp'
    simp only [List.mem_cons] at h
    rcases h with h | h | h | h
    · simp at h
    · cases h
      rw [hgp] at hgp'
      exact absurd hgp' (by simp)
    · simp at h
    · simp at h
  · intro v x xs n p d rest content r _ _ hgp _ _ ih t e h hgp'
    rw [withEvents_events, List.mem_append] at h
    rcases h with h | h
    · simp only [List.mem_cons] at h
      rcases h with h | h | h | h
      · simp at h
      · cases h
        rw [hgp] at hgp'
        exact absurd hgp' (by simp)
      · simp at h
      · simp at h
    · exact ih t e h hgp'
  · intro v x xs n p d rest content e' r _ _ hgp _ _ _ ih t e h hgp'
    rw [withEvents_events, List.mem_append] at h
    rcases h with h | h
    · simp only [List.mem_cons] at h
      rcases h with h | h | h | h | h
      · simp at h
      · cases h
        rw [hgp] at hgp'
        exact absurd hgp' (by simp)
      · simp at h
      · simp at h
      · simp at h
    · exact ih t e h hgp'
  · intro v x xs n p d rest content links r _ _ hgp _ _ _ ih t e h hgp'
    rw [withEvents_events, List.mem_append] at h
    rcases h with h | h
    · rw [List.mem_append] at h
      rcases h with h | h
      · simp only [List.mem_cons] at h
        rcases h with h | h | h | h | h
        · simp at h
        · cases h
          rw [hgp] at hgp'
          exact absurd hgp' (by simp)
        · simp at h
        · simp at h
        · simp at h
      · obtain ⟨l, _, he⟩ := List.mem_map.mp h
        simp at he
    · exact ih t e h hgp'

/-- Claim C8 (amended): a failure raised by `get_links` during one
page's expansion is absorbed — that page's expansion is abandoned and
the crawl continues with the remaining frontier, the page still counting
as processed; a failure raised by the sink's `process` and a failure
raised by `get_page` (including an extraction failure on a response
malformed below the top-level `query` key) are not caught inside the
loop and surface as the outcome of `crawl()`; but a response missing the
top-level `query` key itself is converted by `get_page` to not-found and
skipped, not propagated. -/
theorem C8_propagation_policy (c : Client) (pr : Processor) (strat : Strategy)
    (start : String) (md lim : Int) (fuel : Nat) :
    (∀ (fuel' : Nat) (v : List String) (x : String × Nat) (xs rest : List (String × Nat))
       (n : Nat) (p : String) (d : Nat) (content e : String),
      (n : Int) < lim → popNext strat x xs = ((p, d), rest) →
      c.get_page p = .ok (some content) → pr.process p content = .ok () →
      (d : Int) < md → c.get_links p = .error e →
      crawlLoop c pr strat md lim (fuel' + 1) v (x :: xs) n =
        withEvents [.dequeue p d, .fetchPage p, .emit p, .getLinks p]
          (crawlLoop c pr strat md lim fuel' v rest (n + 1))) ∧
    (∀ t s e, .emit t ∈ (crawl c pr strat start md lim fuel).events →
      c.get_page t = .ok (some s) → pr.process t s = .error e →
      (crawl c pr strat start md lim fuel).outcome = .err e) ∧
    (∀ t e, .fetchPage t ∈ (crawl c pr strat start md lim fuel).events →
      c.get_page t = .error e →
      (crawl c pr strat start md lim fuel).outcome = .err e) ∧
    (get_page_of_response .noQuery = .ok none ∧
      ∀ e, get_page_of_response (.malformedBelow e) = .error e) := by
  refine ⟨?_, ?_, ?_, rfl, fun e => rfl⟩
  · intro fuel' v x xs rest n p d content e hlim hpq hgp hproc hd hgl
    exact crawlLoop_linksErr hlim hpq hgp hproc hd hgl
  · intro t s e hmem hgp hproc
    exact emit_err_propagates c pr strat md lim fuel [start] [(start, 0)] 0 t s e
      hmem hgp hproc
  · intro t e hmem hgp
    exact fetch_err_propagates c pr strat md lim fuel [start] [(start, 0)] 0 t e
      hmem hgp

/-- A client whose fetches fail below the top-level key for every page. -/
def malformedBelowClient : Client :=
  responseClient (fun _ => .malformedBelow "KeyError") (fun _ => .ok [])

/-- A sink that always raises. -/
def failingProcessor : Processor := ⟨fun _ _ => .error "sink failure"⟩

/-- Witness for the amended C8 at concrete inputs: a sink failure and a
below-top-level fetch failure each abort the crawl with that error. -/
theorem C8_propagation_policy_witness :
    (crawl scenarioClient failingProcessor .bfs "A" 1 10 3).outcome = .err "sink failure" ∧
    (crawl malformedBelowClient okProcessor .bfs "A" 1 10 3).outcome = .err "KeyError" := by
  constructor
  · exact (C8_propagation_policy scenarioClient failingProcessor .bfs "A" 1 10 3).2.1
      "A" "a" "sink failure" (by decide) rfl rfl
  · exact (C8_propagation_policy malformedBelowClient okProcessor .bfs "A" 1 10 3).2.2.1
      "A" "KeyError" (by decide) rfl

/-! ## Order laws (claim C4): infrastructure

The breadth-first order law is proved through a monotone depth trace; the
sequence that records, for every dequeue its depth and for every enqueue
its depth minus one (the depth of the iteration that made it), never
decreases along a breadth-first run. -/

/-- The depth contributions of a trace: a dequeue at depth `d`
contributes `d`; an enqueue at depth `dq` happens inside an iteration
whose dequeue depth is `dq - 1` and contributes that. -/
def depthTrace : List Event → List Nat
  | [] => []
  | .dequeue _ d :: es => d :: depthTrace es
  | .enqueue _ dq _ :: es => (dq - 1) :: depthTrace es
  | .fetchPage _ :: es => depthTrace es
  | .emit _ :: es => depthTrace es
  | .getLinks _ :: es => depthTrace es

@[simp] theorem depthTrace_nil : depthTrace [] = [] := rfl

@[simp] theorem depthTrace_deq (t : String) (d : Nat) (es : List Event) :
    depthTrace (.dequeue t d :: es) = d :: depthTrace es := rfl

@[simp] theorem depthTrace_enq (t : String) (dq : Nat) (par : String) (es : List Event) :
    depthTrace (.enqueue t dq par :: es) = (dq - 1) :: depthTrace es := rfl

@[simp] theorem depthTrace_fetch (t : String) (es : List Event) :
    depthTrace (.fetchPage t :: es) = depthTrace es := rfl

@[simp] theorem depthTrace_emit (t : String) (es : List Event) :
    depthTrace (.emit t :: es) = depthTrace es := rfl

@[simp] theorem depthTrace_gl (t : String) (es : List Event) :
    depthTrace (.getLinks t :: es) = depthTrace es := rfl

theorem depthTrace_append : ∀ (l₁ l₂ : List Event),
    depthTrace (l₁ ++ l₂) = depthTrace l₁ ++ depthTrace l₂ := by
  intro l₁
  induction l₁ with
  | nil => intro l₂; simp
  | cons e es ih =>
      intro l₂
      cases e <;> simp [ih]

theorem depthTrace_enqMap (fresh : List String) (dq : Nat) (par : String) :
    depthTrace (fresh.map (fun l => Event.enqueue l dq par)) =
      List.replicate fresh.length (dq - 1) := by
  induction fresh with
  | nil => rfl
  | cons l fs ih => simp [ih, List.replicate_succ]

theorem mem_depthTrace_of_enq {t : String} {dq : Nat} {par : String} :
    ∀ {l : List Event}, Event.enqueue t dq par ∈ l → dq - 1 ∈ depthTrace l := by
  intro l
  induction l with
  | nil => intro h; simp at h
  | cons e es ih =>
      intro h
      rcases List.mem_cons.mp h with heq | hmem
      · rw [← heq]; simp
      · cases e <;> simp [ih hmem]

/-- Every `add_page` call enqueues at depth at least one (the depth of
the expanded page plus one). -/
theorem enq_depth_pos (c : Client) (pr : Processor) (strat : Strategy) (md lim : Int) :
    ∀ (fuel : Nat) (v : List String) (q : List (String × Nat)) (n : Nat)
      (t : String) (dq : Nat) (par : String),
      Event.enqueue t dq par ∈ (crawlLoop c pr strat md lim fuel v q n).events → 1 ≤ dq := by
  refine crawlLoop_rec c pr strat md lim
    (fun _ _ _ r => ∀ t dq par, Event.enqueue t dq par ∈ r.events → 1 ≤ dq)
    ?_ ?_ ?_ ?_ ?_ ?_ ?_ ?_ ?_
  · intro v n t dq par h; simp at h
  · intro v x xs n _ t dq par h; simp at h
  · intro v x xs n _ t dq par h; simp at h
  · intro v x xs n p d rest e _ _ _ t dq par h; simp at h
  · intro v x xs n p d rest r _ _ _ ih t dq par h
    rw [withEvents_events, List.mem_append] at h
    rcases h with h | h
    · simp at h
    · exact ih t dq par h
  · intro v x xs n p d rest content e _ _ _ _ t dq par h; simp at h
  · intro v x xs n p d rest content r _ _ _ _ _ ih t dq par h
    rw [withEvents_events, List.mem_append] at h
    rcases h with h | h
    · simp at h
    · exact ih t dq par h
  · intro v x xs n p d rest content e r _ _ _ _ _ _ ih t dq par h
    rw [withEvents_events, List.mem_append] at h
    rcases h with h | h
    · simp at h
    · exact ih t dq par h
  · intro v x xs n p d rest content links r _ _ _ _ _ _ ih t dq par h
    rw [withEvents_events, List.mem_append] at h
    rcases h with h | h
    · rw [List.mem_append] at h
      rcases h with h | h
      · simp at h
      · obtain ⟨l, _, he⟩ := List.mem_map.mp h
        rcases Event.enqueue.injEq .. ▸ he with ⟨rfl, rfl, rfl⟩
        omega
    · exact ih t dq par h

/-- Every dequeue in the trace pops either an entry of the current queue
or an entry enqueued earlier in the trace (at the same depth). -/
theorem deq_origin (c : Client) (pr : Processor) (strat : Strategy) (md lim : Int) :
    ∀ (fuel : Nat) (v : List String) (q : List (String × Nat)) (n : Nat)
      (f₁ : List Event) (t : String) (dt : Nat) (f₂ : List Event),
      (crawlLoop c pr strat md lim fuel v q n).events = f₁ ++ .dequeue t dt :: f₂ →
      (t, dt) ∈ q ∨ ∃ par, Event.enqueue t dt par ∈ f₁ := by
  refine crawlLoop_rec c pr strat md lim
    (fun _ q _ r => ∀ f₁ t dt f₂, r.events = f₁ ++ .dequeue t dt :: f₂ →
      (t, dt) ∈ q ∨ ∃ par, Event.enqueue t dt par ∈ f₁)
    ?_ ?_ ?_ ?_ ?_ ?_ ?_ ?_ ?_
  · intro v n f₁ t dt f₂ h
    exact absurd h (by cases f₁ <;> simp)
  · intro v x xs n _ f₁ t dt f₂ h
    exact absurd h (by cases f₁ <;> simp)
  · intro v x xs n _ f₁ t dt f₂ h
    exact absurd h (by cases f₁ <;> simp)
  · intro v x xs n p d rest e _ hpq _ f₁ t dt f₂ h
    rcases f₁ with _ | ⟨e₁, _ | ⟨e₂, f₁⟩⟩
    · simp only [List.nil_append, List.cons.injEq] at h
      rcases Event.dequeue.injEq .. ▸ h.1 with ⟨rfl, rfl⟩
      exact Or.inl (popNext_mem hpq)
    · simp only [List.cons_append, List.nil_append, List.cons.injEq] at h
      exact absurd h.2.1 (by simp)
    · simp only [List.cons_append, List.nil_append, List.cons.injEq] at h
      exact absurd h.2.2 (by cases f₁ <;> simp)
  · intro v x xs n p d rest r _ hpq _ ih f₁ t dt f₂ h
    rw [withEvents_events] at h
    rcases append_cons_cases h with ⟨g, hg1, _⟩ | ⟨g, hg1, hg2⟩
    · rcases f₁ with _ | ⟨e₁, _ | ⟨e₂, f₁⟩⟩
      · simp only [List.nil_append, List.cons.injEq] at hg1
        rcases Event.dequeue.injEq .. ▸ hg1.1 with ⟨rfl, rfl⟩
        exact Or.inl (popNext_mem hpq)
      · simp only [List.cons_append, List.nil_append, List.cons.injEq] at hg1
        exact absurd hg1.2.1 (by simp)
      · simp only [List.cons_append, List.nil_append, List.cons.injEq] at hg1
        exact absurd hg1.2.2 (by cases f₁ <;> simp)
    · rcases ih g t dt f₂ hg2 with hq | ⟨par, hpar⟩
      · exact Or.inl ((popNext_perm strat x xs).symm.subset
          (hpq ▸ List.mem_cons_of_mem _ hq))
      · exact Or.inr ⟨par, by rw [hg1]; exact List.mem_append_right _ hpar⟩
  · intro v x xs n p d rest content e _ hpq _ _ f₁ t dt f₂ h
    rcases f₁ with _ | ⟨e₁, _ | ⟨e₂, _ | ⟨e₃, f₁⟩⟩⟩
    · simp only [List.nil_append, List.cons.injEq] at h
      rcases Event.dequeue.injEq .. ▸ h.1 with ⟨rfl, rfl⟩
      exact Or.inl (popNext_mem hpq)
    · simp only [List.cons_append, List.nil_append, List.cons.injEq] at h
      exact absurd h.2.1 (by simp)
    · simp only [List.cons_append, List.nil_append, List.cons.injEq] at h
      exact absurd h.2.2.1 (by simp)
    · simp only [List.cons_append, List.nil_append, List.cons.injEq] at h
      exact absurd h.2.2.2 (by cases f₁ <;> simp)
  · intro v x xs n p d rest content r _ hpq _ _ _ ih f₁ t dt f₂ h
    rw [withEvents_events] at h
    rcases append_cons_cases h with ⟨g, hg1, _⟩ | ⟨g, hg1, hg2⟩
    · rcases f₁ with _ | ⟨e₁, _ | ⟨e₂, _ | ⟨e₃, f₁⟩⟩⟩
      · simp only [List.nil_append, List.cons.injEq] at hg1
        rcases Event.dequeue.injEq .. ▸ hg1.1 with ⟨rfl, rfl⟩
        exact Or.inl (popNext_mem hpq)
      · simp only [List.cons_append, List.nil_append, List.cons.injEq] at hg1
        exact absurd hg1.2.1 (by simp)
      · simp only [List.cons_append, List.nil_append, List.cons.injEq] at hg1
        exact absurd hg1.2.2.1 (by simp)
      · simp only [List.cons_append, List.nil_append, List.cons.injEq] at hg1
        exact absurd hg1.2.2.2 (by cases f₁ <;> simp)
    · rcases ih g t dt f₂ hg2 with hq | ⟨par, hpar⟩
      · exact Or.inl ((popNext_perm strat x xs).symm.subset
          (hpq ▸ List.mem_cons_of_mem _ hq))
      · exact Or.inr ⟨par, by rw [hg1]; exact List.mem_append_right _ hpar⟩
  · intro v x xs n p d rest content e r _ hpq _ _ _ _ ih f₁ t dt f₂ h
    rw [withEvents_events] at h
    rcases append_cons_cases h with ⟨g, hg1, _⟩ | ⟨g, hg1, hg2⟩
    · rcases f₁ with _ | ⟨e₁, _ | ⟨e₂, _ | ⟨e₃, _ | ⟨e₄, f₁⟩⟩⟩⟩
      · simp only [List.nil_append, List.cons.injEq] at hg1
        rcases Event.dequeue.injEq .. ▸ hg1.1 with ⟨rfl, rfl⟩
        exact Or.inl (popNext_mem hpq)
      · simp only [List.cons_append, List.nil_append, List.cons.injEq] at hg1
        exact absurd hg1.2.1 (by simp)
      · simp only [List.cons_append, List.nil_append, List.cons.injEq] at hg1
        exact absurd hg1.2.2.1 (by simp)
      · simp only [List.cons_append, List.nil_append, List.cons.injEq] at hg1
        exact absurd hg1.2.2.2.1 (by simp)
      · simp only [List.cons_append, List.nil_append, List.cons.injEq] at hg1
        exact absurd hg1.2.2.2.2 (by cases f₁ <;> simp)
    · rcases ih g t dt f₂ hg2 with hq | ⟨par, hpar⟩
      · exact Or.inl ((popNext_perm strat x xs).symm.subset
          (hpq ▸ List.mem_cons_of_mem _ hq))
      · exact Or.inr ⟨par, by rw [hg1]; exact List.mem_append_right _ hpar⟩
  · intro v x xs n p d rest content links r _ hpq _ _ _ _ ih f₁ t dt f₂ h
    rw [withEvents_events, List.append_assoc] at h
    rcases append_cons_cases h with ⟨g, hg1, _⟩ | ⟨g, hg1, hg2⟩
    · rcases f₁ with _ | ⟨e₁, _ | ⟨e₂, _ | ⟨e₃, _ | ⟨e₄, f₁⟩⟩⟩⟩
      · simp only [List.nil_append, List.cons.injEq] at hg1
        rcases Event.dequeue.injEq .. ▸ hg1.1 with ⟨rfl, rfl⟩
        exact Or.inl (popNext_mem hpq)
      · simp only [List.cons_append, List.nil_append, List.cons.injEq] at hg1
        exact absurd hg1.2.1 (by simp)
      · simp only [List.cons_append, List.nil_append, List.cons.injEq] at hg1
        exact absurd hg1.2.2.1 (by simp)
      · simp only [List.cons_append, List.nil_append, List.cons.injEq] at hg1
        exact absurd hg1.2.2.2.1 (by simp)
      · simp only [List.cons_append, List.nil_append, List.cons.injEq] at hg1
        exact absurd hg1.2.2.2.2 (by cases f₁ <;> simp)
    · rcases append_cons_cases hg2 with ⟨g', hg1', _⟩ | ⟨g', hg1', hg2'⟩
      · exfalso
        have : Event.dequeue t dt ∈ (newLinks v links).map
            (fun l => Event.enqueue l (d + 1) p) := by
          rw [hg1']
          exact List.mem_append_right _ (List.mem_cons_self _ _)
        obtain ⟨l, _, he⟩ := List.mem_map.mp this
        simp at he
      · rcases ih g' t dt f₂ hg2' with hq | ⟨par, hpar⟩
        · rcases List.mem_append.mp hq with hq | hq
          · exact Or.inl ((popNext_perm strat x xs).symm.subset
              (hpq ▸ List.mem_cons_of_mem _ hq))
          · obtain ⟨l, hl, he⟩ := List.mem_map.mp hq
            rcases Prod.mk.injEq .. ▸ he with ⟨rfl, rfl⟩
            refine Or.inr ⟨p, ?_⟩
            rw [hg1]
            exact List.mem_append_right _ (by
              rw [hg1']
              exact List.mem_append_left _ (List.mem_map.mpr ⟨l, hl, rfl⟩))
        · refine Or.inr ⟨par, ?_⟩
          rw [hg1]
          exact List.mem_append_right _ (by
            rw [hg1']
            exact List.mem_append_right _ hpar)

/-! ## Chain helpers for the breadth-first depth trace -/

theorem chain_le_replicate_append {a : Nat} {T : List Nat} :
    ∀ k : Nat, List.Chain (· ≤ ·) a T → List.Chain (· ≤ ·) a (List.replicate k a ++ T) := by
  intro k
  induction k with
  | zero => intro h; simpa using h
  | succ k ih =>
      intro h
      rw [List.replicate_succ, List.cons_append]
      exact List.Chain.cons (le_refl a) (ih h)

theorem pairwise_le_replicate (k a : Nat) :
    List.Pairwise (· ≤ ·) (List.replicate k a) := by
  induction k with
  | zero => simp
  | succ k ih =>
      rw [List.replicate_succ]
      refine List.pairwise_cons.mpr ⟨?_, ih⟩
      intro b hb
      rw [List.eq_of_mem_replicate hb]

theorem map_snd_freshmap (fresh : List String) (dq : Nat) :
    (fresh.map (fun l => (l, dq))).map Prod.snd = List.replicate fresh.length dq := by
  induction fresh with
  | nil => rfl
  | cons l fs ih => simp [ih, List.replicate_succ]

theorem chain'_head_le {a : Nat} {L : List Nat}
    (h : List.Chain' (· ≤ ·) (a :: L)) : ∀ b ∈ L, a ≤ b := by
  have := List.chain'_iff_pairwise.mp h
  exact (List.pairwise_cons.mp this).1

/-- Along a breadth-first run from a queue whose depths are sorted and
lie within one step of the last dequeue depth, the depth trace is
monotonically non-decreasing. -/
theorem bfs_mono (c : Client) (pr : Processor) (md lim : Int) :
    ∀ (fuel : Nat) (v : List String) (q : List (String × Nat)) (n : Nat) (lastD : Nat),
      List.Chain' (· ≤ ·) (q.map Prod.snd) →
      (∀ e ∈ q, lastD ≤ e.2 ∧ e.2 ≤ lastD + 1) →
      List.Chain (· ≤ ·) lastD
        (depthTrace (crawlLoop c pr .bfs md lim fuel v q n).events) := by
  refine crawlLoop_rec c pr .bfs md lim
    (fun _ q _ r => ∀ lastD, List.Chain' (· ≤ ·) (q.map Prod.snd) →
      (∀ e ∈ q, lastD ≤ e.2 ∧ e.2 ≤ lastD + 1) →
      List.Chain (· ≤ ·) lastD (depthTrace r.events))
    ?_ ?_ ?_ ?_ ?_ ?_ ?_ ?_ ?_
  · intro v n lastD _ _; exact List.Chain.nil
  · intro v x xs n _ lastD _ _; exact List.Chain.nil
  · intro v x xs n _ lastD _ _; exact List.Chain.nil
  · intro v x xs n p d rest e _ hpq _ lastD _ hbnd
    rw [popNext_bfs] at hpq
    obtain ⟨hx, hxs⟩ := Prod.mk.injEq .. ▸ hpq
    subst hx hxs
    simp only [depthTrace_deq, depthTrace_fetch, depthTrace_nil]
    exact List.Chain.cons (hbnd (p, d) (List.mem_cons_self _ _)).1 List.Chain.nil
  · intro v x xs n p d rest r _ hpq _ ih lastD hsort hbnd
    rw [popNext_bfs] at hpq
    obtain ⟨hx, hxs⟩ := Prod.mk.injEq .. ▸ hpq
    subst hx hxs
    simp only [withEvents_events, depthTrace_append, depthTrace_deq, depthTrace_fetch,
      depthTrace_nil, List.nil_append]
    refine List.Chain.cons (hbnd (p, d) (List.mem_cons_self _ _)).1 ?_
    refine ih d ?_ ?_
    · simpa using List.Chain'.tail hsort
    · intro e he
      have hd_le : d ≤ e.2 := by
        have := chain'_head_le (by simpa using hsort) e.2
          (List.mem_map.mpr ⟨e, he, rfl⟩)
        exact this
      have := (hbnd e (List.mem_cons_of_mem _ he)).2
      have hld : lastD ≤ d := (hbnd (p, d) (List.mem_cons_self _ _)).1
      exact ⟨hd_le, by omega⟩
  · intro v x xs n p d rest content e _ hpq _ _ lastD _ hbnd
    rw [popNext_bfs] at hpq
    obtain ⟨hx, hxs⟩ := Prod.mk.injEq .. ▸ hpq
    subst hx hxs
    simp only [depthTrace_deq, depthTrace_fetch, depthTrace_emit, depthTrace_nil]
    exact List.Chain.cons (hbnd (p, d) (List.mem_cons_self _ _)).1 List.Chain.nil
  · intro v x xs n p d rest content r _ hpq _ _ _ ih lastD hsort hbnd
    rw [popNext_bfs] at hpq
    obtain ⟨hx, hxs⟩ := Prod.mk.injEq .. ▸ hpq
    subst hx hxs
    simp only [withEvents_events, depthTrace_append, depthTrace_deq, depthTrace_fetch,
      depthTrace_emit, depthTrace_nil, List.nil_append]
    refine List.Chain.cons (hbnd (p, d) (List.mem_cons_self _ _)).1 ?_
    refine ih d ?_ ?_
    · simpa using List.Chain'.tail hsort
    · intro e he
      have hd_le : d ≤ e.2 :=
        chain'_head_le (by simpa using hsort) e.2 (List.mem_map.mpr ⟨e, he, rfl⟩)
      have := (hbnd e (List.mem_cons_of_mem _ he)).2
      have hld : lastD ≤ d := (hbnd (p, d) (List.mem_cons_self _ _)).1
      exact ⟨hd_le, by omega⟩
  · intro v x xs n p d rest content e r _ hpq _ _ _ _ ih lastD hsort hbnd
    rw [popNext_bfs] at hpq
    obtain ⟨hx, hxs⟩ := Prod.mk.injEq .. ▸ hpq
    subst hx hxs
    simp only [withEvents_events, depthTrace_append, depthTrace_deq, depthTrace_fetch,
      depthTrace_emit, depthTrace_gl, depthTrace_nil, List.nil_append]
    refine List.Chain.cons (hbnd (p, d) (List.mem_cons_self _ _)).1 ?_
    refine ih d ?_ ?_
    · simpa using List.Chain'.tail hsort
    · intro e' he
      have hd_le : d ≤ e'.2 :=
        chain'_head_le (by simpa using hsort) e'.2 (List.mem_map.mpr ⟨e', he, rfl⟩)
      have := (hbnd e' (List.mem_cons_of_mem _ he)).2
      have hld : lastD ≤ d := (hbnd (p, d) (List.mem_cons_self _ _)).1
      exact ⟨hd_le, by omega⟩
  · intro v x xs n p d rest content links r _ hpq _ _ _ _ ih lastD hsort hbnd
    rw [popNext_bfs] at hpq
    obtain ⟨hx, hxs⟩ := Prod.mk.injEq .. ▸ hpq
    subst hx hxs
    simp only [withEvents_events, List.append_assoc, depthTrace_append, depthTrace_deq,
      depthTrace_fetch, depthTrace_emit, depthTrace_gl, depthTrace_nil, List.nil_append,
      depthTrace_enqMap]
    refine List.Chain.cons (hbnd (p, d) (List.mem_cons_self _ _)).1 ?_
    have hd1 : d + 1 - 1 = d := by omega
    rw [hd1]
    refine chain_le_replicate_append _ ?_
    have hld : lastD ≤ d := (hbnd (p, d) (List.mem_cons_self _ _)).1
    have hxs_le : ∀ b ∈ xs.map Prod.snd, d ≤ b := chain'_head_le (by simpa using hsort)
    have hxs_ub : ∀ e ∈ xs, e.2 ≤ d + 1 := by
      intro e he
      have := (hbnd e (List.mem_cons_of_mem _ he)).2
      omega
    refine ih d ?_ ?_
    · rw [List.map_append, map_snd_freshmap]
      rw [List.chain'_iff_pairwise]
      rw [List.pairwise_append]
      refine ⟨List.chain'_iff_pairwise.mp (by simpa using List.Chain'.tail hsort),
        pairwise_le_replicate _ _, ?_⟩
      intro a ha b hb
      rw [List.eq_of_mem_replicate hb]
      obtain ⟨e, he, rfl⟩ := List.mem_map.mp ha
      exact hxs_ub e he
    · intro e he
      rcases List.mem_append.mp he with he | he
      · exact ⟨hxs_le e.2 (List.mem_map.mpr ⟨e, he, rfl⟩), hxs_ub e he⟩
      · obtain ⟨l, _, rfl⟩ := List.mem_map.mp he
        exact ⟨Nat.le_succ d, le_refl _⟩

/-- Titles of the part of the queue behind some entry are titles of the
queue's tail. -/
theorem btitles_sub {x : String × Nat} {xs A B : List (String × Nat)} {et : String} {dt : Nat}
    (hq : x :: xs = A ++ (et, dt) :: B) :
    ∀ t ∈ B.map Prod.fst, t ∈ xs.map Prod.fst := by
  intro t ht
  cases A with
  | nil =>
      simp only [List.nil_append, List.cons.injEq] at hq
      rw [hq.2]; exact ht
  | cons a A' =>
      simp only [List.cons_append, List.cons.injEq] at hq
      rw [hq.2]
      obtain ⟨e, he, rfl⟩ := List.mem_map.mp ht
      exact List.mem_map.mpr ⟨e, List.mem_append_right _ (List.mem_cons_of_mem _ he), rfl⟩

/-- FIFO law of the breadth-first strategy, from any well-formed state:
an entry of the queue is dequeued before anything behind it in the queue
and before anything enqueued later. -/
theorem bfs_fifo (c : Client) (pr : Processor) (md lim : Int) :
    ∀ (fuel : Nat) (v : List String) (q : List (String × Nat)) (n : Nat),
      goodState v q →
      ∀ (A : List (String × Nat)) (et : String) (dt : Nat) (B : List (String × Nat)),
        q = A ++ (et, dt) :: B →
      ∀ (f₁ : List Event) (t' : String) (dt' : Nat) (f₂ : List Event),
        (crawlLoop c pr .bfs md lim fuel v q n).events = f₁ ++ .dequeue t' dt' :: f₂ →
        (t' ∈ B.map Prod.fst ∨ ∃ dq par, Event.enqueue t' dq par ∈ f₁) →
        .dequeue et dt ∈ f₁ := by
  refine crawlLoop_rec c pr .bfs md lim
    (fun v q _ r => goodState v q →
      ∀ A et dt B, q = A ++ (et, dt) :: B →
      ∀ f₁ t' dt' f₂, r.events = f₁ ++ .dequeue t' dt' :: f₂ →
        (t' ∈ B.map Prod.fst ∨ ∃ dq par, Event.enqueue t' dq par ∈ f₁) →
        .dequeue et dt ∈ f₁)
    ?_ ?_ ?_ ?_ ?_ ?_ ?_ ?_ ?_
  · intro v n _ A et dt B hq f₁ t' dt' f₂ h _
    exact absurd hq (by cases A <;> simp)
  · intro v x xs n _ _ A et dt B hq f₁ t' dt' f₂ h _
    exact absurd h (by cases f₁ <;> simp)
  · intro v x xs n _ _ A et dt B hq f₁ t' dt' f₂ h _
    exact absurd h (by cases f₁ <;> simp)
  · intro v x xs n p d rest e _ hpq _ hgs A et dt B hq f₁ t' dt' f₂ h hside
    rw [popNext_bfs] at hpq
    obtain ⟨hx, hxs⟩ := Prod.mk.injEq .. ▸ hpq
    subst hx hxs
    rcases f₁ with _ | ⟨e₁, _ | ⟨e₂, f₁⟩⟩
    · simp only [List.nil_append, List.cons.injEq] at h
      rcases Event.dequeue.injEq .. ▸ h.1 with ⟨rfl, rfl⟩
      rcases hside with hside | ⟨dq, par, hmem⟩
      · exact absurd (btitles_sub hq _ hside) (popNext_not_mem_rest hgs (popNext_bfs (p, d) xs))
      · simp at hmem
    · simp only [List.cons_append, List.nil_append, List.cons.injEq] at h
      exact absurd h.2.1 (by simp)
    · simp only [List.cons_append, List.nil_append, List.cons.injEq] at h
      exact absurd h.2.2 (by cases f₁ <;> simp)
  · intro v x xs n p d rest r _ hpq _ ih hgs A et dt B hq f₁ t' dt' f₂ h hside
    rw [popNext_bfs] at hpq
    obtain ⟨hx, hxs⟩ := Prod.mk.injEq .. ▸ hpq
    subst hx hxs
    rw [withEvents_events] at h
    rcases append_cons_cases h with ⟨g, hg1, _⟩ | ⟨g, hg1, hg2⟩
    · rcases f₁ with _ | ⟨e₁, _ | ⟨e₂, f₁⟩⟩
      · simp only [List.nil_append, List.cons.injEq] at hg1
        rcases Event.dequeue.injEq .. ▸ hg1.1 with ⟨rfl, rfl⟩
        rcases hside with hside | ⟨dq, par, hmem⟩
        · exact absurd (btitles_sub hq _ hside) (popNext_not_mem_rest hgs (popNext_bfs (p, d) xs))
        · simp at hmem
      · simp only [List.cons_append, List.nil_append, List.cons.injEq] at hg1
        exact absurd hg1.2.1 (by simp)
      · simp only [List.cons_append, List.nil_append, List.cons.injEq] at hg1
        exact absurd hg1.2.2 (by cases f₁ <;> simp)
    · cases A with
      | nil =>
          simp only [List.nil_append, List.cons.injEq] at hq
          rcases Prod.mk.injEq .. ▸ hq.1 with ⟨rfl, rfl⟩
          rw [hg1]
          exact List.mem_append_left _ (List.mem_cons_self _ _)
      | cons a A' =>
          simp only [List.cons_append, List.cons.injEq] at hq
          have hmem := ih (goodState_rest hgs (popNext_bfs (p, d) xs)) A' et dt B hq.2 g t' dt' f₂ hg2 ?_
          · rw [hg1]
            exact List.mem_append_right _ hmem
          · rcases hside with hside | ⟨dq, par, henq⟩
            · exact Or.inl hside
            · rw [hg1, List.mem_append] at henq
              rcases henq with henq | henq
              · simp at henq
              · exact Or.inr ⟨dq, par, henq⟩
  · intro v x xs n p d rest content e _ hpq _ _ hgs A et dt B hq f₁ t' dt' f₂ h hside
    rw [popNext_bfs] at hpq
    obtain ⟨hx, hxs⟩ := Prod.mk.injEq .. ▸ hpq
    subst hx hxs
    rcases f₁ with _ | ⟨e₁, _ | ⟨e₂, _ | ⟨e₃, f₁⟩⟩⟩
    · simp only [List.nil_append, List.cons.injEq] at h
      rcases Event.dequeue.injEq .. ▸ h.1 with ⟨rfl, rfl⟩
      rcases hside with hside | ⟨dq, par, hmem⟩
      · exact absurd (btitles_sub hq _ hside) (popNext_not_mem_rest hgs (popNext_bfs (p, d) xs))
      · simp at hmem
    · simp only [List.cons_append, List.nil_append, List.cons.injEq] at h
      exact absurd h.2.1 (by simp)
    · simp only [List.cons_append, List.nil_append, List.cons.injEq] at h
      exact absurd h.2.2.1 (by simp)
    · simp only [List.cons_append, List.nil_append, List.cons.injEq] at h
      exact absurd h.2.2.2 (by cases f₁ <;> simp)
  · intro v x xs n p d rest content r _ hpq _ _ _ ih hgs A et dt B hq f₁ t' dt' f₂ h hside
    rw [popNext_bfs] at hpq
    obtain ⟨hx, hxs⟩ := Prod.mk.injEq .. ▸ hpq
    subst hx hxs
    rw [withEvents_events] at h
    rcases append_cons_cases h with ⟨g, hg1, _⟩ | ⟨g, hg1, hg2⟩
    · rcases f₁ with _ | ⟨e₁, _ | ⟨e₂, _ | ⟨e₃, f₁⟩⟩⟩
      · simp only [List.nil_append, List.cons.injEq] at hg1
        rcases Event.dequeue.injEq .. ▸ hg1.1 with ⟨rfl, rfl⟩
        rcases hside with hside | ⟨dq, par, hmem⟩
        · exact absurd (btitles_sub hq _ hside) (popNext_not_mem_rest hgs (popNext_bfs (p, d) xs))
        · simp at hmem
      · simp only [List.cons_append, List.nil_append, List.cons.injEq] at hg1
        exact absurd hg1.2.1 (by simp)
      · simp only [List.cons_append, List.nil_append, List.cons.injEq] at hg1
        exact absurd hg1.2.2.1 (by simp)
      · simp only [List.cons_append, List.nil_append, List.cons.injEq] at hg1
        exact absurd hg1.2.2.2 (by cases f₁ <;> simp)
    · cases A with
      | nil =>
          simp only [List.nil_append, List.cons.injEq] at hq
          rcases Prod.mk.injEq .. ▸ hq.1 with ⟨rfl, rfl⟩
          rw [hg1]
          exact List.mem_append_left _ (List.mem_cons_self _ _)
      | cons a A' =>
          simp only [List.cons_append, List.cons.injEq] at hq
          have hmem := ih (goodState_rest hgs (popNext_bfs (p, d) xs)) A' et dt B hq.2 g t' dt' f₂ hg2 ?_
          · rw [hg1]
            exact List.mem_append_right _ hmem
          · rcases hside with hside | ⟨dq, par, henq⟩
            · exact Or.inl hside
            · rw [hg1, List.mem_append] at henq
              rcases henq with henq | henq
              · simp at henq
              · exact Or.inr ⟨dq, par, henq⟩
  · intro v x xs n p d rest content e r _ hpq _ _ _ _ ih hgs A et dt B hq f₁ t' dt' f₂ h hside
    rw [popNext_bfs] at hpq
    obtain ⟨hx, hxs⟩ := Prod.mk.injEq .. ▸ hpq
    subst hx hxs
    rw [withEvents_events] at h
    rcases append_cons_cases h with ⟨g, hg1, _⟩ | ⟨g, hg1, hg2⟩
    · rcases f₁ with _ | ⟨e₁, _ | ⟨e₂, _ | ⟨e₃, _ | ⟨e₄, f₁⟩⟩⟩⟩
      · simp only [List.nil_append, List.cons.injEq] at hg1
        rcases Event.dequeue.injEq .. ▸ hg1.1 with ⟨rfl, rfl⟩
        rcases hside with hside | ⟨dq, par, hmem⟩
        · exact absurd (btitles_sub hq _ hside) (popNext_not_mem_rest hgs (popNext_bfs (p, d) xs))
        · simp at hmem
      · simp only [List.cons_append, List.nil_append, List.cons.injEq] at hg1
        exact absurd hg1.2.1 (by simp)
      · simp only [List.cons_append, List.nil_append, List.cons.injEq] at hg1
        exact absurd hg1.2.2.1 (by simp)
      · simp only [List.cons_append, List.nil_append, List.cons.injEq] at hg1
        exact absurd hg1.2.2.2.1 (by simp)
      · simp only [List.cons_append, List.nil_append, List.cons.injEq] at hg1
        exact absurd hg1.2.2.2.2 (by cases f₁ <;> simp)
    · cases A with
      | nil =>
          simp only [List.nil_append, List.cons.injEq] at hq
          rcases Prod.mk.injEq .. ▸ hq.1 with ⟨rfl, rfl⟩
          rw [hg1]
          exact List.mem_append_left _ (List.mem_cons_self _ _)
      | cons a A' =>
          simp only [List.cons_append, List.cons.injEq] at hq
          have hmem := ih (goodState_rest hgs (popNext_bfs (p, d) xs)) A' et dt B hq.2 g t' dt' f₂ hg2 ?_
          · rw [hg1]
            exact List.mem_append_right _ hmem
          · rcases hside with hside | ⟨dq, par, henq⟩
            · exact Or.inl hside
            · rw [hg1, List.mem_append] at henq
              rcases henq with henq | henq
              · simp at henq
              · exact Or.inr ⟨dq, par, henq⟩
  · intro v x xs n p d rest content links r _ hpq _ _ _ _ ih hgs A et dt B hq f₁ t' dt' f₂ h hside
    rw [popNext_bfs] at hpq
    obtain ⟨hx, hxs⟩ := Prod.mk.injEq .. ▸ hpq
    subst hx hxs
    rw [withEvents_events, List.append_assoc] at h
    rcases append_cons_cases h with ⟨g, hg1, _⟩ | ⟨g, hg1, hg2⟩
    · rcases f₁ with _ | ⟨e₁, _ | ⟨e₂, _ | ⟨e₃, _ | ⟨e₄, f₁⟩⟩⟩⟩
      · simp only [List.nil_append, List.cons.injEq] at hg1
        rcases Event.dequeue.injEq .. ▸ hg1.1 with ⟨rfl, rfl⟩
        rcases hside with hside | ⟨dq, par, hmem⟩
        · exact absurd (btitles_sub hq _ hside) (popNext_not_mem_rest hgs (popNext_bfs (p, d) xs))
        · simp at hmem
      · simp only [List.cons_append, List.nil_append, List.cons.injEq] at hg1
        exact absurd hg1.2.1 (by simp)
      · simp only [List.cons_append, List.nil_append, List.cons.injEq] at hg1
        exact absurd hg1.2.2.1 (by simp)
      · simp only [List.cons_append, List.nil_append, List.cons.injEq] at hg1
        exact absurd hg1.2.2.2.1 (by simp)
      · simp only [List.cons_append, List.nil_append, List.cons.injEq] at hg1
        exact absurd hg1.2.2.2.2 (by cases f₁ <;> simp)
    · rcases append_cons_cases hg2 with ⟨g', hg1', _⟩ | ⟨g', hg1', hg2'⟩
      · exfalso
        have : Event.dequeue t' dt' ∈ (newLinks v links).map
            (fun l => Event.enqueue l (d + 1) p) := by
          rw [hg1']
          exact List.mem_append_right _ (List.mem_cons_self _ _)
        obtain ⟨l, _, he⟩ := List.mem_map.mp this
        simp at he
      · cases A with
        | nil =>
            simp only [List.nil_append, List.cons.injEq] at hq
            rcases Prod.mk.injEq .. ▸ hq.1 with ⟨rfl, rfl⟩
            rw [hg1]
            exact List.mem_append_left _ (List.mem_cons_self _ _)
        | cons a A' =>
            simp only [List.cons_append, List.cons.injEq] at hq
            have hq' : xs ++ (newLinks v links).map (fun l => (l, d + 1)) =
                A' ++ (et, dt) :: (B ++ (newLinks v links).map (fun l => (l, d + 1))) := by
              rw [hq.2]
              simp [List.append_assoc]
            have hmem := ih (goodState_expand hgs (popNext_bfs (p, d) xs) links) A' et dt
              (B ++ (newLinks v links).map (fun l => (l, d + 1))) hq'
              g' t' dt' f₂ hg2' ?_
            · rw [hg1, hg1']
              exact List.mem_append_right _ (List.mem_append_right _ hmem)
            · rcases hside with hside | ⟨dq, par, henq⟩
              · refine Or.inl ?_
                rw [List.map_append, List.mem_append]
                exact Or.inl hside
              · rw [hg1, List.mem_append] at henq
                rcases henq with henq | henq
                · simp at henq
                · rw [hg1', List.mem_append] at henq
                  rcases henq with henq | henq
                  · obtain ⟨l, hl, he⟩ := List.mem_map.mp henq
                    obtain ⟨h1, h2, h3⟩ := Event.enqueue.injEq .. ▸ he
                    refine Or.inl ?_
                    rw [List.map_append, List.mem_append]
                    refine Or.inr ?_
                    rw [← h1]
                    exact List.mem_map.mpr ⟨(l, d + 1), List.mem_map.mpr ⟨l, hl, rfl⟩, rfl⟩
                  · exact Or.inr ⟨dq, par, henq⟩

/-- Splitting a mapped list at a distinguished element splits the
original list. -/
theorem map_eq_append_cons {α β : Type} {f : α → β} :
    ∀ {l : List α} {m₁ : List β} {y : β} {m₂ : List β},
      l.map f = m₁ ++ y :: m₂ →
      ∃ a₁ a a₂, l = a₁ ++ a :: a₂ ∧ m₁ = a₁.map f ∧ y = f a ∧ m₂ = a₂.map f := by
  intro l
  induction l with
  | nil =>
      intro m₁ y m₂ h
      exact absurd h (by cases m₁ <;> simp)
  | cons b l' ih =>
      intro m₁ y m₂ h
      cases m₁ with
      | nil =>
          simp only [List.map_cons, List.nil_append, List.cons.injEq] at h
          exact ⟨[], b, l', rfl, rfl, h.1.symm, h.2.symm⟩
      | cons z m₁' =>
          simp only [List.map_cons, List.cons_append, List.cons.injEq] at h
          obtain ⟨a₁, a, a₂, hl, hm₁, hy, hm₂⟩ := ih h.2
          exact ⟨b :: a₁, a, a₂, by rw [hl, List.cons_append], by simp [hm₁, h.1.symm], hy, hm₂⟩

/-- FIFO law relative to a future enqueue: everything enqueued after an
`add_page` call for `(p, dp)` is dequeued only after `(p, dp)` itself is
dequeued (breadth-first). -/
theorem bfs_after_enq (c : Client) (pr : Processor) (md lim : Int) :
    ∀ (fuel : Nat) (v : List String) (q : List (String × Nat)) (n : Nat),
      goodState v q →
      ∀ (f₀ : List Event) (p : String) (dp : Nat) (par : String) (re : List Event),
        (crawlLoop c pr .bfs md lim fuel v q n).events = f₀ ++ .enqueue p dp par :: re →
      ∀ (f₁ : List Event) (t' : String) (dt' : Nat) (f₂ : List Event),
        re = f₁ ++ .dequeue t' dt' :: f₂ →
        (∃ dq' par', Event.enqueue t' dq' par' ∈ f₁) →
        .dequeue p dp ∈ f₁ := by
  intro fuel
  induction fuel with
  | zero =>
      intro v q n _ f₀ p dp par re h
      exfalso
      cases q with
      | nil =>
          rw [crawlLoop_nil] at h
          exact absurd h (by cases f₀ <;> simp)
      | cons x xs =>
          by_cases hlim : (n : Int) < lim
          · rw [crawlLoop_fuelOut hlim] at h
            exact absurd h (by cases f₀ <;> simp)
          · rw [crawlLoop_limit hlim] at h
            exact absurd h (by cases f₀ <;> simp)
  | succ fuel ih =>
      intro v q n hgs f₀ p dp par re h f₁ t' dt' f₂ hre hside
      cases q with
      | nil =>
          rw [crawlLoop_nil] at h
          exact absurd h (by cases f₀ <;> simp)
      | cons x xs =>
          by_cases hlim : (n : Int) < lim
          · obtain ⟨pp, dd⟩ := x
            have hpq : popNext .bfs (pp, dd) xs = ((pp, dd), xs) := popNext_bfs (pp, dd) xs
            rcases hgp : c.get_page pp with e | co
            · rw [crawlLoop_fetchErr hlim hpq hgp] at h
              exact absurd h (by
                rcases f₀ with _ | ⟨e₁, _ | ⟨e₂, f₀⟩⟩ <;> simp)
            · rcases co with _ | content
              · rw [crawlLoop_notFound hlim hpq hgp, withEvents_events] at h
                rcases append_cons_cases h with ⟨g, hg1, _⟩ | ⟨g, hg1, hg2⟩
                · exact absurd hg1 (by
                    rcases f₀ with _ | ⟨e₁, _ | ⟨e₂, f₀⟩⟩ <;> simp)
                · exact ih v xs n (goodState_rest hgs hpq) g p dp par re hg2
                    f₁ t' dt' f₂ hre hside
              · rcases hproc : pr.process pp content with e | u
                · rw [crawlLoop_procErr hlim hpq hgp hproc] at h
                  exact absurd h (by
                    rcases f₀ with _ | ⟨e₁, _ | ⟨e₂, _ | ⟨e₃, f₀⟩⟩⟩ <;> simp)
                · cases u
                  by_cases hd : (dd : Int) < md
                  · rcases hgl : c.get_links pp with e | links
                    · rw [crawlLoop_linksErr hlim hpq hgp hproc hd hgl,
                        withEvents_events] at h
                      rcases append_cons_cases h with ⟨g, hg1, _⟩ | ⟨g, hg1, hg2⟩
                      · exact absurd hg1 (by
                          rcases f₀ with _ | ⟨e₁, _ | ⟨e₂, _ | ⟨e₃, _ | ⟨e₄, f₀⟩⟩⟩⟩ <;> simp)
                      · exact ih v xs (n + 1) (goodState_rest hgs hpq) g p dp par re hg2
                          f₁ t' dt' f₂ hre hside
                    · rw [crawlLoop_expand hlim hpq hgp hproc hd hgl,
                        withEvents_events, List.append_assoc] at h
                      rcases append_cons_cases h with ⟨g, hg1, hg2⟩ | ⟨g, hg1, hg2⟩
                      · exact absurd hg1 (by
                          rcases f₀ with _ | ⟨e₁, _ | ⟨e₂, _ | ⟨e₃, _ | ⟨e₄, f₀⟩⟩⟩⟩ <;> simp)
                      · rcases append_cons_cases hg2 with ⟨g', hg1', hg2'⟩ | ⟨g', hg1', hg2'⟩
                        · -- the enqueue is one of this expansion's add_page calls
                          obtain ⟨a₁, a, a₂, hfresh, hm₁, hy, hm₂⟩ := map_eq_append_cons hg1'
                          obtain ⟨ha, hdp, hpar⟩ := Event.enqueue.injEq .. ▸ hy.symm
                          rw [hg2'] at hre
                          rcases append_cons_cases hre with ⟨g'', hg1'', _⟩ | ⟨g'', hg1'', hg2''⟩
                          · exfalso
                            have : Event.dequeue t' dt' ∈
                                a₂.map (fun l => Event.enqueue l (dd + 1) pp) := by
                              rw [← hm₂, hg1'']
                              exact List.mem_append_right _ (List.mem_cons_self _ _)
                            obtain ⟨l, _, he⟩ := List.mem_map.mp this
                            simp at he
                          · have hq' : xs ++ (newLinks v links).map (fun l => (l, dd + 1)) =
                                (xs ++ a₁.map (fun l => (l, dd + 1))) ++ (a, dd + 1) ::
                                  a₂.map (fun l => (l, dd + 1)) := by
                              rw [hfresh]
                              simp [List.append_assoc]
                            have hmem := bfs_fifo c pr md lim fuel _ _ (n + 1)
                              (goodState_expand hgs hpq links)
                              (xs ++ a₁.map (fun l => (l, dd + 1))) a (dd + 1)
                              (a₂.map (fun l => (l, dd + 1))) hq' g'' t' dt' f₂ hg2'' ?_
                            · rw [hg1'', ← ha, ← hdp]
                              exact List.mem_append_right _ hmem
                            · obtain ⟨dq', par', hsidemem⟩ := hside
                              rw [hg1'', List.mem_append] at hsidemem
                              rcases hsidemem with hm | hm
                              · rw [hm₂] at hm
                                obtain ⟨l, hl, he⟩ := List.mem_map.mp hm
                                obtain ⟨h1, _, _⟩ := Event.enqueue.injEq .. ▸ he
                                refine Or.inl ?_
                                rw [← h1]
                                exact List.mem_map.mpr ⟨(l, dd + 1),
                                  List.mem_map.mpr ⟨l, hl, rfl⟩, rfl⟩
                              · exact Or.inr ⟨dq', par', hm⟩
                        · exact ih (v ++ newLinks v links)
                            (xs ++ (newLinks v links).map (fun l => (l, dd + 1))) (n + 1)
                            (goodState_expand hgs hpq links) g' p dp par re hg2'
                            f₁ t' dt' f₂ hre hside
                  · rw [crawlLoop_noExpand hlim hpq hgp hproc hd, withEvents_events] at h
                    rcases append_cons_cases h with ⟨g, hg1, _⟩ | ⟨g, hg1, hg2⟩
                    · exact absurd hg1 (by
                        rcases f₀ with _ | ⟨e₁, _ | ⟨e₂, _ | ⟨e₃, f₀⟩⟩⟩ <;> simp)
                    · exact ih v xs (n + 1) (goodState_rest hgs hpq) g p dp par re hg2
                        f₁ t' dt' f₂ hre hside
          · rw [crawlLoop_limit hlim] at h
            exact absurd h (by cases f₀ <;> simp)

theorem pairwise_le_split_right {T X Y : List Nat} {a b : Nat}
    (hp : List.Pairwise (· ≤ ·) T) (hT : T = X ++ a :: Y) (hb : b ∈ Y) : a ≤ b := by
  subst hT
  exact (List.pairwise_cons.mp (List.pairwise_append.mp hp).2.1).1 b hb

theorem pairwise_le_split_left {T X Y : List Nat} {a b : Nat}
    (hp : List.Pairwise (· ≤ ·) T) (hT : T = X ++ a :: Y) (hb : b ∈ X) : b ≤ a := by
  subst hT
  exact (List.pairwise_append.mp hp).2.2 b hb a (List.mem_cons_self _ _)

/-- Splitting the queue under the depth-first pop: either the split entry
is the popped (last) entry, or the popped entry sits behind the split
point and the remaining queue keeps the split. -/
theorem dfs_pop_split {x : String × Nat} {xs A B rest : List (String × Nat)}
    {et p : String} {dt d : Nat}
    (hpq : popNext .dfs x xs = ((p, d), rest))
    (hq : x :: xs = A ++ (et, dt) :: B) :
    (B = [] ∧ rest = A ∧ p = et ∧ d = dt) ∨
    (∃ B', B = B' ++ [(p, d)] ∧ rest = A ++ (et, dt) :: B') := by
  have he := popNext_dfs_eq x xs
  rw [hpq] at he
  have hAB : A ++ (et, dt) :: B = rest ++ [(p, d)] := hq.symm.trans he
  rcases List.eq_nil_or_concat B with rfl | ⟨B', b, rfl⟩
  · left
    obtain ⟨h1, h2⟩ := List.append_inj' hAB rfl
    have hpd : (et, dt) = (p, d) := by simpa using h2
    obtain ⟨hp1, hp2⟩ := Prod.mk.injEq .. ▸ hpd
    exact ⟨rfl, h1.symm, hp1.symm, hp2.symm⟩
  · right
    have hAB' : (A ++ (et, dt) :: B') ++ [b] = rest ++ [(p, d)] := by
      rw [← hAB]; simp [List.append_assoc]
    obtain ⟨h1, h2⟩ := List.append_inj' hAB' rfl
    have hb : b = (p, d) := by simpa using h2
    exact ⟨B', by rw [hb, List.concat_eq_append], h1.symm⟩

/-- The entry popped by the depth-first strategy never lies strictly
before a queue split point. -/
theorem dfs_head_not_A {v : List String} {x : String × Nat}
    {xs A B rest : List (String × Nat)} {et p : String} {dt d : Nat}
    (hgs : goodState v (x :: xs))
    (hpq : popNext .dfs x xs = ((p, d), rest))
    (hq : x :: xs = A ++ (et, dt) :: B) :
    p ∉ A.map Prod.fst := by
  intro hmem
  refine popNext_not_mem_rest hgs hpq ?_
  rcases dfs_pop_split hpq hq with ⟨_, hrest, _, _⟩ | ⟨B', _, hrest⟩
  · rw [hrest]; exact hmem
  · rw [hrest, List.map_append, List.mem_append]
    exact Or.inl hmem

/-- LIFO law of the depth-first strategy, from any well-formed state: an
entry of the queue is dequeued before anything strictly in front of it
(closer to the deque's left end) is dequeued. -/
theorem dfs_lifo (c : Client) (pr : Processor) (md lim : Int) :
    ∀ (fuel : Nat) (v : List String) (q : List (String × Nat)) (n : Nat),
      goodState v q →
      ∀ (A : List (String × Nat)) (et : String) (dt : Nat) (B : List (String × Nat)),
        q = A ++ (et, dt) :: B →
      ∀ (f₁ : List Event) (t' : String) (dt' : Nat) (f₂ : List Event),
        (crawlLoop c pr .dfs md lim fuel v q n).events = f₁ ++ .dequeue t' dt' :: f₂ →
        t' ∈ A.map Prod.fst →
        .dequeue et dt ∈ f₁ := by
  refine crawlLoop_rec c pr .dfs md lim
    (fun v q _ r => goodState v q →
      ∀ A et dt B, q = A ++ (et, dt) :: B →
      ∀ f₁ t' dt' f₂, r.events = f₁ ++ .dequeue t' dt' :: f₂ →
        t' ∈ A.map Prod.fst →
        .dequeue et dt ∈ f₁)
    ?_ ?_ ?_ ?_ ?_ ?_ ?_ ?_ ?_
  · intro v n _ A et dt B hq f₁ t' dt' f₂ h _
    exact absurd hq (by cases A <;> simp)
  · intro v x xs n _ _ A et dt B hq f₁ t' dt' f₂ h _
    exact absurd h (by cases f₁ <;> simp)
  · intro v x xs n _ _ A et dt B hq f₁ t' dt' f₂ h _
    exact absurd h (by cases f₁ <;> simp)
  · intro v x xs n p d rest e _ hpq _ hgs A et dt B hq f₁ t' dt' f₂ h hside
    rcases f₁ with _ | ⟨e₁, _ | ⟨e₂, f₁⟩⟩
    · simp only [List.nil_append, List.cons.injEq] at h
      rcases Event.dequeue.injEq .. ▸ h.1 with ⟨rfl, rfl⟩
      exact absurd hside (dfs_head_not_A hgs hpq hq)
    · simp only [List.cons_append, List.nil_append, List.cons.injEq] at h
      exact absurd h.2.1 (by simp)
    · simp only [List.cons_append, List.nil_append, List.cons.injEq] at h
      exact absurd h.2.2 (by cases f₁ <;> simp)
  · intro v x xs n p d rest r _ hpq _ ih hgs A et dt B hq f₁ t' dt' f₂ h hside
    rw [withEvents_events] at h
    rcases append_cons_cases h with ⟨g, hg1, _⟩ | ⟨g, hg1, hg2⟩
    · rcases f₁ with _ | ⟨e₁, _ | ⟨e₂, f₁⟩⟩
      · simp only [List.nil_append, List.cons.injEq] at hg1
        rcases Event.dequeue.injEq .. ▸ hg1.1 with ⟨rfl, rfl⟩
        exact absurd hside (dfs_head_not_A hgs hpq hq)
      · simp only [List.cons_append, List.nil_append, List.cons.injEq] at hg1
        exact absurd hg1.2.1 (by simp)
      · simp only [List.cons_append, List.nil_append, List.cons.injEq] at hg1
        exact absurd hg1.2.2 (by cases f₁ <;> simp)
    · rcases dfs_pop_split hpq hq with ⟨_, _, hpe, hde⟩ | ⟨B', _, hrest⟩
      · rw [hg1, ← hpe, ← hde]
        exact List.mem_append_left _ (List.mem_cons_self _ _)
      · have hmem := ih (goodState_rest hgs hpq) A et dt B' hrest g t' dt' f₂ hg2 hside
        rw [hg1]
        exact List.mem_append_right _ hmem
  · intro v x xs n p d rest content e _ hpq _ _ hgs A et dt B hq f₁ t' dt' f₂ h hside
    rcases f₁ with _ | ⟨e₁, _ | ⟨e₂, _ | ⟨e₃, f₁⟩⟩⟩
    · simp only [List.nil_append, List.cons.injEq] at h
      rcases Event.dequeue.injEq .. ▸ h.1 with ⟨rfl, rfl⟩
      exact absurd hside (dfs_head_not_A hgs hpq hq)
    · simp only [List.cons_append, List.nil_append, List.cons.injEq] at h
      exact absurd h.2.1 (by simp)
    · simp only [List.cons_append, List.nil_append, List.cons.injEq] at h
      exact absurd h.2.2.1 (by simp)
    · simp only [List.cons_append, List.nil_append, List.cons.injEq] at h
      exact absurd h.2.2.2 (by cases f₁ <;> simp)
  · intro v x xs n p d rest content r _ hpq _ _ _ ih hgs A et dt B hq f₁ t' dt' f₂ h hside
    rw [withEvents_events] at h
    rcases append_cons_cases h with ⟨g, hg1, _⟩ | ⟨g, hg1, hg2⟩
    · rcases f₁ with _ | ⟨e₁, _ | ⟨e₂, _ | ⟨e₃, f₁⟩⟩⟩
      · simp only [List.nil_append, List.cons.injEq] at hg1
        rcases Event.dequeue.injEq .. ▸ hg1.1 with ⟨rfl, rfl⟩
        exact absurd hside (dfs_head_not_A hgs hpq hq)
      · simp only [List.cons_append, List.nil_append, List.cons.injEq] at hg1
        exact absurd hg1.2.1 (by simp)
      · simp only [List.cons_append, List.nil_append, List.cons.injEq] at hg1
        exact absurd hg1.2.2.1 (by simp)
      · simp only [List.cons_append, List.nil_append, List.cons.injEq] at hg1
        exact absurd hg1.2.2.2 (by cases f₁ <;> simp)
    · rcases dfs_pop_split hpq hq with ⟨_, _, hpe, hde⟩ | ⟨B', _, hrest⟩
      · rw [hg1, ← hpe, ← hde]
        exact List.mem_append_left _ (List.mem_cons_self _ _)
      · have hmem := ih (goodState_rest hgs hpq) A et dt B' hrest g t' dt' f₂ hg2 hside
        rw [hg1]
        exact List.mem_append_right _ hmem
  · intro v x xs n p d rest content e r _ hpq _ _ _ _ ih hgs A et dt B hq f₁ t' dt' f₂ h hside
    rw [withEvents_events] at h
    rcases append_cons_cases h with ⟨g, hg1, _⟩ | ⟨g, hg1, hg2⟩
    · rcases f₁ with _ | ⟨e₁, _ | ⟨e₂, _ | ⟨e₃, _ | ⟨e₄, f₁⟩⟩⟩⟩
      · simp only [List.nil_append, List.cons.injEq] at hg1
        rcases Event.dequeue.injEq .. ▸ hg1.1 with ⟨rfl, rfl⟩
        exact absurd hside (dfs_head_not_A hgs hpq hq)
      · simp only [List.cons_append, List.nil_append, List.cons.injEq] at hg1
        exact absurd hg1.2.1 (by simp)
      · simp only [List.cons_append, List.nil_append, List.cons.injEq] at hg1
        exact absurd hg1.2.2.1 (by simp)
      · simp only [List.cons_append, List.nil_append, List.cons.injEq] at hg1
        exact absurd hg1.2.2.2.1 (by simp)
      · simp only [List.cons_append, List.nil_append, List.cons.injEq] at hg1
        exact absurd hg1.2.2.2.2 (by cases f₁ <;> simp)
    · rcases dfs_pop_split hpq hq with ⟨_, _, hpe, hde⟩ | ⟨B', _, hrest⟩
      · rw [hg1, ← hpe, ← hde]
        exact List.mem_append_left _ (List.mem_cons_self _ _)
      · have hmem := ih (goodState_rest hgs hpq) A et dt B' hrest g t' dt' f₂ hg2 hside
        rw [hg1]
        exact List.mem_append_right _ hmem
  · intro v x xs n p d rest content links r _ hpq _ _ _ _ ih hgs A et dt B hq f₁ t' dt' f₂ h hside
    rw [withEvents_events, List.append_assoc] at h
    rcases append_cons_cases h with ⟨g, hg1, _⟩ | ⟨g, hg1, hg2⟩
    · rcases f₁ with _ | ⟨e₁, _ | ⟨e₂, _ | ⟨e₃, _ | ⟨e₄, f₁⟩⟩⟩⟩
      · simp only [List.nil_append, List.cons.injEq] at hg1
        rcases Event.dequeue.injEq .. ▸ hg1.1 with ⟨rfl, rfl⟩
        exact absurd hside (dfs_head_not_A hgs hpq hq)
      · simp only [List.cons_append, List.nil_append, List.cons.injEq] at hg1
        exact absurd hg1.2.1 (by simp)
      · simp only [List.cons_append, List.nil_append, List.cons.injEq] at hg1
        exact absurd hg1.2.2.1 (by simp)
      · simp only [List.cons_append, List.nil_append, List.cons.injEq] at hg1
        exact absurd hg1.2.2.2.1 (by simp)
      · simp only [List.cons_append, List.nil_append, List.cons.injEq] at hg1
        exact absurd hg1.2.2.2.2 (by cases f₁ <;> simp)
    · rcases append_cons_cases hg2 with ⟨g', hg1', _⟩ | ⟨g', hg1', hg2'⟩
      · exfalso
        have : Event.dequeue t' dt' ∈ (newLinks v links).map
            (fun l => Event.enqueue l (d + 1) p) := by
          rw [hg1']
          exact List.mem_append_right _ (List.mem_cons_self _ _)
        obtain ⟨l, _, he⟩ := List.mem_map.mp this
        simp at he
      · rcases dfs_pop_split hpq hq with ⟨_, _, hpe, hde⟩ | ⟨B', _, hrest⟩
        · rw [hg1, ← hpe, ← hde]
          exact List.mem_append_left _ (List.mem_cons_self _ _)
        · have hq' : rest ++ (newLinks v links).map (fun l => (l, d + 1)) =
              A ++ (et, dt) :: (B' ++ (newLinks v links).map (fun l => (l, d + 1))) := by
            rw [hrest]
            simp [List.append_assoc]
          have hmem := ih (goodState_expand hgs hpq links) A et dt
            (B' ++ (newLinks v links).map (fun l => (l, d + 1))) hq'
            g' t' dt' f₂ hg2' hside
          rw [hg1, hg1']
          exact List.mem_append_right _ (List.mem_append_right _ hmem)

/-- LIFO law relative to a future expansion: under depth-first traversal,
if a page's first `add_page` call (first enqueue with that parent) happens
while some title `s` is still pending in the queue (or gets enqueued
before that call) and `s` has not been dequeued yet, then that first
child is dequeued before `s` is. -/
theorem dfs_pending (c : Client) (pr : Processor) (md lim : Int) :
    ∀ (fuel : Nat) (v : List String) (q : List (String × Nat)) (n : Nat),
      goodState v q →
      ∀ (l₁ : List Event) (ch : String) (dc : Nat) (P : String) (re : List Event),
        (crawlLoop c pr .dfs md lim fuel v q n).events = l₁ ++ .enqueue ch dc P :: re →
        (∀ (u : String) (du : Nat), Event.enqueue u du P ∉ l₁) →
      ∀ (m₁ : List Event) (s : String) (ds : Nat) (m₂ : List Event),
        re = m₁ ++ .dequeue s ds :: m₂ →
        s ≠ P →
        ((∃ (ds0 : Nat), (s, ds0) ∈ q) ∨
          ∃ (dsq : Nat) (par : String), Event.enqueue s dsq par ∈ l₁) →
        (∀ (d0 : Nat), Event.dequeue s d0 ∉ l₁) →
        .dequeue ch dc ∈ m₁ := by
  intro fuel
  induction fuel with
  | zero =>
      intro v q n _ l₁ ch dc P re h
      exfalso
      cases q with
      | nil =>
          rw [crawlLoop_nil] at h
          exact absurd h (by cases l₁ <;> simp)
      | cons x xs =>
          by_cases hlim : (n : Int) < lim
          · rw [crawlLoop_fuelOut hlim] at h
            exact absurd h (by cases l₁ <;> simp)
          · rw [crawlLoop_limit hlim] at h
            exact absurd h (by cases l₁ <;> simp)
  | succ fuel ih =>
      intro v q n hgs l₁ ch dc P re h hfirst m₁ s ds m₂ hre hsP hpend hnds
      cases q with
      | nil =>
          rw [crawlLoop_nil] at h
          exact absurd h (by cases l₁ <;> simp)
      | cons x xs =>
          by_cases hlim : (n : Int) < lim
          · rcases hpq : popNext .dfs x xs with ⟨⟨p, d⟩, rest⟩
            have hperm := popNext_perm .dfs x xs
            rw [hpq] at hperm
            rcases hgp : c.get_page p with e | co
            · rw [crawlLoop_fetchErr hlim hpq hgp] at h
              exact absurd h (by
                rcases l₁ with _ | ⟨e₁, _ | ⟨e₂, l₁⟩⟩ <;> simp)
            · rcases co with _ | content
              · rw [crawlLoop_notFound hlim hpq hgp, withEvents_events] at h
                rcases append_cons_cases h with ⟨g, hg1, _⟩ | ⟨g, hg1, hg2⟩
                · exact absurd hg1 (by
                    rcases l₁ with _ | ⟨e₁, _ | ⟨e₂, l₁⟩⟩ <;> simp)
                · refine ih v rest n (goodState_rest hgs hpq) g ch dc P re hg2 ?_
                    m₁ s ds m₂ hre hsP ?_ ?_
                  · intro u du hu
                    exact hfirst u du (by rw [hg1]; exact List.mem_append_right _ hu)
                  · rcases hpend with ⟨ds0, hmem⟩ | ⟨dsq, par, henq⟩
                    · rcases List.mem_cons.mp (hperm.subset hmem) with heq | hmem''
                      · obtain ⟨h1, _⟩ := Prod.mk.injEq .. ▸ heq
                        exfalso
                        apply hnds d
                        rw [h1, hg1]
                        exact List.mem_append_left _ (List.mem_cons_self _ _)
                      · exact Or.inl ⟨ds0, hmem''⟩
                    · rw [hg1, List.mem_append] at henq
                      rcases henq with henq | henq
                      · simp at henq
                      · exact Or.inr ⟨dsq, par, henq⟩
                  · intro d0 hd0
                    exact hnds d0 (by rw [hg1]; exact List.mem_append_right _ hd0)
              · rcases hproc : pr.process p content with e | u
                · rw [crawlLoop_procErr hlim hpq hgp hproc] at h
                  exact absurd h (by
                    rcases l₁ with _ | ⟨e₁, _ | ⟨e₂, _ | ⟨e₃, l₁⟩⟩⟩ <;> simp)
                · cases u
                  by_cases hd : (d : Int) < md
                  · rcases hgl : c.get_links p with e | links
                    · rw [crawlLoop_linksErr hlim hpq hgp hproc hd hgl,
                        withEvents_events] at h
                      rcases append_cons_cases h with ⟨g, hg1, _⟩ | ⟨g, hg1, hg2⟩
                      · exact absurd hg1 (by
                          rcases l₁ with _ | ⟨e₁, _ | ⟨e₂, _ | ⟨e₃, _ | ⟨e₄, l₁⟩⟩⟩⟩ <;> simp)
                      · refine ih v rest (n + 1) (goodState_rest hgs hpq) g ch dc P re hg2 ?_
                          m₁ s ds m₂ hre hsP ?_ ?_
                        · intro u du hu
                          exact hfirst u du (by rw [hg1]; exact List.mem_append_right _ hu)
                        · rcases hpend with ⟨ds0, hmem⟩ | ⟨dsq, par, henq⟩
                          · rcases List.mem_cons.mp (hperm.subset hmem) with heq | hmem''
                            · obtain ⟨h1, _⟩ := Prod.mk.injEq .. ▸ heq
                              exfalso
                              apply hnds d
                              rw [h1, hg1]
                              exact List.mem_append_left _ (List.mem_cons_self _ _)
                            · exact Or.inl ⟨ds0, hmem''⟩
                          · rw [hg1, List.mem_append] at henq
                            rcases henq with henq | henq
                            · simp at henq
                            · exact Or.inr ⟨dsq, par, henq⟩
                        · intro d0 hd0
                          exact hnds d0 (by rw [hg1]; exact List.mem_append_right _ hd0)
                    · rw [crawlLoop_expand hlim hpq hgp hproc hd hgl,
                        withEvents_events, List.append_assoc] at h
                      rcases append_cons_cases h with ⟨g, hg1, _⟩ | ⟨g, hg1, hg2⟩
                      · exact absurd hg1 (by
                          rcases l₁ with _ | ⟨e₁, _ | ⟨e₂, _ | ⟨e₃, _ | ⟨e₄, l₁⟩⟩⟩⟩ <;> simp)
                      · rcases append_cons_cases hg2 with ⟨g', hg1', hg2'⟩ | ⟨g', hg1', hg2'⟩
                        · -- the enqueue of `ch` is one of this expansion's add_page calls
                          obtain ⟨a₁, a, a₂, hfresh, hm₁, hy, hm₂⟩ := map_eq_append_cons hg1'
                          obtain ⟨ha, hdc, hP⟩ := Event.enqueue.injEq .. ▸ hy
                          -- first-child condition forces it to head the batch
                          cases a₁ with
                          | cons a0 a₁' =>
                              exfalso
                              apply hfirst a0 (d + 1)
                              rw [hP, hg1, hm₁]
                              exact List.mem_append_right _ (List.mem_cons_self _ _)
                          | nil =>
                          simp only [List.map_nil] at hm₁
                          simp only [List.nil_append] at hfresh
                          rcases hpend with ⟨ds0, hmem⟩ | ⟨dsq, par, henq⟩
                          · have hps : s ≠ p := by rw [← hP]; exact hsP
                            rcases List.mem_cons.mp (hperm.subset hmem) with heq | hmem''
                            · obtain ⟨h1, _⟩ := Prod.mk.injEq .. ▸ heq
                              exact absurd h1 hps
                            · have hsrest : s ∈ rest.map Prod.fst :=
                                List.mem_map.mpr ⟨(s, ds0), hmem'', rfl⟩
                              have hq' : rest ++ (newLinks v links).map (fun l => (l, d + 1)) =
                                  rest ++ (a, d + 1) :: a₂.map (fun l => (l, d + 1)) := by
                                rw [hfresh, List.map_cons]
                              have h' : g' ++ (crawlLoop c pr .dfs md lim fuel
                                  (v ++ newLinks v links)
                                  (rest ++ (newLinks v links).map (fun l => (l, d + 1)))
                                  (n + 1)).events = m₁ ++ .dequeue s ds :: m₂ :=
                                hg2'.symm.trans hre
                              rcases append_cons_cases h' with ⟨g₃, hga, _⟩ | ⟨g₃, hga, hgb⟩
                              · exfalso
                                have : Event.dequeue s ds ∈ a₂.map
                                    (fun l => Event.enqueue l (d + 1) p) := by
                                  rw [← hm₂, hga]
                                  exact List.mem_append_right _ (List.mem_cons_self _ _)
                                obtain ⟨l, _, he⟩ := List.mem_map.mp this
                                simp at he
                              · have hdeq := dfs_lifo c pr md lim fuel
                                  (v ++ newLinks v links)
                                  (rest ++ (newLinks v links).map (fun l => (l, d + 1)))
                                  (n + 1) (goodState_expand hgs hpq links)
                                  rest a (d + 1) (a₂.map (fun l => (l, d + 1))) hq'
                                  g₃ s ds m₂ hgb hsrest
                                rw [hga, ha, hdc]
                                exact List.mem_append_right _ hdeq
                          · exfalso
                            rw [hg1, hm₁, List.append_nil] at henq
                            simp at henq
                        · -- the enqueue of `ch` lies in the rest of the run
                          refine ih (v ++ newLinks v links)
                            (rest ++ (newLinks v links).map (fun l => (l, d + 1))) (n + 1)
                            (goodState_expand hgs hpq links) g' ch dc P re hg2' ?_
                            m₁ s ds m₂ hre hsP ?_ ?_
                          · intro u du hu
                            refine hfirst u du ?_
                            rw [hg1, hg1']
                            exact List.mem_append_right _ (List.mem_append_right _ hu)
                          · rcases hpend with ⟨ds0, hmem⟩ | ⟨dsq, par, henq⟩
                            · rcases List.mem_cons.mp (hperm.subset hmem) with heq | hmem''
                              · obtain ⟨h1, _⟩ := Prod.mk.injEq .. ▸ heq
                                exfalso
                                apply hnds d
                                rw [h1, hg1]
                                exact List.mem_append_left _ (List.mem_cons_self _ _)
                              · exact Or.inl ⟨ds0, List.mem_append_left _ hmem''⟩
                            · rw [hg1, hg1', List.mem_append] at henq
                              rcases henq with henq | henq
                              · simp at henq
                              · rw [List.mem_append] at henq
                                rcases henq with henq | henq
                                · obtain ⟨l, hl, he⟩ := List.mem_map.mp henq
                                  obtain ⟨h1, _, _⟩ := Event.enqueue.injEq .. ▸ he
                                  refine Or.inl ⟨d + 1, List.mem_append_right _ ?_⟩
                                  rw [← h1]
                                  exact List.mem_map.mpr ⟨l, hl, rfl⟩
                                · exact Or.inr ⟨dsq, par, henq⟩
                          · intro d0 hd0
                            refine hnds d0 ?_
                            rw [hg1, hg1']
                            exact List.mem_append_right _ (List.mem_append_right _ hd0)
                  · rw [crawlLoop_noExpand hlim hpq hgp hproc hd, withEvents_events] at h
                    rcases append_cons_cases h with ⟨g, hg1, _⟩ | ⟨g, hg1, hg2⟩
                    · exact absurd hg1 (by
                        rcases l₁ with _ | ⟨e₁, _ | ⟨e₂, _ | ⟨e₃, l₁⟩⟩⟩ <;> simp)
                    · refine ih v rest (n + 1) (goodState_rest hgs hpq) g ch dc P re hg2 ?_
                        m₁ s ds m₂ hre hsP ?_ ?_
                      · intro u du hu
                        exact hfirst u du (by rw [hg1]; exact List.mem_append_right _ hu)
                      · rcases hpend with ⟨ds0, hmem⟩ | ⟨dsq, par, henq⟩
                        · rcases List.mem_cons.mp (hperm.subset hmem) with heq | hmem''
                          · obtain ⟨h1, _⟩ := Prod.mk.injEq .. ▸ heq
                            exfalso
                            apply hnds d
                            rw [h1, hg1]
                            exact List.mem_append_left _ (List.mem_cons_self _ _)
                          · exact Or.inl ⟨ds0, hmem''⟩
                        · rw [hg1, List.mem_append] at henq
                          rcases henq with henq | henq
                          · simp at henq
                          · exact Or.inr ⟨dsq, par, henq⟩
                      · intro d0 hd0
                        exact hnds d0 (by rw [hg1]; exact List.mem_append_right _ hd0)
          · rw [crawlLoop_limit hlim] at h
            exact absurd h (by cases l₁ <;> simp)

/-- A match before and a match at a split point force the count of a
predicate to be at least two. -/
theorem two_le_countP_split {α : Type} {l₁ l₂ : List α} {a x : α} {pred : α → Bool}
    (ha : a ∈ l₁) (hpa : pred a) (hpx : pred x) :
    2 ≤ (l₁ ++ x :: l₂).countP pred := by
  obtain ⟨s₁, s₂, rfl⟩ := List.append_of_mem ha
  simp only [List.countP_append, List.countP_cons, hpa, hpx, if_pos]
  omega

/-- A title already in `self.visited` is never passed to `add_page`. -/
theorem visited_no_enq (c : Client) (pr : Processor) (strat : Strategy) (md lim : Int)
    (fuel : Nat) (v : List String) (q : List (String × Nat)) (n : Nat)
    (hgs : goodState v q) (t : String) (htv : t ∈ v) (dq : Nat) (par : String) :
    Event.enqueue t dq par ∉ (crawlLoop c pr strat md lim fuel v q n).events := by
  intro hmem
  have h0 := (enq_count c pr strat md lim fuel v q n hgs t).2 htv
  have := List.countP_eq_zero.mp h0 _ hmem
  simp [isEnq] at this

/-- No page ever enqueues itself: the links enqueued while expanding a
page are not yet visited, while the expanded page already is. -/
theorem no_self_enqueue (c : Client) (pr : Processor) (strat : Strategy) (md lim : Int) :
    ∀ (fuel : Nat) (v : List String) (q : List (String × Nat)) (n : Nat),
      goodState v q → ∀ (t : String) (dq : Nat),
        Event.enqueue t dq t ∉ (crawlLoop c pr strat md lim fuel v q n).events := by
  refine crawlLoop_rec c pr strat md lim
    (fun v q _ r => goodState v q → ∀ (t : String) (dq : Nat),
      Event.enqueue t dq t ∉ r.events)
    ?_ ?_ ?_ ?_ ?_ ?_ ?_ ?_ ?_
  · intro v n _ t dq; simp
  · intro v x xs n _ _ t dq; simp
  · intro v x xs n _ _ t dq; simp
  · intro v x xs n p d rest e _ _ _ _ t dq; simp
  · intro v x xs n p d rest r _ hpq _ ih hgs t dq hmem
    rw [withEvents_events] at hmem
    rcases List.mem_append.mp hmem with h | h
    · simp at h
    · exact ih (goodState_rest hgs hpq) t dq h
  · intro v x xs n p d rest content e _ _ _ _ _ t dq; simp
  · intro v x xs n p d rest content r _ hpq _ _ _ ih hgs t dq hmem
    rw [withEvents_events] at hmem
    rcases List.mem_append.mp hmem with h | h
    · simp at h
    · exact ih (goodState_rest hgs hpq) t dq h
  · intro v x xs n p d rest content e r _ hpq _ _ _ _ ih hgs t dq hmem
    rw [withEvents_events] at hmem
    rcases List.mem_append.mp hmem with h | h
    · simp at h
    · exact ih (goodState_rest hgs hpq) t dq h
  · intro v x xs n p d rest content links r _ hpq _ _ _ _ ih hgs t dq hmem
    rw [withEvents_events] at hmem
    rcases List.mem_append.mp hmem with h | h
    · rcases List.mem_append.mp h with h | h
      · simp at h
      · obtain ⟨l, hl, he⟩ := List.mem_map.mp h
        obtain ⟨h1, _, h3⟩ := Event.enqueue.injEq .. ▸ he
        have hpv : p ∈ v := hgs.2 (p, d) (popNext_mem hpq)
        have : l ∉ v := newLinks_not_visited hl
        rw [h1] at this
        rw [h3] at hpv
        exact this hpv
    · exact ih (goodState_expand hgs hpq links) t dq h

/-- An `add_page` call is preceded in the trace by the `get_next` return
of its parent, one level up. -/
theorem enq_parent_deq (c : Client) (pr : Processor) (strat : Strategy) (md lim : Int) :
    ∀ (fuel : Nat) (v : List String) (q : List (String × Nat)) (n : Nat),
      ∀ (l₁ : List Event) (ch : String) (dc : Nat) (P : String) (re : List Event),
        (crawlLoop c pr strat md lim fuel v q n).events = l₁ ++ .enqueue ch dc P :: re →
        Event.dequeue P (dc - 1) ∈ l₁ := by
  refine crawlLoop_rec c pr strat md lim
    (fun _ _ _ r => ∀ l₁ ch dc P re, r.events = l₁ ++ .enqueue ch dc P :: re →
      Event.dequeue P (dc - 1) ∈ l₁)
    ?_ ?_ ?_ ?_ ?_ ?_ ?_ ?_ ?_
  · intro v n l₁ ch dc P re h
    exact absurd h (by cases l₁ <;> simp)
  · intro v x xs n _ l₁ ch dc P re h
    exact absurd h (by cases l₁ <;> simp)
  · intro v x xs n _ l₁ ch dc P re h
    exact absurd h (by cases l₁ <;> simp)
  · intro v x xs n p d rest e _ _ _ l₁ ch dc P re h
    exact absurd h (by rcases l₁ with _ | ⟨e₁, _ | ⟨e₂, l₁⟩⟩ <;> simp)
  · intro v x xs n p d rest r _ _ _ ih l₁ ch dc P re h
    rw [withEvents_events] at h
    rcases append_cons_cases h with ⟨g, hg1, _⟩ | ⟨g, hg1, hg2⟩
    · exact absurd hg1 (by rcases l₁ with _ | ⟨e₁, _ | ⟨e₂, l₁⟩⟩ <;> simp)
    · rw [hg1]
      exact List.mem_append_right _ (ih g ch dc P re hg2)
  · intro v x xs n p d rest content e _ _ _ _ l₁ ch dc P re h
    exact absurd h (by rcases l₁ with _ | ⟨e₁, _ | ⟨e₂, _ | ⟨e₃, l₁⟩⟩⟩ <;> simp)
  · intro v x xs n p d rest content r _ _ _ _ _ ih l₁ ch dc P re h
    rw [withEvents_events] at h
    rcases append_cons_cases h with ⟨g, hg1, _⟩ | ⟨g, hg1, hg2⟩
    · exact absurd hg1 (by rcases l₁ with _ | ⟨e₁, _ | ⟨e₂, _ | ⟨e₃, l₁⟩⟩⟩ <;> simp)
    · rw [hg1]
      exact List.mem_append_right _ (ih g ch dc P re hg2)
  · intro v x xs n p d rest content e r _ _ _ _ _ _ ih l₁ ch dc P re h
    rw [withEvents_events] at h
    rcases append_cons_cases h with ⟨g, hg1, _⟩ | ⟨g, hg1, hg2⟩
    · exact absurd hg1 (by rcases l₁ with _ | ⟨e₁, _ | ⟨e₂, _ | ⟨e₃, _ | ⟨e₄, l₁⟩⟩⟩⟩ <;> simp)
    · rw [hg1]
      exact List.mem_append_right _ (ih g ch dc P re hg2)
  · intro v x xs n p d rest content links r _ _ _ _ _ _ ih l₁ ch dc P re h
    rw [withEvents_events, List.append_assoc] at h
    rcases append_cons_cases h with ⟨g, hg1, _⟩ | ⟨g, hg1, hg2⟩
    · exact absurd hg1 (by rcases l₁ with _ | ⟨e₁, _ | ⟨e₂, _ | ⟨e₃, _ | ⟨e₄, l₁⟩⟩⟩⟩ <;> simp)
    · rcases append_cons_cases hg2 with ⟨g', hg1', _⟩ | ⟨g', hg1', hg2'⟩
      · have hmemE : Event.enqueue ch dc P ∈ (newLinks v links).map
            (fun l => Event.enqueue l (d + 1) p) := by
          rw [hg1']
          exact List.mem_append_right _ (List.mem_cons_self _ _)
        obtain ⟨l, _, he⟩ := List.mem_map.mp hmemE
        obtain ⟨_, h2, h3⟩ := Event.enqueue.injEq .. ▸ he
        rw [hg1, ← h3, ← h2]
        simp
      · rw [hg1, hg1']
        exact List.mem_append_right _ (List.mem_append_right _ (ih g' ch dc P re hg2'))

/-- Once a page is out of the queue and in `self.visited`, no further
`add_page` call carries it as parent (it is never expanded again). -/
theorem parent_gone_no_enq (c : Client) (pr : Processor) (strat : Strategy) (md lim : Int) :
    ∀ (fuel : Nat) (v : List String) (q : List (String × Nat)) (n : Nat),
      ∀ (t : String), t ∉ q.map Prod.fst → t ∈ v →
      ∀ (u : String) (du : Nat),
        Event.enqueue u du t ∉ (crawlLoop c pr strat md lim fuel v q n).events := by
  refine crawlLoop_rec c pr strat md lim
    (fun v q _ r => ∀ (t : String), t ∉ q.map Prod.fst → t ∈ v →
      ∀ (u : String) (du : Nat), Event.enqueue u du t ∉ r.events)
    ?_ ?_ ?_ ?_ ?_ ?_ ?_ ?_ ?_
  · intro v n t _ _ u du; simp
  · intro v x xs n _ t _ _ u du; simp
  · intro v x xs n _ t _ _ u du; simp
  · intro v x xs n p d rest e _ _ _ t _ _ u du; simp
  · intro v x xs n p d rest r _ hpq _ ih t htq htv u du hmem
    rw [withEvents_events] at hmem
    rcases List.mem_append.mp hmem with h | h
    · simp at h
    · exact ih t (fun hr => htq (rest_titles_subset hpq t hr)) htv u du h
  · intro v x xs n p d rest content e _ _ _ _ t _ _ u du; simp
  · intro v x xs n p d rest content r _ hpq _ _ _ ih t htq htv u du hmem
    rw [withEvents_events] at hmem
    rcases List.mem_append.mp hmem with h | h
    · simp at h
    · exact ih t (fun hr => htq (rest_titles_subset hpq t hr)) htv u du h
  · intro v x xs n p d rest content e r _ hpq _ _ _ _ ih t htq htv u du hmem
    rw [withEvents_events] at hmem
    rcases List.mem_append.mp hmem with h | h
    · simp at h
    · exact ih t (fun hr => htq (rest_titles_subset hpq t hr)) htv u du h
  · intro v x xs n p d rest content links r _ hpq _ _ _ _ ih t htq htv u du hmem
    rw [withEvents_events] at hmem
    rcases List.mem_append.mp hmem with h | h
    · rcases List.mem_append.mp h with h | h
      · simp at h
      · obtain ⟨l, _, he⟩ := List.mem_map.mp h
        obtain ⟨_, _, h3⟩ := Event.enqueue.injEq .. ▸ he
        refine htq ?_
        rw [← h3]
        exact List.mem_map.mpr ⟨(p, d), popNext_mem hpq, rfl⟩
    · refine ih t ?_ (List.mem_append_left _ htv) u du h
      intro hr
      rw [List.map_append, List.mem_append] at hr
      rcases hr with hr | hr
      · exact htq (rest_titles_subset hpq t hr)
      · obtain ⟨e', he', rfl⟩ := List.mem_map.mp hr
        obtain ⟨l, hl, rfl⟩ := List.mem_map.mp he'
        exact newLinks_not_visited hl htv

/-- All `add_page` calls of one parent happen in one burst: once any
`get_next` return follows such a call, no later `add_page` call carries
that parent again. -/
theorem parent_window (c : Client) (pr : Processor) (strat : Strategy) (md lim : Int) :
    ∀ (fuel : Nat) (v : List String) (q : List (String × Nat)) (n : Nat),
      goodState v q →
      ∀ (w₁ : List Event) (a : String) (da : Nat) (par : String) (re : List Event),
        (crawlLoop c pr strat md lim fuel v q n).events = w₁ ++ .enqueue a da par :: re →
      ∀ (w₂ : List Event) (t : String) (dt : Nat) (w₃ : List Event),
        re = w₂ ++ .dequeue t dt :: w₃ →
      ∀ (b : String) (db : Nat), Event.enqueue b db par ∉ w₃ := by
  intro fuel
  induction fuel with
  | zero =>
      intro v q n _ w₁ a da par re h
      exfalso
      cases q with
      | nil =>
          rw [crawlLoop_nil] at h
          exact absurd h (by cases w₁ <;> simp)
      | cons x xs =>
          by_cases hlim : (n : Int) < lim
          · rw [crawlLoop_fuelOut hlim] at h
            exact absurd h (by cases w₁ <;> simp)
          · rw [crawlLoop_limit hlim] at h
            exact absurd h (by cases w₁ <;> simp)
  | succ fuel ih =>
      intro v q n hgs w₁ a da par re h w₂ t dt w₃ hre b db
      cases q with
      | nil =>
          rw [crawlLoop_nil] at h
          exact absurd h (by cases w₁ <;> simp)
      | cons x xs =>
          by_cases hlim : (n : Int) < lim
          · rcases hpq : popNext strat x xs with ⟨⟨p, d⟩, rest⟩
            rcases hgp : c.get_page p with e | co
            · rw [crawlLoop_fetchErr hlim hpq hgp] at h
              exact absurd h (by
                rcases w₁ with _ | ⟨e₁, _ | ⟨e₂, w₁⟩⟩ <;> simp)
            · rcases co with _ | content
              · rw [crawlLoop_notFound hlim hpq hgp, withEvents_events] at h
                rcases append_cons_cases h with ⟨g, hg1, _⟩ | ⟨g, hg1, hg2⟩
                · exact absurd hg1 (by
                    rcases w₁ with _ | ⟨e₁, _ | ⟨e₂, w₁⟩⟩ <;> simp)
                · exact ih v rest n (goodState_rest hgs hpq) g a da par re hg2
                    w₂ t dt w₃ hre b db
              · rcases hproc : pr.process p content with e | u
                · rw [crawlLoop_procErr hlim hpq hgp hproc] at h
                  exact absurd h (by
                    rcases w₁ with _ | ⟨e₁, _ | ⟨e₂, _ | ⟨e₃, w₁⟩⟩⟩ <;> simp)
                · cases u
                  by_cases hd : (d : Int) < md
                  · rcases hgl : c.get_links p with e | links
                    · rw [crawlLoop_linksErr hlim hpq hgp hproc hd hgl,
                        withEvents_events] at h
                      rcases append_cons_cases h with ⟨g, hg1, _⟩ | ⟨g, hg1, hg2⟩
                      · exact absurd hg1 (by
                          rcases w₁ with _ | ⟨e₁, _ | ⟨e₂, _ | ⟨e₃, _ | ⟨e₄, w₁⟩⟩⟩⟩ <;> simp)
                      · exact ih v rest (n + 1) (goodState_rest hgs hpq) g a da par re hg2
                          w₂ t dt w₃ hre b db
                    · rw [crawlLoop_expand hlim hpq hgp hproc hd hgl,
                        withEvents_events, List.append_assoc] at h
                      rcases append_cons_cases h with ⟨g, hg1, _⟩ | ⟨g, hg1, hg2⟩
                      · exact absurd hg1 (by
                          rcases w₁ with _ | ⟨e₁, _ | ⟨e₂, _ | ⟨e₃, _ | ⟨e₄, w₁⟩⟩⟩⟩ <;> simp)
                      · rcases append_cons_cases hg2 with ⟨g', hg1', hg2'⟩ | ⟨g', hg1', hg2'⟩
                        · -- the watched enqueue is one of this expansion's calls
                          obtain ⟨a₁, a', a₂, hfresh, hm₁, hy, hm₂⟩ := map_eq_append_cons hg1'
                          obtain ⟨_, _, hP⟩ := Event.enqueue.injEq .. ▸ hy
                          have h' : g' ++ (crawlLoop c pr strat md lim fuel
                              (v ++ newLinks v links)
                              (rest ++ (newLinks v links).map (fun l => (l, d + 1)))
                              (n + 1)).events = w₂ ++ .dequeue t dt :: w₃ :=
                            hg2'.symm.trans hre
                          rcases append_cons_cases h' with ⟨g₃, hga, _⟩ | ⟨g₃, hga, hgb⟩
                          · exfalso
                            have : Event.dequeue t dt ∈ a₂.map
                                (fun l => Event.enqueue l (d + 1) p) := by
                              rw [← hm₂, hga]
                              exact List.mem_append_right _ (List.mem_cons_self _ _)
                            obtain ⟨l, _, he⟩ := List.mem_map.mp this
                            simp at he
                          · intro hmem
                            have hmem' : Event.enqueue b db par ∈ (crawlLoop c pr strat md lim
                                fuel (v ++ newLinks v links)
                                (rest ++ (newLinks v links).map (fun l => (l, d + 1)))
                                (n + 1)).events := by
                              rw [hgb]
                              exact List.mem_append_right _ (List.mem_cons_of_mem _ hmem)
                            have hpv : p ∈ v := hgs.2 (p, d) (popNext_mem hpq)
                            refine parent_gone_no_enq c pr strat md lim fuel
                              (v ++ newLinks v links)
                              (rest ++ (newLinks v links).map (fun l => (l, d + 1)))
                              (n + 1) par ?_ ?_ b db ?_
                            · rw [hP]
                              intro hr
                              rw [List.map_append, List.mem_append] at hr
                              rcases hr with hr | hr
                              · exact popNext_not_mem_rest hgs hpq hr
                              · obtain ⟨e', he', heq'⟩ := List.mem_map.mp hr
                                obtain ⟨l, hl, rfl⟩ := List.mem_map.mp he'
                                have hl2 : l = p := by simpa using heq'
                                exact newLinks_not_visited hl (by rw [hl2]; exact hpv)
                            · rw [hP]
                              exact List.mem_append_left _ hpv
                            · exact hmem'
                        · exact ih (v ++ newLinks v links)
                            (rest ++ (newLinks v links).map (fun l => (l, d + 1))) (n + 1)
                            (goodState_expand hgs hpq links) g' a da par re hg2'
                            w₂ t dt w₃ hre b db
                  · rw [crawlLoop_noExpand hlim hpq hgp hproc hd, withEvents_events] at h
                    rcases append_cons_cases h with ⟨g, hg1, _⟩ | ⟨g, hg1, hg2⟩
                    · exact absurd hg1 (by
                        rcases w₁ with _ | ⟨e₁, _ | ⟨e₂, _ | ⟨e₃, w₁⟩⟩⟩ <;> simp)
                    · exact ih v rest (n + 1) (goodState_rest hgs hpq) g a da par re hg2
                        w₂ t dt w₃ hre b db
          · rw [crawlLoop_limit hlim] at h
            exact absurd h (by cases w₁ <;> simp)

/-- The breadth-first order law: a page enqueued at depth `dp` (the start
page counting as enqueued at depth 0) is dequeued before any page that is
dequeued at depth `dp + 1`. -/
theorem bfs_order_law (c : Client) (pr : Processor) (start : String) (md lim : Int)
    (fuel : Nat) :
    ∀ (p : String) (dp : Nat) (l₁ : List Event) (qt : String) (l₂ : List Event),
      ((∃ par, Event.enqueue p dp par ∈ (crawl c pr .bfs start md lim fuel).events) ∨
        (p = start ∧ dp = 0)) →
      (crawl c pr .bfs start md lim fuel).events = l₁ ++ .dequeue qt (dp + 1) :: l₂ →
      .dequeue p dp ∈ l₁ := by
  intro p dp l₁ qt l₂ hEnq hSplit
  simp only [crawl] at hEnq hSplit
  have hgs0 : goodState [start] [(start, 0)] := goodState_init start
  -- monotone depth trace along the whole run
  have hchain : List.Chain (· ≤ ·) 0
      (depthTrace (crawlLoop c pr .bfs md lim fuel [start] [(start, 0)] 0).events) := by
    refine bfs_mono c pr md lim fuel [start] [(start, 0)] 0 0 (by simp) ?_
    intro e he
    simp only [List.mem_singleton] at he
    rw [he]
    exact ⟨le_refl _, by omega⟩
  have hpw : List.Pairwise (· ≤ ·)
      (depthTrace (crawlLoop c pr .bfs md lim fuel [start] [(start, 0)] 0).events) :=
    (List.chain_iff_pairwise.mp hchain).of_cons
  rcases hEnq with ⟨par, henq⟩ | ⟨hp, hdp⟩
  · have hdp1 : 1 ≤ dp :=
      enq_depth_pos c pr .bfs md lim fuel [start] [(start, 0)] 0 p dp par henq
    rw [hSplit] at henq
    rcases List.mem_append.mp henq with henql1 | henqr
    · -- the enqueue of p happened before the dequeue of qt
      obtain ⟨b₁, b₂, hb⟩ := List.append_of_mem henql1
      have hE : (crawlLoop c pr .bfs md lim fuel [start] [(start, 0)] 0).events =
          b₁ ++ .enqueue p dp par :: (b₂ ++ .dequeue qt (dp + 1) :: l₂) := by
        rw [hSplit, hb]
        simp [List.append_assoc]
      rcases deq_origin c pr .bfs md lim fuel [start] [(start, 0)] 0
          l₁ qt (dp + 1) l₂ hSplit with hq0 | ⟨qpar, henqQ⟩
      · simp only [List.mem_singleton] at hq0
        obtain ⟨_, h0⟩ := Prod.mk.injEq .. ▸ hq0
        omega
      · rw [hb] at henqQ
        rcases List.mem_append.mp henqQ with hq1 | hq2
        · -- qt enqueued even before p: its depth contribution contradicts monotonicity
          exfalso
          have hmemtrace : dp + 1 - 1 ∈ depthTrace b₁ := mem_depthTrace_of_enq hq1
          have htr : depthTrace
              (crawlLoop c pr .bfs md lim fuel [start] [(start, 0)] 0).events =
              depthTrace b₁ ++ (dp - 1) :: depthTrace (b₂ ++ .dequeue qt (dp + 1) :: l₂) := by
            rw [hE, depthTrace_append]
            simp
          have := pairwise_le_split_left hpw htr hmemtrace
          omega
        · rcases List.mem_cons.mp hq2 with hq2 | hq2
          · obtain ⟨_, habs, _⟩ := Event.enqueue.injEq .. ▸ hq2
            omega
          · have := bfs_after_enq c pr md lim fuel [start] [(start, 0)] 0 hgs0
              b₁ p dp par (b₂ ++ .dequeue qt (dp + 1) :: l₂) hE
              b₂ qt (dp + 1) l₂ rfl ⟨dp + 1, qpar, hq2⟩
            rw [hb]
            exact List.mem_append_right _ (List.mem_cons_of_mem _ this)
    · -- the enqueue of p after the dequeue of qt contradicts monotonicity
      exfalso
      rcases List.mem_cons.mp henqr with habs | henql2
      · exact absurd habs (by simp)
      · have hmemtrace : dp - 1 ∈ depthTrace l₂ := mem_depthTrace_of_enq henql2
        have htr : depthTrace
            (crawlLoop c pr .bfs md lim fuel [start] [(start, 0)] 0).events =
            depthTrace l₁ ++ (dp + 1) :: depthTrace l₂ := by
          rw [hSplit, depthTrace_append]
          simp
        have := pairwise_le_split_right hpw htr hmemtrace
        omega
  · -- the start page is dequeued before any depth-1 dequeue
    subst hp hdp
    rcases deq_origin c pr .bfs md lim fuel [p] [(p, 0)] 0
        l₁ qt 1 l₂ hSplit with hq0 | ⟨qpar, henqQ⟩
    · simp only [List.mem_singleton] at hq0
      obtain ⟨_, h0⟩ := Prod.mk.injEq .. ▸ hq0
      omega
    · exact bfs_fifo c pr md lim fuel [p] [(p, 0)] 0 hgs0
        [] p 0 [] rfl l₁ qt 1 l₂ hSplit (Or.inr ⟨1, qpar, henqQ⟩)

/-- The depth-first order law: once a page `P` is expanded, its
first-discovered child `ch` (target of `P`'s first `add_page` call) is
dequeued before any sibling of `P` (a different page enqueued with the
same parent) is dequeued. -/
theorem dfs_order_law (c : Client) (pr : Processor) (start : String) (md lim : Int)
    (fuel : Nat) :
    ∀ (l₁ : List Event) (ch : String) (dc : Nat) (P : String)
      (m₁ : List Event) (s : String) (ds : Nat) (m₂ : List Event)
      (par : String) (dP dsq : Nat),
      (crawl c pr .dfs start md lim fuel).events =
        l₁ ++ Event.enqueue ch dc P :: (m₁ ++ Event.dequeue s ds :: m₂) →
      (∀ (u : String) (du : Nat), Event.enqueue u du P ∉ l₁) →
      Event.enqueue P dP par ∈ (crawl c pr .dfs start md lim fuel).events →
      Event.enqueue s dsq par ∈ (crawl c pr .dfs start md lim fuel).events →
      s ≠ P →
      Event.dequeue ch dc ∈ m₁ := by
  intro l₁ ch dc P m₁ s ds m₂ par dP dsq hSplit hfirst henqP henqS hsP
  simp only [crawl] at hSplit henqP henqS
  have hgs0 : goodState [start] [(start, 0)] := goodState_init start
  have hSplit' : (crawlLoop c pr .dfs md lim fuel [start] [(start, 0)] 0).events =
      (l₁ ++ Event.enqueue ch dc P :: m₁) ++ Event.dequeue s ds :: m₂ := by
    rw [hSplit]; simp [List.append_assoc]
  have hnds : ∀ (d0 : Nat), Event.dequeue s d0 ∉ l₁ := by
    intro d0 hd0
    have hcnt := (deq_count c pr .dfs md lim fuel [start] [(start, 0)] 0 hgs0 s).1
    rw [hSplit'] at hcnt
    have h2 : 2 ≤ ((l₁ ++ Event.enqueue ch dc P :: m₁) ++
        Event.dequeue s ds :: m₂).countP (isDeq s) :=
      two_le_countP_split (List.mem_append_left _ hd0) (by simp [isDeq]) (by simp [isDeq])
    omega
  rcases deq_origin c pr .dfs md lim fuel [start] [(start, 0)] 0
      (l₁ ++ Event.enqueue ch dc P :: m₁) s ds m₂ hSplit' with hq0 | ⟨par', henq'⟩
  · -- s is the start page, pending from the seed queue
    simp only [List.mem_singleton] at hq0
    obtain ⟨hs1, _⟩ := Prod.mk.injEq .. ▸ hq0
    exact dfs_pending c pr md lim fuel [start] [(start, 0)] 0 hgs0
      l₁ ch dc P (m₁ ++ Event.dequeue s ds :: m₂) hSplit hfirst
      m₁ s ds m₂ rfl hsP (Or.inl ⟨0, by rw [hs1]; exact List.mem_singleton.mpr rfl⟩) hnds
  · rcases List.mem_append.mp henq' with henqL | henqCM
    · -- s was enqueued before the first child of P
      exact dfs_pending c pr md lim fuel [start] [(start, 0)] 0 hgs0
        l₁ ch dc P (m₁ ++ Event.dequeue s ds :: m₂) hSplit hfirst
        m₁ s ds m₂ rfl hsP (Or.inr ⟨ds, par', henqL⟩) hnds
    · exfalso
      have hcntS := (enq_count c pr .dfs md lim fuel [start] [(start, 0)] 0 hgs0 s).1
      rcases List.mem_cons.mp henqCM with heq | henqM
      · -- the origin enqueue of s coincides with the enqueue of ch, so the
        -- sibling enqueue has parent P and P would be its own parent
        obtain ⟨_, _, hs3⟩ := Event.enqueue.injEq .. ▸ heq
        have hmemC : Event.enqueue s ds par' ∈
            (crawlLoop c pr .dfs md lim fuel [start] [(start, 0)] 0).events := by
          rw [hSplit', heq]
          exact List.mem_append_left _
            (List.mem_append_right _ (List.mem_cons_self _ _))
        have huni := eq_of_countP_le_one hcntS henqS hmemC
          (by simp [isEnq]) (by simp [isEnq])
        obtain ⟨_, _, hp'⟩ := Event.enqueue.injEq .. ▸ huni
        rw [hp', hs3] at henqP
        exact no_self_enqueue c pr .dfs md lim fuel [start] [(start, 0)] 0 hgs0
          P dP henqP
      · -- the unique enqueue of s lies after the enqueue of ch, which is
        -- impossible: the expansion burst of their common parent is closed
        -- by the dequeue of P before ch is enqueued
        have hmemM : Event.enqueue s ds par' ∈
            (crawlLoop c pr .dfs md lim fuel [start] [(start, 0)] 0).events := by
          rw [hSplit]
          exact List.mem_append_right _
            (List.mem_cons_of_mem _ (List.mem_append_left _ henqM))
        have huni := eq_of_countP_le_one hcntS henqS hmemM
          (by simp [isEnq]) (by simp [isEnq])
        obtain ⟨_, _, hp'⟩ := Event.enqueue.injEq .. ▸ huni
        have hdeqP : Event.dequeue P (dc - 1) ∈ l₁ :=
          enq_parent_deq c pr .dfs md lim fuel [start] [(start, 0)] 0
            l₁ ch dc P (m₁ ++ Event.dequeue s ds :: m₂) hSplit
        obtain ⟨u₁, u₂, hu⟩ := List.append_of_mem hdeqP
        have hSplitP : (crawlLoop c pr .dfs md lim fuel [start] [(start, 0)] 0).events =
            u₁ ++ Event.dequeue P (dc - 1) :: (u₂ ++ Event.enqueue ch dc P ::
              (m₁ ++ Event.dequeue s ds :: m₂)) := by
          rw [hSplit, hu]; simp [List.append_assoc]
        rcases deq_origin c pr .dfs md lim fuel [start] [(start, 0)] 0
            u₁ P (dc - 1) _ hSplitP with hq0 | ⟨par'', henqP''⟩
        · -- P is the start page, which is never enqueued at all
          simp only [List.mem_singleton] at hq0
          obtain ⟨hP1, _⟩ := Prod.mk.injEq .. ▸ hq0
          rw [hP1] at henqP
          exact visited_no_enq c pr .dfs md lim fuel [start] [(start, 0)] 0
            hgs0 start (List.mem_singleton.mpr rfl) dP par henqP
        · have hcntP := (enq_count c pr .dfs md lim fuel [start] [(start, 0)] 0 hgs0 P).1
          have hmemP'' : Event.enqueue P (dc - 1) par'' ∈
              (crawlLoop c pr .dfs md lim fuel [start] [(start, 0)] 0).events := by
            rw [hSplitP]
            exact List.mem_append_left _ henqP''
          have huniP := eq_of_countP_le_one hcntP henqP hmemP''
            (by simp [isEnq]) (by simp [isEnq])
          obtain ⟨_, _, hparP⟩ := Event.enqueue.injEq .. ▸ huniP
          obtain ⟨x₁, x₂, hx⟩ := List.append_of_mem henqP''
          have hSplitW : (crawlLoop c pr .dfs md lim fuel [start] [(start, 0)] 0).events =
              x₁ ++ Event.enqueue P (dc - 1) par'' :: (x₂ ++ Event.dequeue P (dc - 1) ::
                (u₂ ++ Event.enqueue ch dc P :: (m₁ ++ Event.dequeue s ds :: m₂))) := by
            rw [hSplitP, hx]; simp [List.append_assoc]
          have hwin := parent_window c pr .dfs md lim fuel [start] [(start, 0)] 0 hgs0
            x₁ P (dc - 1) par'' _ hSplitW x₂ P (dc - 1)
            (u₂ ++ Event.enqueue ch dc P :: (m₁ ++ Event.dequeue s ds :: m₂)) rfl s ds
          refine hwin ?_
          have henqM2 : Event.enqueue s ds par'' ∈ m₁ := by
            rw [← hparP, hp']
            exact henqM
          exact List.mem_append_right _
            (List.mem_cons_of_mem _ (List.mem_append_left _ henqM2))

/-- A two-level wiki: `A` links to `C` then `B`, and `B` links to `D`
then `E`. -/
def orderClient : Client :=
  tableClient [("A", "a"), ("B", "b"), ("C", "c"), ("D", "d"), ("E", "e")]
    [("A", ["C", "B"]), ("B", ["D", "E"])]

/-- Claim C4: order laws of the two strategies.  Breadth-first (FIFO
`get_next`): every page enqueued at depth `d` (the start page counting as
enqueued at depth 0) is dequeued before any page dequeued at depth
`d + 1`; since a dequeued page carries exactly its enqueue depth, this is
the claim's "enqueued at depth d before any page enqueued at depth d+1".
Depth-first (LIFO `get_next`): once a page `P` is expanded, its
first-discovered child (the target of `P`'s first `add_page` call) is
dequeued before any sibling of `P` (a different page enqueued with the
same parent as `P`) is dequeued. -/
theorem C4_order_laws (c : Client) (pr : Processor) (start : String) (md lim : Int)
    (fuel : Nat) :
    (∀ (p : String) (dp : Nat) (l₁ : List Event) (qt : String) (l₂ : List Event),
      ((∃ par, Event.enqueue p dp par ∈ (crawl c pr .bfs start md lim fuel).events) ∨
        (p = start ∧ dp = 0)) →
      (crawl c pr .bfs start md lim fuel).events = l₁ ++ .dequeue qt (dp + 1) :: l₂ →
      .dequeue p dp ∈ l₁) ∧
    (∀ (l₁ : List Event) (ch : String) (dc : Nat) (P : String)
      (m₁ : List Event) (s : String) (ds : Nat) (m₂ : List Event)
      (par : String) (dP dsq : Nat),
      (crawl c pr .dfs start md lim fuel).events =
        l₁ ++ Event.enqueue ch dc P :: (m₁ ++ Event.dequeue s ds :: m₂) →
      (∀ (u : String) (du : Nat), Event.enqueue u du P ∉ l₁) →
      Event.enqueue P dP par ∈ (crawl c pr .dfs start md lim fuel).events →
      Event.enqueue s dsq par ∈ (crawl c pr .dfs start md lim fuel).events →
      s ≠ P →
      Event.dequeue ch dc ∈ m₁) :=
  ⟨bfs_order_law c pr start md lim fuel, dfs_order_law c pr start md lim fuel⟩

/-- Witness for C4 on the two-level wiki: breadth-first, `B` (enqueued at
depth 1) is dequeued before the depth-2 dequeue of `D`; depth-first,
`B`'s first-discovered child `D` is dequeued before `B`'s sibling `C`. -/
theorem C4_order_laws_witness :
    Event.dequeue "B" 1 ∈ [Event.dequeue "A" 0, Event.fetchPage "A", Event.emit "A",
      Event.getLinks "A", Event.enqueue "C" 1 "A", Event.enqueue "B" 1 "A",
      Event.dequeue "C" 1, Event.fetchPage "C", Event.emit "C", Event.getLinks "C",
      Event.dequeue "B" 1, Event.fetchPage "B", Event.emit "B", Event.getLinks "B",
      Event.enqueue "D" 2 "B", Event.enqueue "E" 2 "B"] ∧
    Event.dequeue "D" 2 ∈ [Event.enqueue "E" 2 "B", Event.dequeue "E" 2,
      Event.fetchPage "E", Event.emit "E", Event.dequeue "D" 2, Event.fetchPage "D",
      Event.emit "D"] := by
  constructor
  · exact (C4_order_laws orderClient okProcessor "A" 2 10 10).1 "B" 1
      [Event.dequeue "A" 0, Event.fetchPage "A", Event.emit "A",
        Event.getLinks "A", Event.enqueue "C" 1 "A", Event.enqueue "B" 1 "A",
        Event.dequeue "C" 1, Event.fetchPage "C", Event.emit "C", Event.getLinks "C",
        Event.dequeue "B" 1, Event.fetchPage "B", Event.emit "B", Event.getLinks "B",
        Event.enqueue "D" 2 "B", Event.enqueue "E" 2 "B"] "D"
      [Event.fetchPage "D", Event.emit "D", Event.dequeue "E" 2,
        Event.fetchPage "E", Event.emit "E"]
      (Or.inl ⟨"A", by decide⟩) (by decide)
  · exact (C4_order_laws orderClient okProcessor "A" 2 10 10).2
      [Event.dequeue "A" 0, Event.fetchPage "A", Event.emit "A",
        Event.getLinks "A", Event.enqueue "C" 1 "A", Event.enqueue "B" 1 "A",
        Event.dequeue "B" 1, Event.fetchPage "B", Event.emit "B", Event.getLinks "B"]
      "D" 2 "B"
      [Event.enqueue "E" 2 "B", Event.dequeue "E" 2, Event.fetchPage "E",
        Event.emit "E", Event.dequeue "D" 2, Event.fetchPage "D", Event.emit "D"]
      "C" 1 [Event.fetchPage "C", Event.emit "C", Event.getLinks "C"]
      "A" 1 1 (by decide) (by intro u du hmem; simp at hmem) (by decide) (by decide)
      (by decide)

end PyWikiCli
